import Mathlib

/-!
Verification of the TLD-regex generator (src/TldRegexUpdater/TldRegexUpdater.py).

The Python program builds a character trie from a list of suffix lines
(Python dicts keyed by one-character strings, with the sentinel key "_"
marking the end of a suffix and the marker keys "_mark"/"_selfmark"
holding strings), then recursively compiles the trie into a single
regular-expression pattern string.

The embedding below models a Python dict node as a structure holding
the two marker entries as optional fields and the remaining entries as
an insertion-ordered association list (Python dicts preserve insertion
order; updating an existing key keeps its position).  A key is
represented as an element of the type KeyOpt: KeyOpt.term stands for the
sentinel key "_" and KeyOpt.ch c for the one-character key c.  The
position of the sentinel key among the children is preserved, because
the Python code iterates over it (it affects lookAheadIsSame).

Fallible Python code (IndexError on indexing an empty string) is
modelled with Except.
-/

set_option maxHeartbeats 1000000

namespace TldRegex

/-- Errors raised by the modelled Python code.  PyErr.indexError models an
uncaught IndexError from indexing position 0 of an empty string. -/
inductive PyErr : Type where
  | indexError
deriving DecidableEq, Repr

/-- A key of a trie dict: the sentinel key "_" (term) or a one-character
key (ch c).  The marker keys "_mark"/"_selfmark" are modelled as the
optional fields of Trie instead. -/
inductive KeyOpt : Type where
  | term
  | ch (c : Char)
deriving DecidableEq, Repr

mutual
/-- A node of the Python trie dict: the optional "_mark"/"_selfmark"
entries (whose values are strings) and the remaining entries in
insertion order. -/
inductive Trie : Type where
  | mk (mark selfmark : Option String) (children : Entries)

/-- Insertion-ordered entries of a trie dict (children plus the sentinel
key, excluding the marker keys). -/
inductive Entries : Type where
  | nil
  | cons (key : KeyOpt) (val : Trie) (rest : Entries)
end

/-- The empty Python dict. -/
def emptyTrie : Trie := Trie.mk none none Entries.nil

def Trie.mark : Trie → Option String
  | Trie.mk m _ _ => m

def Trie.selfmark : Trie → Option String
  | Trie.mk _ s _ => s

def Trie.children : Trie → Entries
  | Trie.mk _ _ c => c

/-- Number of non-marker entries of a dict. -/
def Entries.size : Entries → Nat
  | Entries.nil => 0
  | Entries.cons _ _ rest => rest.size + 1

/-- Python dict lookup on a non-marker key. -/
def Entries.lookup : Entries → KeyOpt → Option Trie
  | Entries.nil, _ => none
  | Entries.cons k v rest, k2 => if k = k2 then some v else rest.lookup k2

/-- Python dict membership test on a non-marker key. -/
def Entries.hasKey (es : Entries) (k : KeyOpt) : Bool :=
  (es.lookup k).isSome

/-- Python dict assignment d[k] = v: updating an existing key keeps its
position, a new key is appended at the end. -/
def Entries.setK : Entries → KeyOpt → Trie → Entries
  | Entries.nil, k, v => Entries.cons k v Entries.nil
  | Entries.cons k0 v0 rest, k, v =>
      if k0 = k then Entries.cons k0 v rest
      else Entries.cons k0 v0 (rest.setK k v)

/-- List of keys of the entries, in order. -/
def Entries.keys : Entries → List KeyOpt
  | Entries.nil => []
  | Entries.cons k _ rest => k :: rest.keys

/-- Python len() of a trie dict: counts the marker keys too. -/
def Trie.pylen (t : Trie) : Nat :=
  t.children.size + (if t.mark.isSome then 1 else 0) +
    (if t.selfmark.isSome then 1 else 0)

/-- Assignment t[k] = v for a non-marker key, leaving marks in place. -/
def Trie.setChild (t : Trie) (k : KeyOpt) (v : Trie) : Trie :=
  Trie.mk t.mark t.selfmark (t.children.setK k v)

/-- Assignment t["_mark"] = s. -/
def Trie.setMark (t : Trie) (s : String) : Trie :=
  Trie.mk (some s) t.selfmark t.children

/-- Assignment t["_selfmark"] = s. -/
def Trie.setSelfmark (t : Trie) (s : String) : Trie :=
  Trie.mk t.mark (some s) t.children

/-- The list of global regex metacharacters escaped by the program
(variable escapes, line 18 of the source). -/
def escapes : List Char := ['(', ')', '.', '\\', '[', ']']

/-- Transcription of escape (source lines 20-24): prepend a backslash to
the characters of the escapes list, leave every other character alone. -/
def escape (c : Char) : String :=
  if c ∈ escapes then "\\" ++ String.singleton c else String.singleton c

/-- The replacements-marks table (global replacements_marks): keys are
one-character lowercased strings, values are lists of mark strings. -/
def RMarks : Type := List (String × List String)

/-- Association-list lookup used for the replacements_marks dict. -/
def rmLookup (rm : RMarks) (s : String) : Option (List String) :=
  match rm with
  | [] => none
  | (k, v) :: rest => if k = s then some v else rmLookup rest s

/-- Membership in replacements_marks. -/
def rmHas (rm : RMarks) (s : String) : Bool := (rmLookup rm s).isSome

/-- Transcription of getMark (source lines 26-33): concatenate a
whitespace-matcher for every "!" mark registered for the character. -/
def getMark (rm : RMarks) (s : String) : String :=
  match rmLookup rm s with
  | none => ""
  | some l => l.foldl (fun acc m => if m = "!" then acc ++ "\\s*" else acc) ""

/-- Python one-character slice s[1:2] of the remaining suffix, as used in
addTLDRecursive: the first character of the tail, or "" when absent. -/
def sliceOne : List Char → String
  | [] => ""
  | c :: _ => String.singleton c

/-- Python len(tld) == 1 and "_" in tld (source line 49). -/
def pyIsEnd (t : Trie) : Bool :=
  t.pylen = 1 && t.children.hasKey KeyOpt.term

/-- Transcription of addTLDRecursive (source lines 35-50).  The Python
function indexes tld_s[0], which raises IndexError on an empty string,
hence the Except result.  The suffix tail is a character list; the
replacements_marks global is passed explicitly. -/
def addTLDRecursive (rm : RMarks) (usemarks : Bool) :
    List Char → Trie → Except PyErr (Trie × Bool)
  | [], _ => Except.error PyErr.indexError
  | c :: rest, tld => do
      let ctld : Trie :=
        match tld.children.lookup (KeyOpt.ch c) with
        | some t => t
        | none => emptyTrie
      if rest.length > 0 then do
        let (sub, isend) ← addTLDRecursive rm usemarks rest ctld
        let tld1 := tld.setChild (KeyOpt.ch c) sub
        let tld2 :=
          if usemarks && rmHas rm (sliceOne rest) then
            if !isend then tld1.setMark (getMark rm (sliceOne rest)) else tld1
          else tld1
        pure (tld2, pyIsEnd tld2)
      else
        let ctld2 := ctld.setChild KeyOpt.term emptyTrie
        let tld1 := tld.setChild (KeyOpt.ch c) ctld2
        pure (tld1, pyIsEnd tld1)

/-- Python str.strip: drop leading and trailing whitespace. -/
def pyStrip (s : String) : String :=
  String.mk (((s.data.dropWhile Char.isWhitespace).reverse.dropWhile
    Char.isWhitespace).reverse)

/-- Python str.lower restricted to ASCII (the inputs considered are
ASCII; Lean Char.toLower lowers exactly the ASCII uppercase letters). -/
def pyLower (s : String) : String := String.mk (s.data.map Char.toLower)

/-- Python str.startswith("#"): the first character is a hash. -/
def startsHash (s : String) : Bool :=
  match s.data with
  | c :: _ => c = '#'
  | [] => false

/-- Python one-character-from-the-front slice s[1:], as used on the
look-ahead strings. -/
def pyTail (s : String) : String := String.mk (s.data.drop 1)

/-- Body of the IANA ingestion loop (source lines 57-65), for one line:
strip, skip comment lines, lowercase, and insert into the top-level dict
keyed by the first character; indexing tld_s[0] of an empty line raises
IndexError. -/
def ianaStep (tlds : Entries) (rawLine : String) : Except PyErr Entries := do
  let line := pyStrip rawLine
  if startsHash line then
    pure tlds
  else
    let tld_s := pyLower line
    match tld_s.data with
    | [] => Except.error PyErr.indexError
    | c :: rest => do
        let tld : Trie :=
          match tlds.lookup (KeyOpt.ch c) with
          | some t => t
          | none => emptyTrie
        let (t2, _) ← addTLDRecursive [] false rest tld
        pure (tlds.setK (KeyOpt.ch c) t2)

/-- Transcription of the IANA ingestion loop (source lines 56-65).  The
top-level dict is returned as a mark-free Trie. -/
def ingestIana (lines : List String) : Except PyErr Trie := do
  let es ← lines.foldlM ianaStep Entries.nil
  pure (Trie.mk none none es)

/-- Key rendered as the Python dict-key string: the sentinel key is the
one-character string "_". -/
def keyStr : KeyOpt → String
  | KeyOpt.term => "_"
  | KeyOpt.ch c => String.singleton c

/-- Inner loop of lookAheadIsSame (source lines 112-117): scan the keys
of a child dict (marker keys excluded, they are fields here) and clear
the flag when two successive keys differ.  The accumulator last models
the Python variable last, with none standing for the initial "". -/
def eqScan : Entries → Option KeyOpt → Bool → Bool
  | Entries.nil, _, same => same
  | Entries.cons k _ rest, last, same =>
      let same1 :=
        match last with
        | some l => if k ≠ l then false else same
        | none => same
      eqScan rest (some k) same1

mutual
/-- Transcription of lookAheadIsSame (source lines 106-124).  Returns
whether every branch below the node spells the same linear continuation,
together with the accumulated look-ahead string. -/
def lookAheadIsSame : Trie → String → Bool × String
  | Trie.mk _ _ ch, ttld =>
      let (same, _, cahead) := lookList ch (true, "", "")
      (same, ttld ++ cahead)

/-- Loop of lookAheadIsSame over the entries of a dict, threading the
state (same, nahead, cahead). -/
def lookList : Entries → (Bool × String × String) → Bool × String × String
  | Entries.nil, st => st
  | Entries.cons k v rest, (same, nahead, cahead) =>
      let same1 := eqScan v.children none same
      let st2 :=
        if same1 then
          let (same2, ahead) := lookAheadIsSame v (keyStr k)
          let same3 :=
            if nahead ≠ "" && pyTail ahead ≠ nahead then false else same2
          (same3, pyTail ahead, ahead)
        else (same1, nahead, cahead)
      lookList rest st2
end

/-- Loop state of compileRegexRecursive: the variables regex, singles,
postsingle, num_patterns, max_patterns. -/
structure CState : Type where
  regex : String
  singles : List String
  postsingle : String
  num : Nat
  maxp : Nat

mutual
/-- Transcription of compileRegexRecursive (source lines 126-196).
Returns (regex, max(max_patterns, num_patterns), num_patterns,
len(singles) == len(tlds) - markcount). -/
def compileRegexRecursive : Trie → Bool → Bool → String × Nat × Nat × Bool
  | t@(Trie.mk _ _ ch), issame, root =>
  let mark := match t.mark with | some m => m | none => ""
  let markcount :=
    (if t.mark.isSome then 1 else 0) + (if t.selfmark.isSome then 1 else 0)
  let st := compileList ch issame root mark
    (CState.mk "" [] "" 0 0)
  let regex := st.regex
  let num := st.num
  let regex :=
    if st.singles.length > 1 then
      (if regex.length > 0 then regex ++ "|" else regex) ++ "[" ++
        String.join st.singles ++ "]"
    else if st.singles.length = 1 then
      (if regex.length > 0 then regex ++ "|" else regex) ++
        st.singles.headD ""
    else regex
  let num := if st.singles.length ≥ 1 then num + 1 else num
  let regex := if issame then regex ++ mark else regex
  let regex := regex ++ st.postsingle
  let (regex, num) :=
    if t.children.hasKey KeyOpt.term && regex.length > 0 then
      (regex ++ "|", num + 1)
    else (regex, num)
  (regex, max st.maxp num, num, decide (st.singles.length = t.pylen - markcount))

/-- Loop of compileRegexRecursive over the entries of the dict (source
lines 139-175), threading the loop state.  The parameter mark is the
enclosing node's "_mark" value. -/
def compileList (es : Entries) (issame root : Bool) (mark : String)
    (st : CState) : CState :=
  match es with
  | Entries.nil => st
  | Entries.cons k v rest =>
      let st2 :=
        match k with
        | KeyOpt.term => st
        | KeyOpt.ch c =>
            let submarkcount :=
              (if v.mark.isSome then 1 else 0) +
                (if v.selfmark.isSome then 1 else 0)
            let selfmark := match v.selfmark with | some s => s | none => ""
            if v.pylen - submarkcount = 1 && v.children.hasKey KeyOpt.term then
              CState.mk st.regex (st.singles ++ [String.singleton c])
                st.postsingle st.num st.maxp
            else
              let tlen := v.pylen - submarkcount
              let regex :=
                if st.regex.length > 0 then st.regex ++ "|" else st.regex
              let looked := lookAheadIsSame v (String.singleton c)
              let newissame := looked.1
              let rec4 := compileRegexRecursive v newissame false
              let retval := rec4.1
              let patterns := rec4.2.1
              let onlysingles := rec4.2.2.2
              let maxp := max st.maxp patterns
              let regex := if patterns > 1 || root then regex ++ "(?:" else regex
              let regex :=
                if !issame then regex ++ escape c ++ selfmark ++ mark else regex
              let regex :=
                if tlen > 1 && !onlysingles then regex ++ "(?:" else regex
              let (regex, singles, postsingle, num) :=
                if issame then
                  (regex, st.singles ++ [escape c],
                    if st.postsingle = "" then retval else st.postsingle, st.num)
                else
                  (regex ++ retval, st.singles, st.postsingle, st.num + 1)
              let regex :=
                if tlen > 1 && !onlysingles then regex ++ ")" else regex
              let regex := if patterns > 1 || root then regex ++ ")" else regex
              let regex := if regex = "(?:)" then "" else regex
              CState.mk regex singles postsingle num maxp
      compileList rest issame root mark st2
end

/-- Transcription of filler (source lines 67-70): the list of words
obtained by replacing every character by each of its registered
replacement alternatives (itertools.product order: leftmost character
varies slowest). -/
def filler (repl : List (Char × List String)) (word : String) : List String :=
  let combos : List (List String) := word.data.map (fun c =>
    match repl.lookup c with
    | some l => l
    | none => [String.singleton c])
  combos.foldr
    (fun options acc => options.flatMap (fun o => acc.map (fun r => o ++ r)))
    [""]

/-- The global marks list (source line 17). -/
def marksList : List String := ["!"]

/-- The while loop of the replacements-file parser (source lines 79-85):
repeatedly consume a mark character at position 1 of the line, recording
it, and splice it out of the line.  Recursion is on the tail of the
line, which shrinks by one character at each step. -/
def consumeMarks (c0 : Char) : List Char → List String → List String × List Char
  | [], acc => (acc, [])
  | c1 :: restLine, acc =>
      if String.singleton c1 ∈ marksList then
        consumeMarks c0 restLine (acc ++ [pyLower (String.singleton c1)])
      else (acc, c1 :: restLine)

/-- Python str.split() with no argument: split on whitespace runs,
dropping empty pieces. -/
def pySplit (s : String) : List String :=
  (s.data.splitOnP Char.isWhitespace).map String.mk |>.filter (fun p => p ≠ "")

/-- Association-list assignment for replacements_marks (insertion order
preserved, matching a Python dict). -/
def rmSet (rm : RMarks) (k : String) (v : List String) : RMarks :=
  match rm with
  | [] => [(k, v)]
  | (k0, v0) :: rest => if k0 = k then (k0, v) :: rest else (k0, v0) :: rmSet rest k v

/-- Association-list assignment for the replacements dict. -/
def replSet (repl : List (Char × List String)) (k : Char) (v : List String) :
    List (Char × List String) :=
  match repl with
  | [] => [(k, v)]
  | (k0, v0) :: rest =>
      if k0 = k then (k0, v) :: rest else (k0, v0) :: replSet rest k v

/-- Transcription of the replacements-file ingestion loop (source lines
73-86).  Indexing line[0] of an empty non-comment line raises
IndexError. -/
def procReplLines (lines : List String) :
    Except PyErr (RMarks × List (Char × List String)) :=
  lines.foldlM
    (fun (st : RMarks × List (Char × List String)) (rawLine : String) => do
      let (rm, repl) := st
      let line := pyStrip rawLine
      if startsHash line then
        pure (rm, repl)
      else
        match line.data with
        | [] => Except.error PyErr.indexError
        | c0 :: restLine =>
            let rm1 := rmSet rm (pyLower (String.singleton c0)) []
            let (marksAcc, restLine2) := consumeMarks c0 restLine []
            let rm2 := rmSet rm1 (pyLower (String.singleton c0)) marksAcc
            let lineFinal := String.mk (c0 :: restLine2)
            let repl1 := replSet repl c0 (pySplit lineFinal)
            pure (rm2, repl1))
    ([], [])

/-- Transcription of the anti-workaround TLD ingestion loop (source
lines 87-104): expand each non-comment line through filler, then insert
every permutation into the ctlds dict with marks enabled. -/
def procTldLines (rm : RMarks) (repl : List (Char × List String))
    (lines : List String) : Except PyErr Trie := do
  let es ← lines.foldlM
    (fun (ctlds : Entries) (rawLine : String) => do
      let line := pyStrip rawLine
      if startsHash line then
        pure ctlds
      else
        match line.data with
        | [] => Except.error PyErr.indexError
        | l0 :: _ =>
            let permutations := filler repl line
            let origStart := pyLower (String.singleton l0)
            permutations.foldlM
              (fun (ctlds : Entries) (aline : String) => do
                let tld_s := pyLower aline
                match tld_s.data with
                | [] => Except.error PyErr.indexError
                | c :: rest => do
                    let tld : Trie :=
                      match ctlds.lookup (KeyOpt.ch c) with
                      | some t => t
                      | none => emptyTrie
                    let tld :=
                      if rmHas rm origStart then
                        tld.setSelfmark (getMark rm origStart)
                      else tld
                    let tld :=
                      if rmHas rm (sliceOne rest) then
                        tld.setMark (getMark rm (sliceOne rest))
                      else tld
                    let (t2, _) ← addTLDRecursive rm true rest tld
                    pure (ctlds.setK (KeyOpt.ch c) t2))
              ctlds)
    Entries.nil
  pure (Trie.mk none none es)

/-- Transcription of the final assembly (source lines 198-208): open
parenthesis, the IANA fragment unless the short flag is set, the
anti-workaround fragment when both files exist (preceded by a separator
only when the short flag is unset and something was already emitted),
closing parenthesis. -/
def assembleRegex (sFlag filesExist : Bool) (tlds ctlds : Trie) : String :=
  let regex := "("
  let regex :=
    if !sFlag then regex ++ (compileRegexRecursive tlds false true).1 else regex
  let regex :=
    if filesExist then
      (if !sFlag && regex.length > 1 then regex ++ "|" else regex) ++
        (compileRegexRecursive ctlds false true).1
    else regex
  regex ++ ")"

/-- The whole program as a function of the short flag, the fetched IANA
lines, and the optional contents of the two anti-workaround files
(replacements file, TLD file); returns the pattern written to
tldregex.txt, or the uncaught exception. -/
def mainRegex (sFlag : Bool) (ianaLines : List String)
    (antiFiles : Option (List String × List String)) : Except PyErr String := do
  let tlds ← if !sFlag then ingestIana ianaLines else pure emptyTrie
  match antiFiles with
  | some (replLines, tldLines) => do
      let (rm, repl) ← procReplLines replLines
      let ctlds ← procTldLines rm repl tldLines
      pure (assembleRegex sFlag true tlds ctlds)
  | none => pure (assembleRegex sFlag false tlds emptyTrie)

/-- The common configuration for the soundness and exactness claims: no
short flag, no anti-workaround files; the pattern is a function of the
fetched suffix lines alone. -/
def pipelineRegex (lines : List String) : Except PyErr String :=
  mainRegex false lines none

/-!
Regex semantics.  The program only emits pattern text; to state that the
pattern fully matches a string we model the standard regex dialect
actually emitted (literal characters, backslash escapes, the wildcard
dot, character classes with optional leading negation and dash ranges,
non-capturing and capturing groups, alternation including empty
alternatives).  Quantifiers and anchors are never emitted by the
modelled configurations, so the parser rejects them.  Matching is by
Brzozowski derivatives; the denotational language Lang is the
specification and rmatch is proved equivalent to it.
-/

/-- An item of a character class: a single character or a dash range. -/
inductive ClsItem : Type where
  | one (c : Char)
  | range (lo hi : Char)

/-- Regular expressions over characters, quantifier-free (the program
never emits a quantifier in the modelled configurations). -/
inductive RE : Type where
  | eps
  | dot
  | char (c : Char)
  | cls (neg : Bool) (items : List ClsItem)
  | seq (a b : RE)
  | alt (a b : RE)

/-- Whether a class item covers a character. -/
def ClsItem.memB (i : ClsItem) (c : Char) : Bool :=
  match i with
  | ClsItem.one d => c = d
  | ClsItem.range lo hi => lo ≤ c && c ≤ hi

/-- Whether a character class (possibly negated) matches a character. -/
def clsMatch (neg : Bool) (items : List ClsItem) (c : Char) : Bool :=
  (items.any (fun i => i.memB c)) != neg

/-- Whether a regex accepts the empty string. -/
def RE.nullable : RE → Bool
  | RE.eps => true
  | RE.dot => false
  | RE.char _ => false
  | RE.cls _ _ => false
  | RE.seq a b => a.nullable && b.nullable
  | RE.alt a b => a.nullable || b.nullable

/-- The regex matching nothing. -/
def RE.void : RE := RE.cls false []

/-- Brzozowski derivative. -/
def RE.deriv : RE → Char → RE
  | RE.eps, _ => RE.void
  | RE.dot, _ => RE.eps
  | RE.char c, x => if x = c then RE.eps else RE.void
  | RE.cls neg items, x => if clsMatch neg items x then RE.eps else RE.void
  | RE.seq a b, x =>
      if a.nullable then RE.alt (RE.seq (a.deriv x) b) (b.deriv x)
      else RE.seq (a.deriv x) b
  | RE.alt a b, x => RE.alt (a.deriv x) (b.deriv x)

/-- Derivative-based full matching of a character list. -/
def rmatch : RE → List Char → Bool
  | r, [] => r.nullable
  | r, c :: s => rmatch (r.deriv c) s

/-- Denotational language of a regex. -/
def Lang : RE → List Char → Prop
  | RE.eps, s => s = []
  | RE.dot, s => ∃ c, s = [c]
  | RE.char c, s => s = [c]
  | RE.cls neg items, s => ∃ c, s = [c] ∧ clsMatch neg items c = true
  | RE.seq a b, s => ∃ u v, s = u ++ v ∧ Lang a u ∧ Lang b v
  | RE.alt a b, s => Lang a s ∨ Lang b s

/-- A parser frame: the completed alternatives of the current group and
the atoms of the alternative being read, in order. -/
structure PFrame : Type where
  alts : List RE
  cur : List RE

/-- Sequential composition of a list of atoms. -/
def seqOf (atoms : List RE) : RE := atoms.foldr RE.seq RE.eps

/-- Alternation of a list of alternatives (empty list matches nothing). -/
def altsOf (alts : List RE) : RE := alts.foldr RE.alt RE.void

/-- The regex denoted by a closed frame. -/
def frameRE (f : PFrame) : RE := altsOf (f.alts ++ [seqOf f.cur])

/-- State of the in-class sub-parser. -/
structure CLState : Type where
  neg : Bool
  items : List ClsItem
  pending : Option Char
  dash : Bool
  first : Bool
  esc : Bool

/-- Commit a literal character into a class parse (closing a pending
dash range if one is open). -/
def clsAddChar (cs : CLState) (x : Char) : CLState :=
  if cs.dash then
    match cs.pending with
    | some p =>
        CLState.mk cs.neg (cs.items ++ [ClsItem.range p x]) none false false false
    | none => CLState.mk cs.neg cs.items (some x) false false false
  else
    match cs.pending with
    | some p =>
        CLState.mk cs.neg (cs.items ++ [ClsItem.one p]) (some x) false false false
    | none => CLState.mk cs.neg cs.items (some x) false false false

/-- Items of a finished class parse. -/
def clsFlush (cs : CLState) : List ClsItem :=
  cs.items ++ (match cs.pending with | some p => [ClsItem.one p] | none => []) ++
    (if cs.dash then [ClsItem.one '-'] else [])

/-- Parser mode: ordinary scanning, after a backslash, just after an
opening parenthesis (a question mark would begin a non-capturing group),
after an opening parenthesis and question mark (expecting the colon), or
inside a character class. -/
inductive PMode : Type where
  | norm
  | esc
  | grpQ
  | grpC
  | cls (cs : CLState)

/-- Whole parser state. -/
structure PState : Type where
  mode : PMode
  frame : PFrame
  stack : List PFrame

/-- Append an atom to the current alternative. -/
def pushAtom (st : PState) (re : RE) : PState :=
  PState.mk PMode.norm (PFrame.mk st.frame.alts (st.frame.cur ++ [re])) st.stack

/-- One parser step in ordinary mode. -/
def stepNorm (st : PState) (c : Char) : Option PState :=
  if c = '\\' then
    some (PState.mk PMode.esc st.frame st.stack)
  else if c = '(' then
    some (PState.mk PMode.grpQ (PFrame.mk [] []) (st.frame :: st.stack))
  else if c = ')' then
    match st.stack with
    | [] => none
    | f :: rest =>
        some (PState.mk PMode.norm
          (PFrame.mk f.alts (f.cur ++ [frameRE st.frame])) rest)
  else if c = '|' then
    some (PState.mk PMode.norm
      (PFrame.mk (st.frame.alts ++ [seqOf st.frame.cur]) []) st.stack)
  else if c = '[' then
    some (PState.mk (PMode.cls (CLState.mk false [] none false true false))
      st.frame st.stack)
  else if c = '.' then
    some (pushAtom st RE.dot)
  else if c = '?' || c = '*' || c = '+' || c = '^' || c = '$' then
    none
  else
    some (pushAtom st (RE.char c))

/-- One parser step inside a character class. -/
def stepCls (st : PState) (cs : CLState) (c : Char) : Option PState :=
  if cs.esc then
    some (PState.mk (PMode.cls
      (clsAddChar (CLState.mk cs.neg cs.items cs.pending cs.dash cs.first false) c))
      st.frame st.stack)
  else if c = '\\' then
    some (PState.mk (PMode.cls
      (CLState.mk cs.neg cs.items cs.pending cs.dash cs.first true))
      st.frame st.stack)
  else if c = ']' && !cs.first then
    some (pushAtom (PState.mk PMode.norm st.frame st.stack)
      (RE.cls cs.neg (clsFlush cs)))
  else if c = '^' && cs.first && !cs.neg then
    some (PState.mk (PMode.cls (CLState.mk true cs.items cs.pending cs.dash true false))
      st.frame st.stack)
  else if c = '-' && cs.pending.isSome && !cs.dash then
    some (PState.mk (PMode.cls (CLState.mk cs.neg cs.items cs.pending true false false))
      st.frame st.stack)
  else
    some (PState.mk (PMode.cls (clsAddChar cs c)) st.frame st.stack)

/-- One parser step. -/
def step (st : PState) (c : Char) : Option PState :=
  match st.mode with
  | PMode.norm => stepNorm st c
  | PMode.esc => some (pushAtom (PState.mk PMode.norm st.frame st.stack) (RE.char c))
  | PMode.grpQ =>
      if c = '?' then some (PState.mk PMode.grpC st.frame st.stack)
      else stepNorm (PState.mk PMode.norm st.frame st.stack) c
  | PMode.grpC =>
      if c = ':' then some (PState.mk PMode.norm st.frame st.stack) else none
  | PMode.cls cs => stepCls st cs c

/-- Run the parser over a character list. -/
def stepO (ost : Option PState) (c : Char) : Option PState :=
  match ost with
  | none => none
  | some st => step st c

/-- The initial parser state. -/
def initPState : PState := PState.mk PMode.norm (PFrame.mk [] []) []

/-- Parse a whole pattern string into a regex (none on any construct the
emitted dialect does not contain, or on unbalanced syntax). -/
def parseRegex (p : String) : Option RE :=
  match p.data.foldl stepO (some initPState) with
  | some (PState.mk PMode.norm f []) => some (frameRE f)
  | _ => none

/-- Whether a pattern string fully matches a subject string, under the
modelled regex dialect. -/
def fullMatch (pat s : String) : Bool :=
  match parseRegex pat with
  | some re => rmatch re s.data
  | none => false

deriving instance DecidableEq for Except

/-!
Concrete evaluations settling the claims that fail on the code, and the
sanitary hypotheses under which the amended claims are later proved.
-/

/-- Boolean prefix test on character lists. -/
def isPrefB : List Char → List Char → Bool
  | [], _ => true
  | _ :: _, [] => false
  | a :: as, b :: bs => a = b && isPrefB as bs

/-- Boolean substring test on character lists (needle occurs
contiguously in the haystack). -/
def hasSubB : List Char → List Char → Bool
  | [], needle => needle.isEmpty
  | c :: rest, needle => isPrefB needle (c :: rest) || hasSubB rest needle

/-- The characters the escaper handles safely: the lowercase ASCII
letters and the ASCII digits (no regex metacharacter, no whitespace, no
uppercase, not the sentinel character). -/
def cleanChars : List Char :=
  ['a', 'b', 'c', 'd', 'e', 'f', 'g', 'h', 'i', 'j', 'k', 'l', 'm',
   'n', 'o', 'p', 'q', 'r', 's', 't', 'u', 'v', 'w', 'x', 'y', 'z',
   '0', '1', '2', '3', '4', '5', '6', '7', '8', '9']

/-- An input character the escaper handles safely. -/
def CleanChar (c : Char) : Prop := c ∈ cleanChars

instance (c : Char) : Decidable (CleanChar c) := by
  unfold CleanChar; infer_instance

/-- An input line the program ingests without error and whose characters
are safe: at least two characters, all clean. -/
def CleanLine (l : String) : Prop :=
  2 ≤ l.data.length ∧ ∀ c ∈ l.data, CleanChar c

instance (l : String) : Decidable (CleanLine l) := by
  unfold CleanLine; infer_instance

/-!
Proof-support definitions: the language of a trie, well-formedness of
the tries the ingestion builds, linear paths, the forward chain built by
one insertion, and the effect algebra of pattern fragments on the parser
state machine.
-/

/-- Membership of a word in the language of a trie: the empty word if
the node carries the sentinel key, otherwise descend along the child
keyed by the first character. -/
def inTrie : Trie → List Char → Prop
  | t, [] => t.children.hasKey KeyOpt.term = true
  | t, c :: w => ∃ s, t.children.lookup (KeyOpt.ch c) = some s ∧ inTrie s w

/-- The forward chain trie of one inserted suffix tail: each character
becomes a single child, the end is the sentinel key. -/
def chainTrie : List Char → Trie
  | [] => Trie.mk none none (Entries.cons KeyOpt.term emptyTrie Entries.nil)
  | c :: rest =>
      Trie.mk none none (Entries.cons (KeyOpt.ch c) (chainTrie rest) Entries.nil)

/-- A trie that is one linear path spelling the given word and ending at
the sentinel key (the shape detected by lookAheadIsSame). -/
def Linear : Trie → List Char → Prop
  | t, [] => t.children = Entries.cons KeyOpt.term emptyTrie Entries.nil
  | t, c :: w =>
      ∃ s, t.children = Entries.cons (KeyOpt.ch c) s Entries.nil ∧ Linear s w

/-- Every real child of the entries is a linear path spelling the same
word (the shape required for the issame compilation mode). -/
def RCL : Entries → List Char → Prop
  | Entries.nil, _ => True
  | Entries.cons KeyOpt.term _ rest, w => RCL rest w
  | Entries.cons (KeyOpt.ch _) v rest, w => Linear v w ∧ RCL rest w

mutual
/-- Well-formedness of the tries built by the ingestion of clean lines:
no marks, distinct keys, sentinel values empty, real children clean and
nonempty. -/
def WfT : Trie → Prop
  | Trie.mk mark selfmark ch =>
      mark = none ∧ selfmark = none ∧ ch.keys.Nodup ∧ WfE ch

/-- Well-formedness of trie entries (see WfT). -/
def WfE : Entries → Prop
  | Entries.nil => True
  | Entries.cons KeyOpt.term v rest => v = emptyTrie ∧ WfE rest
  | Entries.cons (KeyOpt.ch c) v rest =>
      CleanChar c ∧ WfT v ∧ v.children ≠ Entries.nil ∧ WfE rest
end

/-- The rendering of a linear path in the issame compilation mode: every
character through the escaper except the last, which is emitted raw by
the simple-singles branch. -/
def RenderPath : List Char → String
  | [] => ""
  | [d] => String.singleton d
  | d :: rest => escape d ++ RenderPath rest

/-- Run the pattern parser over a character list from a given state. -/
def runP (cs : List Char) (ost : Option PState) : Option PState :=
  cs.foldl stepO ost

/-- Completed alternatives contributed by a fragment whose alternative
atom-lists are a, when the current alternative already holds the atoms
q: the first fragment alternative extends q, the middle ones stand
alone. -/
def altsPart (q : List RE) : List (List RE) → List RE
  | [] => []
  | a1 :: rest => seqOf (q ++ a1) :: rest.map seqOf

/-- The atoms left in the current alternative after a fragment: the last
fragment alternative, extending q only when the fragment has a single
alternative. -/
def curPart (q : List RE) (a : List (List RE)) (l : List RE) : List RE :=
  match a with
  | [] => q ++ l
  | _ :: _ => l

/-- Effect of a pattern fragment on the parser: from any frame in
ordinary mode it completes the alternatives altsPart and leaves curPart
in the current alternative, never touching the stack. -/
def FragEff (r : String) (a : List (List RE)) (l : List RE) : Prop :=
  ∀ A q stk,
    runP r.data (some (PState.mk PMode.norm (PFrame.mk A q) stk)) =
      some (PState.mk PMode.norm
        (PFrame.mk (A ++ altsPart q a) (curPart q a l)) stk)

/-- Composition on the alternatives part when two fragments are
concatenated. -/
def shiftA (l1 : List RE) : List (List RE) → List (List RE)
  | [] => []
  | b :: rest => (l1 ++ b) :: rest

/-- Composition on the last-alternative part when two fragments are
concatenated. -/
def shiftL (l1 : List RE) (a2 : List (List RE)) (l2 : List RE) : List RE :=
  match a2 with
  | [] => l1 ++ l2
  | _ :: _ => l2

/-- The regex a fragment denotes when it stands alone inside a group. -/
def groupRE (a : List (List RE)) (l : List RE) : RE :=
  altsOf (altsPart [] a ++ [seqOf (curPart [] a l)])

/-- The language of a fragment with alternatives a and last alternative
l. -/
def altsLang (a : List (List RE)) (l : List RE) (s : List Char) : Prop :=
  (∃ as ∈ a, Lang (seqOf as) s) ∨ Lang (seqOf l) s

/-- The simple-child test of the compiler loop (source line 148): the
child dict has exactly one non-marker entry and it is the sentinel. -/
def simpleChild (v : Trie) : Bool :=
  (v.pylen -
      ((if v.mark.isSome then 1 else 0) +
        (if v.selfmark.isSome then 1 else 0)) = 1) &&
    v.children.hasKey KeyOpt.term

/-- The key characters of the simple children (source line 149), in
order. -/
def simpleKeys : Entries → List Char
  | Entries.nil => []
  | Entries.cons KeyOpt.term _ rest => simpleKeys rest
  | Entries.cons (KeyOpt.ch c) v rest =>
      (if simpleChild v then [c] else []) ++ simpleKeys rest

/-- The key characters of the complex (non-simple) children, in
order. -/
def cpxKeys : Entries → List Char
  | Entries.nil => []
  | Entries.cons KeyOpt.term _ rest => cpxKeys rest
  | Entries.cons (KeyOpt.ch c) v rest =>
      (if simpleChild v then [] else [c]) ++ cpxKeys rest

/-- The key characters of all real children, in order. -/
def realKeys : Entries → List Char
  | Entries.nil => []
  | Entries.cons KeyOpt.term _ rest => realKeys rest
  | Entries.cons (KeyOpt.ch c) _ rest => c :: realKeys rest

/-- The union of the children languages of the entries, each prefixed by
its key character, with the sentinel contributing the empty word. -/
def entLang : Entries → List Char → Prop
  | Entries.nil, _ => False
  | Entries.cons KeyOpt.term _ rest, s => s = [] ∨ entLang rest s
  | Entries.cons (KeyOpt.ch c) v rest, s =>
      (∃ s2, s = c :: s2 ∧ inTrie v s2) ∨ entLang rest s

/-- The part of entLang contributed by the complex (non-simple)
children. -/
def cpxLang : Entries → List Char → Prop
  | Entries.nil, _ => False
  | Entries.cons KeyOpt.term _ rest, s => cpxLang rest s
  | Entries.cons (KeyOpt.ch c) v rest, s =>
      (simpleChild v = false ∧ ∃ s2, s = c :: s2 ∧ inTrie v s2) ∨ cpxLang rest s

/-- The part of entLang contributed by the simple children. -/
def sglLang : Entries → List Char → Prop
  | Entries.nil, _ => False
  | Entries.cons KeyOpt.term _ rest, s => sglLang rest s
  | Entries.cons (KeyOpt.ch c) v rest, s =>
      (simpleChild v = true ∧ s = [c]) ∨ sglLang rest s

/-- Membership of a trie among the values of entries. -/
def entMem (v : Trie) : Entries → Prop
  | Entries.nil => False
  | Entries.cons _ v2 rest => v = v2 ∨ entMem v rest

/-- A fragment acceptable as group content directly after an opening
parenthesis (its first character is not a question mark, so a capturing
group wrapping it parses as such). -/
def headOK (r : String) : Prop := r.data.head? ≠ some '?'

/-- Invariant of the compiler loop state: the accumulated pattern text
is either still empty, or a fragment with known alternative structure
whose alternative count is the accumulated num_patterns and whose
language is the accumulated semantics. -/
def LoopInv (regex : String) (num : Nat) (a : List (List RE)) (l : List RE)
    (sem : List Char → Prop) : Prop :=
  (regex = "" ∧ num = 0 ∧ a = [] ∧ l = [] ∧ ∀ s, ¬ sem s) ∨
  (regex ≠ "" ∧ FragEff regex a l ∧ headOK regex ∧ num = a.length + 1 ∧
    (∀ s, altsLang a l s ↔ sem s))

/-- Full characterization of one compiler call on a node: the emitted
fragment has a known alternative structure, its alternative count is the
returned num_patterns, the onlysingles flag forces a single alternative,
the fragment is nonempty with a group-safe first character, and its
language is the language of the node. -/
def CompiledOK (t : Trie) (issame root : Bool) : Prop :=
  ∃ a l,
    FragEff (compileRegexRecursive t issame root).1 a l ∧
    headOK (compileRegexRecursive t issame root).1 ∧
    (compileRegexRecursive t issame root).2.2.1 = a.length + 1 ∧
    ((compileRegexRecursive t issame root).2.2.2 = true → a = []) ∧
    (compileRegexRecursive t issame root).1 ≠ "" ∧
    (compileRegexRecursive t issame root).2.2.1 ≤
      (compileRegexRecursive t issame root).2.1 ∧
    (Entries.size t.children = 1 → a = []) ∧
    (∀ s, altsLang a l s ↔ inTrie t s)

/-- No child of the node (one level down) carries the sentinel key at
its top: true of the root trie built from lines of length at least
two. -/
def HeadsTermFree (t : Trie) : Prop :=
  ∀ c S, t.children.lookup (KeyOpt.ch c) = some S →
    S.children.hasKey KeyOpt.term = false

/-- Well-formedness of the root trie built by ingesting clean lines of
length at least two: well-formed, no sentinel at the root, and no
sentinel at the top of any level-one child. -/
def RootWf (t : Trie) : Prop :=
  WfT t ∧ t.children.hasKey KeyOpt.term = false ∧ HeadsTermFree t

/-! Basic lemmas about the trie dict operations and clean characters. -/

@[simp] theorem mark_mk (m s : Option String) (ch : Entries) :
    (Trie.mk m s ch).mark = m := rfl

@[simp] theorem selfmark_mk (m s : Option String) (ch : Entries) :
    (Trie.mk m s ch).selfmark = s := rfl

@[simp] theorem children_mk (m s : Option String) (ch : Entries) :
    (Trie.mk m s ch).children = ch := rfl

theorem WfT_def (t : Trie) : WfT t ↔
    t.mark = none ∧ t.selfmark = none ∧ t.children.keys.Nodup ∧
      WfE t.children := by
  cases t with
  | mk m s ch => exact Iff.rfl

/-- Induction principle for entries alone (the values stay opaque). -/
theorem entries_ind {motive : Entries → Prop} (hnil : motive Entries.nil)
    (hcons : ∀ k v rest, motive rest → motive (Entries.cons k v rest)) :
    ∀ es, motive es
  | Entries.nil => hnil
  | Entries.cons k v rest => hcons k v rest (entries_ind hnil hcons rest)

theorem lookup_setK_self (es : Entries) (k : KeyOpt) (v : Trie) :
    (es.setK k v).lookup k = some v := by
  induction es using entries_ind with
  | hnil => simp [Entries.setK, Entries.lookup]
  | hcons k0 v0 rest ih =>
      by_cases h : k0 = k
      · subst h; simp [Entries.setK, Entries.lookup]
      · simp [Entries.setK, Entries.lookup, h, ih]

theorem lookup_setK_ne (es : Entries) (k : KeyOpt) (v : Trie) (k2 : KeyOpt)
    (h : k2 ≠ k) : (es.setK k v).lookup k2 = es.lookup k2 := by
  have h2 : ¬ k = k2 := fun hh => h hh.symm
  induction es using entries_ind with
  | hnil => simp [Entries.setK, Entries.lookup, h2]
  | hcons k0 v0 rest ih =>
      by_cases h0 : k0 = k
      · subst h0
        have h3 : ¬ k0 = k2 := h2
        simp [Entries.setK, Entries.lookup, h3]
      · simp [Entries.setK, Entries.lookup, h0, ih]

theorem hasKey_setK_ne (es : Entries) (k : KeyOpt) (v : Trie) (k2 : KeyOpt)
    (h : k2 ≠ k) : (es.setK k v).hasKey k2 = es.hasKey k2 := by
  simp [Entries.hasKey, lookup_setK_ne es k v k2 h]

theorem hasKey_iff_mem_keys (es : Entries) (k : KeyOpt) :
    es.hasKey k = true ↔ k ∈ es.keys := by
  induction es using entries_ind with
  | hnil => simp [Entries.hasKey, Entries.lookup, Entries.keys]
  | hcons k0 v0 rest ih =>
      by_cases h : k0 = k
      · subst h; simp [Entries.hasKey, Entries.lookup, Entries.keys]
      · have h2 : ¬ k = k0 := fun hh => h hh.symm
        have ih2 : (rest.lookup k).isSome = true ↔ k ∈ rest.keys := by
          simpa [Entries.hasKey] using ih
        simp [Entries.hasKey, Entries.lookup, Entries.keys, h, h2, ih2]

theorem keys_setK_mem (es : Entries) (k : KeyOpt) (v : Trie)
    (h : es.hasKey k = true) : (es.setK k v).keys = es.keys := by
  induction es using entries_ind with
  | hnil => simp [Entries.hasKey, Entries.lookup] at h
  | hcons k0 v0 rest ih =>
      by_cases h0 : k0 = k
      · subst h0; simp [Entries.setK, Entries.keys]
      · have h2 : rest.hasKey k = true := by
          simpa [Entries.hasKey, Entries.lookup, h0] using h
        simp [Entries.setK, Entries.keys, h0, ih h2]

theorem keys_setK_new (es : Entries) (k : KeyOpt) (v : Trie)
    (h : es.hasKey k = false) : (es.setK k v).keys = es.keys ++ [k] := by
  induction es using entries_ind with
  | hnil => simp [Entries.setK, Entries.keys]
  | hcons k0 v0 rest ih =>
      by_cases h0 : k0 = k
      · subst h0; simp [Entries.hasKey, Entries.lookup] at h
      · have h2 : rest.hasKey k = false := by
          simpa [Entries.hasKey, Entries.lookup, h0] using h
        simp [Entries.setK, Entries.keys, h0, ih h2]

theorem nodup_setK (es : Entries) (k : KeyOpt) (v : Trie)
    (h : es.keys.Nodup) : (es.setK k v).keys.Nodup := by
  cases hk : es.hasKey k
  · rw [keys_setK_new es k v hk]
    have hmem : k ∉ es.keys := fun hm =>
      by simp [(hasKey_iff_mem_keys es k).mpr hm] at hk
    simp [List.nodup_append, h, hmem]
  · rw [keys_setK_mem es k v hk]; exact h

theorem WfE_lookup_ch (es : Entries) (c : Char) (v : Trie) (hwf : WfE es)
    (h : es.lookup (KeyOpt.ch c) = some v) :
    CleanChar c ∧ WfT v ∧ v.children ≠ Entries.nil := by
  induction es using entries_ind with
  | hnil => simp [Entries.lookup] at h
  | hcons k0 v0 rest ih =>
      by_cases h0 : k0 = KeyOpt.ch c
      · subst h0
        simp [Entries.lookup] at h
        subst h
        exact ⟨hwf.1, hwf.2.1, hwf.2.2.1⟩
      · cases k0 with
        | term =>
            simp [Entries.lookup, h0] at h
            exact ih hwf.2 h
        | ch d =>
            simp [Entries.lookup, h0] at h
            exact ih hwf.2.2.2 h

theorem WfE_lookup_term (es : Entries) (v : Trie) (hwf : WfE es)
    (h : es.lookup KeyOpt.term = some v) : v = emptyTrie := by
  induction es using entries_ind with
  | hnil => simp [Entries.lookup] at h
  | hcons k0 v0 rest ih =>
      cases k0 with
      | term =>
          simp [Entries.lookup] at h
          subst h
          exact hwf.1
      | ch d =>
          simp [Entries.lookup] at h
          exact ih hwf.2.2.2 h

theorem WfE_setK (es : Entries) (k : KeyOpt) (v : Trie) (hwf : WfE es)
    (hterm : k = KeyOpt.term → v = emptyTrie)
    (hch : ∀ c, k = KeyOpt.ch c →
      CleanChar c ∧ WfT v ∧ v.children ≠ Entries.nil) :
    WfE (es.setK k v) := by
  induction es using entries_ind with
  | hnil =>
      cases k with
      | term => exact ⟨hterm rfl, trivial⟩
      | ch c => exact ⟨(hch c rfl).1, (hch c rfl).2.1, (hch c rfl).2.2, trivial⟩
  | hcons k0 v0 rest ih =>
      by_cases h0 : k0 = k
      · subst h0
        have hsk : (Entries.cons k0 v0 rest).setK k0 v =
            Entries.cons k0 v rest := by simp [Entries.setK]
        rw [hsk]
        cases k0 with
        | term =>
            exact ⟨hterm rfl, hwf.2⟩
        | ch c =>
            exact ⟨(hch c rfl).1, (hch c rfl).2.1, (hch c rfl).2.2, hwf.2.2.2⟩
      · have hsk : (Entries.cons k0 v0 rest).setK k v =
            Entries.cons k0 v0 (rest.setK k v) := by simp [Entries.setK, h0]
        rw [hsk]
        cases k0 with
        | term =>
            exact ⟨hwf.1, ih hwf.2⟩
        | ch c =>
            exact ⟨hwf.1, hwf.2.1, hwf.2.2.1, ih hwf.2.2.2⟩

theorem cleanChar_facts (c : Char) (h : CleanChar c) :
    Char.toLower c = c ∧ Char.isWhitespace c = false ∧ c ≠ '#' ∧
      c ∉ escapes ∧ c ≠ '\\' ∧ c ≠ '(' ∧ c ≠ ')' ∧ c ≠ '|' ∧ c ≠ '[' ∧
      c ≠ ']' ∧ c ≠ '.' ∧ c ≠ '?' ∧ c ≠ '*' ∧ c ≠ '+' ∧ c ≠ '^' ∧
      c ≠ '$' ∧ c ≠ '-' ∧ c ≠ ':' ∧ c ≠ '_' := by
  unfold CleanChar cleanChars at h
  fin_cases h <;> decide

theorem escape_clean (c : Char) (h : CleanChar c) :
    escape c = String.singleton c := by
  unfold escape
  exact if_neg (cleanChar_facts c h).2.2.2.1

/-! Lemmas about the normalization applied by the ingestion. -/

theorem data_mk (w : List Char) : (String.mk w).data = w := rfl

theorem dropWhile_clean (w : List Char) (h : ∀ c ∈ w, CleanChar c) :
    w.dropWhile Char.isWhitespace = w := by
  cases w with
  | nil => rfl
  | cons c cs =>
      have hc := (cleanChar_facts c (h c (by simp))).2.1
      simp [List.dropWhile, hc]

theorem pyStrip_clean (w : List Char) (h : ∀ c ∈ w, CleanChar c) :
    pyStrip (String.mk w) = String.mk w := by
  unfold pyStrip
  rw [data_mk, dropWhile_clean w h,
    dropWhile_clean w.reverse (by intro c hc; exact h c (by simpa using hc)),
    List.reverse_reverse]

theorem map_toLower_clean (w : List Char) (h : ∀ c ∈ w, CleanChar c) :
    w.map Char.toLower = w := by
  induction w with
  | nil => rfl
  | cons c cs ih =>
      have hc := (cleanChar_facts c (h c (by simp))).1
      simp [hc, ih (fun d hd => h d (by simp [hd]))]

theorem pyLower_clean (w : List Char) (h : ∀ c ∈ w, CleanChar c) :
    pyLower (String.mk w) = String.mk w := by
  unfold pyLower
  rw [data_mk, map_toLower_clean w h]

theorem startsHash_clean (w : List Char) (h : ∀ c ∈ w, CleanChar c) :
    startsHash (String.mk w) = false := by
  cases w with
  | nil => rfl
  | cons c cs =>
      have hc := (cleanChar_facts c (h c (by simp))).2.2.1
      simp [startsHash, hc]

/-! Lemmas relating the derivative matcher to the denotational
language. -/

theorem nullable_iff (r : RE) : r.nullable = true ↔ Lang r [] := by
  induction r with
  | eps => simp [RE.nullable, Lang]
  | dot => simp [RE.nullable, Lang]
  | char c => simp [RE.nullable, Lang]
  | cls neg items => simp [RE.nullable, Lang]
  | seq a b iha ihb =>
      simp only [RE.nullable, Bool.and_eq_true, iha, ihb, Lang]
      constructor
      · rintro ⟨ha, hb⟩; exact ⟨[], [], rfl, ha, hb⟩
      · rintro ⟨u, v, huv, ha, hb⟩
        rcases List.append_eq_nil.mp huv.symm with ⟨hu, hv⟩
        subst hu; subst hv; exact ⟨ha, hb⟩
  | alt a b iha ihb =>
      simp [RE.nullable, Lang, iha, ihb]

theorem deriv_lang (r : RE) (c : Char) :
    ∀ s, Lang (r.deriv c) s ↔ Lang r (c :: s) := by
  induction r with
  | eps => intro s; simp [RE.deriv, RE.void, Lang, clsMatch]
  | dot =>
      intro s
      simp only [RE.deriv, Lang]
      constructor
      · intro h; subst h; exact ⟨c, rfl⟩
      · rintro ⟨d, hd⟩
        injection hd with h1 h2
        try exact h2
  | char d =>
      intro s
      simp only [RE.deriv]
      by_cases h : c = d
      · subst h; simp [Lang]
      · rw [if_neg h]
        simp [RE.void, Lang, clsMatch, h]
  | cls neg items =>
      intro s
      simp only [RE.deriv]
      by_cases h : clsMatch neg items c = true
      · rw [if_pos h]
        simp only [Lang]
        constructor
        · intro hs; subst hs; exact ⟨c, rfl, h⟩
        · rintro ⟨d, hd, hm⟩
          injection hd with h1 h2
          try exact h2
      · rw [if_neg h]
        simp only [RE.void, Lang, clsMatch]
        constructor
        · rintro ⟨d, hd, hm⟩
          simp at hm
        · rintro ⟨d, hd, hm⟩
          injection hd with h1 h2
          subst h1
          exact absurd hm h
  | seq a b iha ihb =>
      intro s
      simp only [RE.deriv]
      by_cases hn : a.nullable = true
      · rw [if_pos hn]
        simp only [Lang]
        constructor
        · rintro (⟨u, v, huv, hda, hb⟩ | hdb)
          · exact ⟨c :: u, v, by rw [huv, List.cons_append], (iha u).mp hda, hb⟩
          · exact ⟨[], c :: s, rfl, (nullable_iff a).mp hn, (ihb s).mp hdb⟩
        · rintro ⟨u, v, huv, ha, hb⟩
          cases u with
          | nil =>
              right
              simp only [List.nil_append] at huv
              subst huv
              exact (ihb s).mpr hb
          | cons u0 urest =>
              left
              injection huv with h1 h2
              subst h1
              exact ⟨urest, v, h2, (iha urest).mpr ha, hb⟩
      · rw [if_neg hn]
        simp only [Lang]
        constructor
        · rintro ⟨u, v, huv, hda, hb⟩
          exact ⟨c :: u, v, by rw [huv, List.cons_append], (iha u).mp hda, hb⟩
        · rintro ⟨u, v, huv, ha, hb⟩
          cases u with
          | nil => exact absurd ((nullable_iff a).mpr ha) hn
          | cons u0 urest =>
              injection huv with h1 h2
              subst h1
              exact ⟨urest, v, h2, (iha urest).mpr ha, hb⟩
  | alt a b iha ihb =>
      intro s
      simp [RE.deriv, Lang, iha, ihb]

theorem rmatch_iff : ∀ (s : List Char) (r : RE), rmatch r s = true ↔ Lang r s
  | [], r => by simpa [rmatch] using nullable_iff r
  | c :: s, r => by
      rw [show rmatch r (c :: s) = rmatch (r.deriv c) s from rfl,
        rmatch_iff s (r.deriv c)]
      exact deriv_lang r c s

/-! Lemmas about running the pattern parser. -/

theorem data_append (s t : String) : (s ++ t).data = s.data ++ t.data := rfl

theorem data_singleton (c : Char) : (String.singleton c).data = [c] := rfl

theorem runP_append (a b : List Char) (σ : Option PState) :
    runP (a ++ b) σ = runP b (runP a σ) := by
  simp [runP, List.foldl_append]

theorem runP_nil (σ : Option PState) : runP [] σ = σ := rfl

theorem fragEff_empty : FragEff "" [] [] := by
  intro A q stk
  simp [FragEff, runP, altsPart, curPart]
  try rfl

theorem fragEff_char (c : Char)
    (h : c ≠ '\\' ∧ c ≠ '(' ∧ c ≠ ')' ∧ c ≠ '|' ∧ c ≠ '[' ∧ c ≠ '.' ∧
      c ≠ '?' ∧ c ≠ '*' ∧ c ≠ '+' ∧ c ≠ '^' ∧ c ≠ '$') :
    FragEff (String.singleton c) [] [RE.char c] := by
  intro A q stk
  obtain ⟨h1, h2, h3, h4, h5, h6, h7, h8, h9, h10, h11⟩ := h
  simp [runP, data_singleton, stepO, step, stepNorm, h1, h2, h3, h4, h5, h6,
    h7, h8, h9, h10, h11, pushAtom, altsPart, curPart]

theorem fragEff_clean_char (c : Char) (h : CleanChar c) :
    FragEff (String.singleton c) [] [RE.char c] := by
  have hf := cleanChar_facts c h
  exact fragEff_char c ⟨hf.2.2.2.2.1, hf.2.2.2.2.2.1, hf.2.2.2.2.2.2.1,
    hf.2.2.2.2.2.2.2.1, hf.2.2.2.2.2.2.2.2.1, hf.2.2.2.2.2.2.2.2.2.2.1,
    hf.2.2.2.2.2.2.2.2.2.2.2.1, hf.2.2.2.2.2.2.2.2.2.2.2.2.1,
    hf.2.2.2.2.2.2.2.2.2.2.2.2.2.1, hf.2.2.2.2.2.2.2.2.2.2.2.2.2.2.1,
    hf.2.2.2.2.2.2.2.2.2.2.2.2.2.2.2.1⟩

theorem fragEff_esc (c : Char) : FragEff (String.mk ['\\', c]) [] [RE.char c] := by
  intro A q stk
  simp [runP, stepO, step, stepNorm, pushAtom, altsPart, curPart, data_mk]

theorem fragEff_bar : FragEff "|" [[]] [] := by
  intro A q stk
  simp [runP, stepO, step, stepNorm, altsPart, curPart, seqOf]

theorem fragEff_append (r1 r2 : String) (a1 a2 : List (List RE))
    (l1 l2 : List RE) (h1 : FragEff r1 a1 l1) (h2 : FragEff r2 a2 l2) :
    FragEff (r1 ++ r2) (a1 ++ shiftA l1 a2) (shiftL l1 a2 l2) := by
  intro A q stk
  rw [data_append, runP_append, h1 A q stk, h2 (A ++ altsPart q a1)
    (curPart q a1 l1) stk]
  cases a1 with
  | nil =>
      cases a2 with
      | nil => simp [altsPart, curPart, shiftA, shiftL]
      | cons b rest => simp [altsPart, curPart, shiftA, shiftL]
  | cons x xs =>
      cases a2 with
      | nil => simp [altsPart, curPart, shiftA, shiftL]
      | cons b rest => simp [altsPart, curPart, shiftA, shiftL, List.map_append]

theorem fragEff_group (r : String) (a : List (List RE)) (l : List RE)
    (h : FragEff r a l) : FragEff ("(?:" ++ r ++ ")") [] [groupRE a l] := by
  intro A q stk
  have hdata : ("(?:" ++ r ++ ")").data = ['(', '?', ':'] ++ (r.data ++ [')']) := by
    simp [data_append]
  rw [hdata, runP_append, runP_append]
  have h1 : runP ['(', '?', ':']
      (some (PState.mk PMode.norm (PFrame.mk A q) stk)) =
      some (PState.mk PMode.norm (PFrame.mk [] []) (PFrame.mk A q :: stk)) := by
    simp [runP, stepO, step, stepNorm]
  rw [h1, h [] [] (PFrame.mk A q :: stk)]
  simp [runP, stepO, step, stepNorm, pushAtom, altsPart, curPart, groupRE,
    frameRE]

theorem classRun (w : List Char) (h : ∀ c ∈ w, CleanChar c) :
    ∀ (items : List ClsItem) (p : Char) (f : PFrame) (stk : List PFrame),
      runP w (some (PState.mk (PMode.cls
          (CLState.mk false items (some p) false false false)) f stk)) =
        some (PState.mk (PMode.cls (CLState.mk false
          (items ++ ((p :: w).dropLast.map ClsItem.one))
          (some (w.getLastD p)) false false false)) f stk) := by
  induction w with
  | nil => intro items p f stk; simp [runP, List.dropLast]
  | cons c w2 ih =>
      intro items p f stk
      obtain ⟨hlow, hws, hhash, hesc, hbs2, hpo, hpc, hbar, hlb, hrb, hdot,
        hqm, hstar, hplus, hcar, hdol, hdash, hcol, hus⟩ :=
        cleanChar_facts c (h c (by simp))
      have hstep : stepO (some (PState.mk (PMode.cls
          (CLState.mk false items (some p) false false false)) f stk)) c =
          some (PState.mk (PMode.cls (CLState.mk false
            (items ++ [ClsItem.one p]) (some c) false false false)) f stk) := by
        simp [stepO, step, stepCls, clsAddChar, hbs2, hrb, hcar, hdash]
      rw [show runP (c :: w2) (some (PState.mk (PMode.cls
          (CLState.mk false items (some p) false false false)) f stk)) =
          runP w2 (stepO (some (PState.mk (PMode.cls
            (CLState.mk false items (some p) false false false)) f stk)) c)
        from rfl, hstep, ih (fun d hd => h d (by simp [hd]))]
      rw [show (p :: c :: w2).dropLast = p :: (c :: w2).dropLast from rfl,
        List.getLastD_cons p c w2]
      simp

theorem dropLast_map_getLastD (c0 : Char) (w : List Char) :
    (c0 :: w).dropLast.map ClsItem.one ++ [ClsItem.one (w.getLastD c0)] =
      (c0 :: w).map ClsItem.one := by
  induction w generalizing c0 with
  | nil => simp [List.dropLast]
  | cons c1 w2 ih =>
      have hdl : (c0 :: c1 :: w2).dropLast = c0 :: (c1 :: w2).dropLast := rfl
      have hgl : (c1 :: w2).getLastD c0 = w2.getLastD c1 :=
        List.getLastD_cons c0 c1 w2
      rw [hdl, hgl]
      simp only [List.map_cons, List.cons_append]
      rw [ih c1]
      simp

theorem fragEff_class (chars : List Char) (hne : chars ≠ [])
    (h : ∀ c ∈ chars, CleanChar c) :
    FragEff (String.mk ('[' :: (chars ++ [']']))) []
      [RE.cls false (chars.map ClsItem.one)] := by
  intro A q stk
  cases chars with
  | nil => cases hne rfl
  | cons c0 w =>
      obtain ⟨hlow, hws, hhash, hesc, hbs2, hpo, hpc, hbar, hlb, hrb, hdot,
        hqm, hstar, hplus, hcar, hdol, hdash, hcol, hus⟩ :=
        cleanChar_facts c0 (h c0 (by simp))
      rw [data_mk]
      have hs1 : stepO (some (PState.mk PMode.norm (PFrame.mk A q) stk)) '[' =
          some (PState.mk (PMode.cls (CLState.mk false [] none false true false))
            (PFrame.mk A q) stk) := by
        simp [stepO, step, stepNorm]
      have hs2 : stepO (some (PState.mk (PMode.cls
          (CLState.mk false [] none false true false)) (PFrame.mk A q) stk)) c0 =
          some (PState.mk (PMode.cls
            (CLState.mk false [] (some c0) false false false))
            (PFrame.mk A q) stk) := by
        simp [stepO, step, stepCls, clsAddChar, hbs2, hrb, hcar, hdash]
      rw [show ('[' :: ((c0 :: w) ++ [']'])) =
        '[' :: c0 :: (w ++ [']']) from rfl]
      rw [show runP ('[' :: c0 :: (w ++ [']'])) (some (PState.mk PMode.norm
          (PFrame.mk A q) stk)) = runP (w ++ [']'])
          (stepO (stepO (some (PState.mk PMode.norm (PFrame.mk A q) stk)) '[') c0)
        from rfl, hs1, hs2, runP_append,
        classRun w (fun d hd => h d (by simp [hd])) [] c0 (PFrame.mk A q) stk]
      simp only [List.nil_append]
      have hs3 : runP [']'] (some (PState.mk (PMode.cls (CLState.mk false
          ((c0 :: w).dropLast.map ClsItem.one) (some (w.getLastD c0))
          false false false)) (PFrame.mk A q) stk)) =
          some (pushAtom (PState.mk PMode.norm (PFrame.mk A q) stk)
            (RE.cls false ((c0 :: w).dropLast.map ClsItem.one ++
              [ClsItem.one (w.getLastD c0)]))) := by
        simp [runP, stepO, step, stepCls, clsFlush]
      rw [hs3, dropLast_map_getLastD]
      simp [pushAtom, altsPart, curPart]

theorem foldl_append_singleton (w : List Char) :
    ∀ acc : String,
      (List.foldl (fun r s => r ++ s) acc (w.map String.singleton)).data =
        acc.data ++ w := by
  induction w with
  | nil => intro acc; simp
  | cons c w2 ih =>
      intro acc
      simp only [List.map_cons, List.foldl_cons, ih (acc ++ String.singleton c),
        data_append, data_singleton, List.append_assoc, List.singleton_append]

theorem join_map_singleton (w : List Char) :
    String.join (w.map String.singleton) = String.mk w := by
  have hd : (String.join (w.map String.singleton)).data = w := by
    have h0 := foldl_append_singleton w ""
    simpa [String.join] using h0
  cases hjoin : String.join (w.map String.singleton) with
  | mk data =>
      rw [hjoin] at hd
      rw [show data = w from hd]

theorem str_eq_empty_iff (s : String) : s = "" ↔ s.data = [] := by
  constructor
  · intro h; subst h; rfl
  · intro h
    cases s with
    | mk data =>
        rw [show data = ([] : List Char) from h]
        try rfl

theorem str_eq_iff_data (s : String) (l : List Char) :
    s = String.mk l ↔ s.data = l := by
  constructor
  · intro h; subst h; rfl
  · intro h
    cases s with
    | mk data => rw [show data = l from h]

/-! Language algebra for the fragment denotations. -/

theorem lang_seqOf_nil (s : List Char) : Lang (seqOf []) s ↔ s = [] :=
  Iff.rfl

theorem lang_seqOf_cons (x : RE) (xs : List RE) (s : List Char) :
    Lang (seqOf (x :: xs)) s ↔
      ∃ u v, s = u ++ v ∧ Lang x u ∧ Lang (seqOf xs) v := Iff.rfl

theorem lang_seqOf_single (x : RE) (s : List Char) :
    Lang (seqOf [x]) s ↔ Lang x s := by
  rw [lang_seqOf_cons]
  constructor
  · rintro ⟨u, v, huv, hx, hv⟩
    rw [lang_seqOf_nil] at hv
    subst hv
    simpa [huv]
  · intro hx
    exact ⟨s, [], by simp, hx, rfl⟩

theorem lang_seqOf_char (c : Char) (xs : List RE) (s : List Char) :
    Lang (seqOf (RE.char c :: xs)) s ↔
      ∃ s2, s = c :: s2 ∧ Lang (seqOf xs) s2 := by
  rw [lang_seqOf_cons]
  constructor
  · rintro ⟨u, v, huv, hx, hv⟩
    rw [show Lang (RE.char c) u ↔ u = [c] from Iff.rfl] at hx
    subst hx
    exact ⟨v, by simpa using huv, hv⟩
  · rintro ⟨s2, hs, hv⟩
    exact ⟨[c], s2, by simpa using hs, rfl, hv⟩

theorem lang_seqOf_append (xs ys : List RE) :
    ∀ s, Lang (seqOf (xs ++ ys)) s ↔
      ∃ u v, s = u ++ v ∧ Lang (seqOf xs) u ∧ Lang (seqOf ys) v := by
  induction xs with
  | nil =>
      intro s
      constructor
      · intro h; exact ⟨[], s, rfl, rfl, by simpa using h⟩
      · rintro ⟨u, v, huv, hu, hv⟩
        rw [lang_seqOf_nil] at hu
        subst hu
        simpa [huv]
  | cons x xs2 ih =>
      intro s
      rw [List.cons_append]
      simp only [lang_seqOf_cons]
      constructor
      · rintro ⟨u, v, huv, hx, hv⟩
        rcases (ih v).mp hv with ⟨v1, v2, hv12, h1, h2⟩
        exact ⟨u ++ v1, v2, by simp [huv, hv12], ⟨u, v1, rfl, hx, h1⟩, h2⟩
      · rintro ⟨u, v, huv, ⟨u1, u2, hu12, hx, h1⟩, hv⟩
        exact ⟨u1, u2 ++ v, by simp [huv, hu12], hx,
          (ih (u2 ++ v)).mpr ⟨u2, v, rfl, h1, hv⟩⟩

theorem lang_altsOf (xs : List RE) (s : List Char) :
    Lang (altsOf xs) s ↔ ∃ x ∈ xs, Lang x s := by
  induction xs with
  | nil => simp [altsOf, Lang, RE.void, clsMatch]
  | cons x xs2 ih =>
      rw [show altsOf (x :: xs2) = RE.alt x (altsOf xs2) from rfl]
      rw [show Lang (RE.alt x (altsOf xs2)) s ↔
        (Lang x s ∨ Lang (altsOf xs2) s) from Iff.rfl]
      simp [ih]

theorem altsPart_nilq (a : List (List RE)) :
    altsPart [] a = a.map seqOf := by
  cases a with
  | nil => rfl
  | cons a1 rest => simp [altsPart]

theorem curPart_nilq (a : List (List RE)) (l : List RE) :
    curPart [] a l = l := by
  cases a with
  | nil => simp [curPart]
  | cons a1 rest => rfl

theorem lang_groupRE (a : List (List RE)) (l : List RE) (s : List Char) :
    Lang (groupRE a l) s ↔ altsLang a l s := by
  rw [groupRE, altsPart_nilq, curPart_nilq, lang_altsOf]
  unfold altsLang
  constructor
  · rintro ⟨x, hx, hlx⟩
    rcases List.mem_append.mp hx with hx1 | hx2
    · rcases List.mem_map.mp hx1 with ⟨as, has, rfl⟩
      exact Or.inl ⟨as, has, hlx⟩
    · rcases List.mem_singleton.mp hx2 with rfl
      exact Or.inr hlx
  · rintro (⟨as, has, hlx⟩ | hl)
    · exact ⟨seqOf as, List.mem_append.mpr (Or.inl (List.mem_map.mpr
        ⟨as, has, rfl⟩)), hlx⟩
    · exact ⟨seqOf l, List.mem_append.mpr (Or.inr (by simp)), hl⟩

theorem runP_grpQ (cs : List Char) (hne : cs ≠ [])
    (hhead : cs.head? ≠ some '?') (f : PFrame) (stk : List PFrame) :
    runP cs (some (PState.mk PMode.grpQ f stk)) =
      runP cs (some (PState.mk PMode.norm f stk)) := by
  cases cs with
  | nil => cases hne rfl
  | cons c cs2 =>
      have hq : ¬ c = '?' := by
        intro hh
        exact hhead (by simp [hh])
      rw [show runP (c :: cs2) (some (PState.mk PMode.grpQ f stk)) =
        runP cs2 (stepO (some (PState.mk PMode.grpQ f stk)) c) from rfl]
      rw [show runP (c :: cs2) (some (PState.mk PMode.norm f stk)) =
        runP cs2 (stepO (some (PState.mk PMode.norm f stk)) c) from rfl]
      simp [stepO, step, hq]

theorem parse_top (r : String) (a : List (List RE)) (l : List RE)
    (h : FragEff r a l) (hhead : headOK r) (hne : r ≠ "") :
    ∀ s : String, fullMatch ("(" ++ r ++ ")") s = true ↔ altsLang a l s.data := by
  have hdata : ("(" ++ r ++ ")").data = '(' :: (r.data ++ [')']) := by
    simp [data_append]
  have hone : stepO (some initPState) '(' =
      some (PState.mk PMode.grpQ (PFrame.mk [] []) [PFrame.mk [] []]) := by
    simp [stepO, step, stepNorm, initPState]
  have hrun : runP ("(" ++ r ++ ")").data (some initPState) =
      some (PState.mk PMode.norm
        (PFrame.mk [] [frameRE (PFrame.mk (a.map seqOf) l)]) []) := by
    rw [hdata]
    rw [show runP ('(' :: (r.data ++ [')'])) (some initPState) =
      runP (r.data ++ [')']) (stepO (some initPState) '(') from rfl, hone,
      runP_append, runP_grpQ r.data
        (fun hh => hne ((str_eq_empty_iff r).mpr hh)) hhead,
      h [] [] [PFrame.mk [] []]]
    simp only [List.nil_append]
    rw [altsPart_nilq, curPart_nilq]
    simp [runP, stepO, step, stepNorm, pushAtom]
  intro s
  unfold fullMatch parseRegex
  rw [show ("(" ++ r ++ ")").data.foldl stepO (some initPState) =
    runP ("(" ++ r ++ ")").data (some initPState) from rfl, hrun]
  rw [rmatch_iff]
  have hfr : frameRE (PFrame.mk [] [frameRE (PFrame.mk (a.map seqOf) l)]) =
      altsOf [seqOf [frameRE (PFrame.mk (a.map seqOf) l)]] := rfl
  rw [hfr]
  rw [lang_altsOf]
  constructor
  · rintro ⟨x, hx, hlx⟩
    rcases List.mem_singleton.mp hx with rfl
    rw [lang_seqOf_single] at hlx
    have : frameRE (PFrame.mk (a.map seqOf) l) = groupRE a l := by
      rw [groupRE, altsPart_nilq, curPart_nilq]; rfl
    rw [this, lang_groupRE] at hlx
    exact hlx
  · intro hal
    refine ⟨seqOf [frameRE (PFrame.mk (a.map seqOf) l)], by simp, ?_⟩
    rw [lang_seqOf_single]
    have : frameRE (PFrame.mk (a.map seqOf) l) = groupRE a l := by
      rw [groupRE, altsPart_nilq, curPart_nilq]; rfl
    rw [this, lang_groupRE]
    exact hal

/-! Lemmas about insertion into the trie. -/

theorem inTrie_nilw (t : Trie) :
    inTrie t [] ↔ t.children.hasKey KeyOpt.term = true := Iff.rfl

theorem inTrie_consw (t : Trie) (c : Char) (w : List Char) :
    inTrie t (c :: w) ↔
      ∃ s, t.children.lookup (KeyOpt.ch c) = some s ∧ inTrie s w := Iff.rfl

theorem inTrie_empty (w : List Char) : ¬ inTrie emptyTrie w := by
  cases w with
  | nil =>
      rw [inTrie_nilw]
      simp [emptyTrie, Entries.hasKey, Entries.lookup]
  | cons c w2 =>
      rw [inTrie_consw]
      simp [emptyTrie, Entries.lookup]

theorem setK_ne_nil (es : Entries) (k : KeyOpt) (v : Trie) :
    es.setK k v ≠ Entries.nil := by
  cases es with
  | nil => simp [Entries.setK]
  | cons k0 v0 rest =>
      by_cases h : k0 = k
      · simp [Entries.setK, h]
      · simp [Entries.setK, h]

theorem WfT_empty : WfT emptyTrie := by
  rw [WfT_def]
  exact ⟨rfl, rfl, by simp [emptyTrie, Entries.keys], trivial⟩

theorem addTLD_ok : ∀ (rest : List Char), rest ≠ [] →
    (∀ c ∈ rest, CleanChar c) → ∀ (t : Trie), WfT t →
    ∃ t2 b, addTLDRecursive [] false rest t = Except.ok (t2, b) ∧ WfT t2 ∧
      t2.children ≠ Entries.nil ∧
      t2.children.hasKey KeyOpt.term = t.children.hasKey KeyOpt.term ∧
      (∀ w, inTrie t2 w ↔ (inTrie t w ∨ w = rest)) := by
  intro rest
  induction rest with
  | nil => intro h; cases h rfl
  | cons c rest2 ih =>
      intro _ hcl t hwf
      have hc : CleanChar c := hcl c (by simp)
      -- the looked-up or fresh child
      set ctld : Trie := (match t.children.lookup (KeyOpt.ch c) with
        | some s => s
        | none => emptyTrie) with hctld
      have hwfc : WfT ctld := by
        rw [hctld]
        cases hl : t.children.lookup (KeyOpt.ch c) with
        | none => exact WfT_empty
        | some v =>
            exact (WfE_lookup_ch t.children c v ((WfT_def t).mp hwf).2.2.2 hl).2.1
      have hinc : ∀ w, inTrie t (c :: w) ↔ inTrie ctld w := by
        intro w
        rw [inTrie_consw, hctld]
        cases hl : t.children.lookup (KeyOpt.ch c) with
        | none =>
            simp only [hl]
            constructor
            · rintro ⟨s, hs, _⟩; cases hs
            · intro h2; exact absurd h2 (inTrie_empty w)
        | some v =>
            simp only [hl]
            constructor
            · rintro ⟨s, hs, h2⟩
              injection hs with hs2
              exact hs2 ▸ h2
            · intro h2; exact ⟨v, rfl, h2⟩
      have hm := (WfT_def t).mp hwf
      have hmc := (WfT_def ctld).mp hwfc
      cases rest2 with
      | nil =>
          set C2 : Trie := ctld.setChild KeyOpt.term emptyTrie with hC2
          set T2 : Trie := t.setChild (KeyOpt.ch c) C2 with hT2
          have heval : addTLDRecursive [] false [c] t =
              Except.ok (T2, pyIsEnd T2) := by
            simp [addTLDRecursive, ← hctld, hT2, hC2]
            try rfl
          have hwfC2 : WfT C2 := by
            rw [WfT_def]
            have hnd : (ctld.children.setK KeyOpt.term emptyTrie).keys.Nodup :=
              nodup_setK ctld.children KeyOpt.term emptyTrie hmc.2.2.1
            have hwe : WfE (ctld.children.setK KeyOpt.term emptyTrie) :=
              WfE_setK ctld.children KeyOpt.term emptyTrie hmc.2.2.2
                (fun _ => rfl) (by intro c3 hc3; cases hc3)
            exact ⟨by simp [hC2, Trie.setChild, hmc.1],
              by simp [hC2, Trie.setChild, hmc.2.1],
              by simpa [hC2, Trie.setChild] using hnd,
              by simpa [hC2, Trie.setChild] using hwe⟩
          have hC2ne : C2.children ≠ Entries.nil := by
            simp only [hC2, Trie.setChild, children_mk]
            exact setK_ne_nil ctld.children KeyOpt.term emptyTrie
          have hwfT2 : WfT T2 := by
            rw [WfT_def]
            have hnd : (t.children.setK (KeyOpt.ch c) C2).keys.Nodup :=
              nodup_setK t.children (KeyOpt.ch c) C2 hm.2.2.1
            have hwe : WfE (t.children.setK (KeyOpt.ch c) C2) := by
              refine WfE_setK t.children (KeyOpt.ch c) C2 hm.2.2.2
                (by intro hh; cases hh) ?_
              intro c2 hc2
              injection hc2 with hc3
              subst hc3
              exact ⟨hc, hwfC2, hC2ne⟩
            exact ⟨by simp [hT2, Trie.setChild, hm.1],
              by simp [hT2, Trie.setChild, hm.2.1],
              by simpa [hT2, Trie.setChild] using hnd,
              by simpa [hT2, Trie.setChild] using hwe⟩
          have hC2term : C2.children.hasKey KeyOpt.term = true := by
            simp only [hC2, Trie.setChild, children_mk]
            simp [Entries.hasKey,
              lookup_setK_self ctld.children KeyOpt.term emptyTrie]
          refine ⟨T2, pyIsEnd T2, heval, hwfT2, ?_, ?_, ?_⟩
          · simp only [hT2, Trie.setChild, children_mk]
            exact setK_ne_nil t.children (KeyOpt.ch c) C2
          · simp only [hT2, Trie.setChild, children_mk]
            exact hasKey_setK_ne t.children (KeyOpt.ch c) C2 KeyOpt.term
              (by intro hh; cases hh)
          · intro w
            cases w with
            | nil =>
                rw [inTrie_nilw, inTrie_nilw]
                simp only [hT2, Trie.setChild, children_mk]
                rw [hasKey_setK_ne t.children (KeyOpt.ch c) C2 KeyOpt.term
                  (by intro hh; cases hh)]
                simp
            | cons d w2 =>
                by_cases hdc : d = c
                · subst hdc
                  rw [inTrie_consw]
                  simp only [hT2, Trie.setChild, children_mk]
                  rw [lookup_setK_self t.children (KeyOpt.ch d) C2]
                  constructor
                  · rintro ⟨s, hs, h2⟩
                    injection hs with hs2
                    subst hs2
                    cases w2 with
                    | nil => right; rfl
                    | cons e w3 =>
                        left
                        rw [hinc (e :: w3)]
                        rw [inTrie_consw] at h2
                        simp only [hC2, Trie.setChild, children_mk] at h2
                        rcases h2 with ⟨s2, hs2, h3⟩
                        rw [lookup_setK_ne ctld.children KeyOpt.term emptyTrie
                          (KeyOpt.ch e) (by intro hh; cases hh)] at hs2
                        exact (inTrie_consw ctld e w3).mpr ⟨s2, hs2, h3⟩
                  · intro h2
                    refine ⟨C2, rfl, ?_⟩
                    rcases h2 with h3 | h3
                    · cases w2 with
                      | nil => exact (inTrie_nilw C2).mpr hC2term
                      | cons e w3 =>
                          rw [hinc (e :: w3), inTrie_consw] at h3
                          rcases h3 with ⟨s2, hs2, h4⟩
                          rw [inTrie_consw]
                          simp only [hC2, Trie.setChild, children_mk]
                          refine ⟨s2, ?_, h4⟩
                          rw [lookup_setK_ne ctld.children KeyOpt.term emptyTrie
                            (KeyOpt.ch e) (by intro hh; cases hh)]
                          exact hs2
                    · injection h3 with h4 h5
                      subst h5
                      exact (inTrie_nilw C2).mpr hC2term
                · rw [inTrie_consw, inTrie_consw]
                  simp only [hT2, Trie.setChild, children_mk]
                  rw [lookup_setK_ne t.children (KeyOpt.ch c) C2 (KeyOpt.ch d)
                    (by intro hh; injection hh with hh2; exact hdc hh2)]
                  constructor
                  · intro h2; exact Or.inl h2
                  · rintro (h2 | h2)
                    · exact h2
                    · injection h2 with h3 h4
                      exact absurd h3 hdc
      | cons e rest3 =>
          rcases ih (by simp) (fun d hd => hcl d (by simp [hd])) ctld hwfc with
            ⟨sub, b, heqsub, hwfsub, hnesub, htermsub, hlangsub⟩
          set T2 : Trie := t.setChild (KeyOpt.ch c) sub with hT2
          have heval : addTLDRecursive [] false (c :: e :: rest3) t =
              Except.ok (T2, pyIsEnd T2) := by
            cases hlv : t.children.lookup (KeyOpt.ch c) with
            | none =>
                have hce : ctld = emptyTrie := by rw [hctld, hlv]
                have hs2 := heqsub
                rw [hce] at hs2
                unfold addTLDRecursive
                rw [hlv]
                simp [hs2, hT2, hce]
                try rfl
            | some v =>
                have hce : ctld = v := by rw [hctld, hlv]
                have hs2 := heqsub
                rw [hce] at hs2
                unfold addTLDRecursive
                rw [hlv]
                simp [hs2, hT2, hce]
                try rfl
          have hwfT2 : WfT T2 := by
            rw [WfT_def]
            have hnd : (t.children.setK (KeyOpt.ch c) sub).keys.Nodup :=
              nodup_setK t.children (KeyOpt.ch c) sub hm.2.2.1
            have hwe : WfE (t.children.setK (KeyOpt.ch c) sub) := by
              refine WfE_setK t.children (KeyOpt.ch c) sub hm.2.2.2
                (by intro hh; cases hh) ?_
              intro c2 hc2
              injection hc2 with hc3
              subst hc3
              exact ⟨hc, hwfsub, hnesub⟩
            exact ⟨by simp [hT2, Trie.setChild, hm.1],
              by simp [hT2, Trie.setChild, hm.2.1],
              by simpa [hT2, Trie.setChild] using hnd,
              by simpa [hT2, Trie.setChild] using hwe⟩
          refine ⟨T2, pyIsEnd T2, heval, hwfT2, ?_, ?_, ?_⟩
          · simp only [hT2, Trie.setChild, children_mk]
            exact setK_ne_nil t.children (KeyOpt.ch c) sub
          · simp only [hT2, Trie.setChild, children_mk]
            exact hasKey_setK_ne t.children (KeyOpt.ch c) sub KeyOpt.term
              (by intro hh; cases hh)
          · intro w
            cases w with
            | nil =>
                rw [inTrie_nilw, inTrie_nilw]
                simp only [hT2, Trie.setChild, children_mk]
                rw [hasKey_setK_ne t.children (KeyOpt.ch c) sub KeyOpt.term
                  (by intro hh; cases hh)]
                simp
            | cons d w2 =>
                by_cases hdc : d = c
                · subst hdc
                  rw [inTrie_consw]
                  simp only [hT2, Trie.setChild, children_mk]
                  rw [lookup_setK_self t.children (KeyOpt.ch d) sub]
                  constructor
                  · rintro ⟨s, hs, h2⟩
                    injection hs with hs2
                    subst hs2
                    rcases (hlangsub w2).mp h2 with h3 | h3
                    · exact Or.inl ((hinc w2).mpr h3)
                    · subst h3; right; rfl
                  · intro h2
                    refine ⟨sub, rfl, ?_⟩
                    rcases h2 with h3 | h3
                    · exact (hlangsub w2).mpr (Or.inl ((hinc w2).mp h3))
                    · injection h3 with h4 h5
                      exact (hlangsub w2).mpr (Or.inr h5)
                · rw [inTrie_consw, inTrie_consw]
                  simp only [hT2, Trie.setChild, children_mk]
                  rw [lookup_setK_ne t.children (KeyOpt.ch c) sub (KeyOpt.ch d)
                    (by intro hh; injection hh with hh2; exact hdc hh2)]
                  constructor
                  · intro h2; exact Or.inl h2
                  · rintro (h2 | h2)
                    · exact h2
                    · injection h2 with h3 h4
                      exact absurd h3 hdc

theorem addChain : ∀ (rest : List Char), rest ≠ [] →
    addTLDRecursive [] false rest emptyTrie =
      Except.ok (chainTrie rest, false) := by
  intro rest
  induction rest with
  | nil => intro h; cases h rfl
  | cons c rest2 ih =>
      intro _
      cases rest2 with
      | nil =>
          show addTLDRecursive [] false [c] emptyTrie = _
          simp [addTLDRecursive, emptyTrie, Entries.lookup, chainTrie,
            Trie.setChild, Entries.setK, pyIsEnd, Trie.pylen, Entries.size,
            Entries.hasKey]
          try rfl
      | cons e rest3 =>
          have ihv : addTLDRecursive [] false (e :: rest3)
              (Trie.mk none none Entries.nil) =
              Except.ok (chainTrie (e :: rest3), false) := ih (by simp)
          unfold addTLDRecursive
          rw [show emptyTrie.children.lookup (KeyOpt.ch c) = none from rfl]
          simp [ihv, chainTrie, Trie.setChild, emptyTrie, Entries.setK,
            pyIsEnd, Trie.pylen, Entries.size, Entries.hasKey, Entries.lookup]
          try rfl

theorem ianaStep_ok (tlds : Entries) (line : String) (hcl : CleanLine line)
    (hwf : RootWf (Trie.mk none none tlds)) :
    ∃ es2, ianaStep tlds line = Except.ok es2 ∧
      RootWf (Trie.mk none none es2) ∧ es2 ≠ Entries.nil ∧
      (∀ w, inTrie (Trie.mk none none es2) w ↔
        (inTrie (Trie.mk none none tlds) w ∨ w = line.data)) := by
  obtain ⟨hlen, hclc⟩ := hcl
  obtain ⟨hwft, hroot, hheads⟩ := hwf
  cases line with
  | mk data =>
  cases data with
  | nil => simp at hlen
  | cons c data2 =>
  cases data2 with
  | nil => simp at hlen
  | cons e rest =>
  have hclc2 : ∀ d ∈ (c :: e :: rest), CleanChar d := hclc
  have h1 : pyStrip (String.mk (c :: e :: rest)) = String.mk (c :: e :: rest) :=
    pyStrip_clean _ hclc2
  have h2 : startsHash (String.mk (c :: e :: rest)) = false :=
    startsHash_clean _ hclc2
  have h3 : pyLower (String.mk (c :: e :: rest)) = String.mk (c :: e :: rest) :=
    pyLower_clean _ hclc2
  -- the looked-up or fresh root child
  set tld : Trie := (match tlds.lookup (KeyOpt.ch c) with
    | some s => s
    | none => emptyTrie) with htld
  have hwftld : WfT tld := by
    rw [htld]
    cases hlv : tlds.lookup (KeyOpt.ch c) with
    | none => exact WfT_empty
    | some v =>
        exact (WfE_lookup_ch tlds c v ((WfT_def _).mp hwft).2.2.2 hlv).2.1
  have htermtld : tld.children.hasKey KeyOpt.term = false := by
    rw [htld]
    cases hlv : tlds.lookup (KeyOpt.ch c) with
    | none => rfl
    | some v => exact hheads c v hlv
  have hintld : ∀ w, inTrie (Trie.mk none none tlds) (c :: w) ↔ inTrie tld w := by
    intro w
    rw [inTrie_consw, htld]
    cases hlv : tlds.lookup (KeyOpt.ch c) with
    | none =>
        simp only [children_mk, hlv]
        constructor
        · rintro ⟨s, hs, _⟩; cases hs
        · intro h4; exact absurd h4 (inTrie_empty w)
    | some v =>
        simp only [children_mk, hlv]
        constructor
        · rintro ⟨s, hs, h4⟩
          injection hs with hs2
          exact hs2 ▸ h4
        · intro h4; exact ⟨v, rfl, h4⟩
  rcases addTLD_ok (e :: rest) (by simp)
    (fun d hd => hclc2 d (by simp [hd])) tld hwftld with
    ⟨t2, b, heval, hwft2, hnet2, hterm2, hlang2⟩
  have heq : ianaStep tlds (String.mk (c :: e :: rest)) =
      Except.ok (tlds.setK (KeyOpt.ch c) t2) := by
    cases hlv : tlds.lookup (KeyOpt.ch c) with
    | none =>
        have hce : tld = emptyTrie := by rw [htld, hlv]
        have hv2 := heval
        rw [hce] at hv2
        simp [ianaStep, h1, h2, h3, hlv, hv2]
    | some v =>
        have hce : tld = v := by rw [htld, hlv]
        have hv2 := heval
        rw [hce] at hv2
        simp [ianaStep, h1, h2, h3, hlv, hv2]
  have hm := (WfT_def (Trie.mk none none tlds)).mp hwft
  refine ⟨tlds.setK (KeyOpt.ch c) t2, heq, ⟨?_, ?_, ?_⟩, ?_, ?_⟩
  · -- well-formedness of the new root
    rw [WfT_def]
    refine ⟨rfl, rfl, ?_, ?_⟩
    · simpa using nodup_setK tlds (KeyOpt.ch c) t2 (by simpa using hm.2.2.1)
    · simp only [children_mk]
      refine WfE_setK tlds (KeyOpt.ch c) t2 (by simpa using hm.2.2.2)
        (by intro hh; cases hh) ?_
      intro c2 hc2
      injection hc2 with hc3
      subst hc3
      exact ⟨hclc2 c (by simp), hwft2, hnet2⟩
  · simp only [children_mk]
    rw [hasKey_setK_ne tlds (KeyOpt.ch c) t2 KeyOpt.term (by intro hh; cases hh)]
    simpa using hroot
  · intro d S hS
    simp only [children_mk] at hS
    by_cases hdc : d = c
    · subst hdc
      rw [lookup_setK_self tlds (KeyOpt.ch d) t2] at hS
      injection hS with hS2
      subst hS2
      rw [hterm2]
      exact htermtld
    · rw [lookup_setK_ne tlds (KeyOpt.ch c) t2 (KeyOpt.ch d)
        (by intro hh; injection hh with hh2; exact hdc hh2)] at hS
      exact hheads d S hS
  · exact setK_ne_nil tlds (KeyOpt.ch c) t2
  · intro w
    cases w with
    | nil =>
        rw [inTrie_nilw, inTrie_nilw]
        simp only [children_mk]
        rw [hasKey_setK_ne tlds (KeyOpt.ch c) t2 KeyOpt.term
          (by intro hh; cases hh)]
        simp
    | cons d w2 =>
        by_cases hdc : d = c
        · subst hdc
          rw [inTrie_consw]
          simp only [children_mk]
          rw [lookup_setK_self tlds (KeyOpt.ch d) t2]
          constructor
          · rintro ⟨s, hs, h4⟩
            injection hs with hs2
            subst hs2
            rcases (hlang2 w2).mp h4 with h5 | h5
            · exact Or.inl ((hintld w2).mpr h5)
            · subst h5; right; rfl
          · intro h4
            refine ⟨t2, rfl, ?_⟩
            rcases h4 with h5 | h5
            · exact (hlang2 w2).mpr (Or.inl ((hintld w2).mp h5))
            · injection h5 with h6 h7
              exact (hlang2 w2).mpr (Or.inr h7)
        · rw [inTrie_consw, inTrie_consw]
          simp only [children_mk]
          rw [lookup_setK_ne tlds (KeyOpt.ch c) t2 (KeyOpt.ch d)
            (by intro hh; injection hh with hh2; exact hdc hh2)]
          constructor
          · intro h4; exact Or.inl h4
          · rintro (h4 | h4)
            · exact h4
            · injection h4 with h5 h6
              exact absurd h5 hdc

theorem ingest_fold : ∀ (lines : List String) (es0 : Entries),
    (∀ l ∈ lines, CleanLine l) → RootWf (Trie.mk none none es0) →
    ∃ es, lines.foldlM ianaStep es0 = Except.ok es ∧
      RootWf (Trie.mk none none es) ∧
      (es0 ≠ Entries.nil → es ≠ Entries.nil) ∧
      (lines ≠ [] → es ≠ Entries.nil) ∧
      (∀ w, inTrie (Trie.mk none none es) w ↔
        (inTrie (Trie.mk none none es0) w ∨ ∃ l ∈ lines, w = l.data)) := by
  intro lines
  induction lines with
  | nil =>
      intro es0 _ hwf
      refine ⟨es0, rfl, hwf, fun h => h, fun h => absurd rfl h, ?_⟩
      intro w; simp
  | cons l rest ih =>
      intro es0 hcl hwf
      rcases ianaStep_ok es0 l (hcl l (by simp)) hwf with
        ⟨es1, heq1, hwf1, hne1, hlang1⟩
      rcases ih es1 (fun l2 hl2 => hcl l2 (by simp [hl2])) hwf1 with
        ⟨es, heq2, hwf2, himp, _, hlang2⟩
      refine ⟨es, ?_, hwf2, fun _ => himp hne1, fun _ => himp hne1, ?_⟩
      · rw [List.foldlM_cons, heq1]
        exact heq2
      · intro w
        rw [hlang2 w, hlang1 w]
        constructor
        · rintro ((h | h) | ⟨l2, hl2, hw⟩)
          · exact Or.inl h
          · exact Or.inr ⟨l, by simp, h⟩
          · exact Or.inr ⟨l2, by simp [hl2], hw⟩
        · rintro (h | ⟨l2, hl2, hw⟩)
          · exact Or.inl (Or.inl h)
          · rcases List.mem_cons.mp hl2 with h2 | h2
            · subst h2; exact Or.inl (Or.inr hw)
            · exact Or.inr ⟨l2, h2, hw⟩

theorem RootWf_nil : RootWf (Trie.mk none none Entries.nil) := by
  refine ⟨WfT_empty, rfl, ?_⟩
  intro c S hS
  rw [children_mk] at hS
  simp [Entries.lookup] at hS

theorem ingest_ok (lines : List String) (hcl : ∀ l ∈ lines, CleanLine l) :
    ∃ es, ingestIana lines = Except.ok (Trie.mk none none es) ∧
      RootWf (Trie.mk none none es) ∧
      (lines ≠ [] → es ≠ Entries.nil) ∧
      (∀ w, inTrie (Trie.mk none none es) w ↔ ∃ l ∈ lines, w = l.data) := by
  rcases ingest_fold lines Entries.nil hcl RootWf_nil with
    ⟨es, heq, hwf, _, hne, hlang⟩
  refine ⟨es, ?_, hwf, hne, ?_⟩
  · simp [ingestIana, heq]
    try rfl
  · intro w
    rw [hlang w]
    constructor
    · rintro (h | h)
      · exact absurd h (inTrie_empty w)
      · exact h
    · exact Or.inr

theorem ianaStep_blank (es : Entries) (l : String)
    (hb : (pyStrip l).data = []) :
    ianaStep es l = Except.error PyErr.indexError := by
  cases hs : pyStrip l with
  | mk d =>
      rw [hs] at hb
      have hd : d = [] := hb
      subst hd
      simp [ianaStep, hs, startsHash, pyLower]

theorem foldl_iana_err : ∀ (lines : List String) (es : Entries),
    (∃ l ∈ lines, (pyStrip l).data = []) →
    lines.foldlM ianaStep es = Except.error PyErr.indexError := by
  intro lines
  induction lines with
  | nil => intro es hb; simp at hb
  | cons l rest ih =>
      intro es hb
      rw [List.foldlM_cons]
      rcases hb with ⟨l2, hl2, hblank⟩
      rcases List.mem_cons.mp hl2 with h | h
      · subst h
        rw [ianaStep_blank es l2 hblank]
        rfl
      · cases hres : ianaStep es l with
        | error e => cases e; rfl
        | ok es1 => exact ih es1 ⟨l2, h, hblank⟩

theorem ingest_blank (lines : List String)
    (hb : ∃ l ∈ lines, (pyStrip l).data = []) :
    ingestIana lines = Except.error PyErr.indexError := by
  unfold ingestIana
  rw [foldl_iana_err lines Entries.nil hb]
  rfl

/-! Characterization of lookAheadIsSame: the flag survives exactly on
uniformly linear children spelling one common continuation. -/

theorem eqScan_false : ∀ (es : Entries) (last : Option KeyOpt),
    eqScan es last false = false := by
  intro es
  induction es using entries_ind with
  | hnil => intro last; rfl
  | hcons k v rest ih =>
      intro last
      cases last with
      | none =>
          rw [show eqScan (Entries.cons k v rest) none false =
            eqScan rest (some k) false from rfl]
          exact ih (some k)
      | some l =>
          have hsame : (if k ≠ l then false else false) = false := by
            by_cases h2 : k ≠ l <;> simp [h2]
          rw [show eqScan (Entries.cons k v rest) (some l) false =
            eqScan rest (some k) (if k ≠ l then false else false) from rfl,
            hsame]
          exact ih (some k)

theorem eqScan_single : ∀ (es : Entries), eqScan es none true = true →
    es.keys.Nodup →
    es = Entries.nil ∨ ∃ k v, es = Entries.cons k v Entries.nil := by
  intro es
  cases es with
  | nil => intro _ _; exact Or.inl rfl
  | cons k v rest =>
      cases rest with
      | nil => intro _ _; exact Or.inr ⟨k, v, rfl⟩
      | cons k2 v2 rest2 =>
          intro hscan hnodup
          exfalso
          have hne : k2 ≠ k := by
            simp [Entries.keys, List.nodup_cons] at hnodup
            intro hh
            exact hnodup.1.1 hh.symm
          have h2 : eqScan (Entries.cons k v (Entries.cons k2 v2 rest2))
              none true =
              eqScan rest2 (some k2) (if k2 ≠ k then false else true) := rfl
          rw [h2, if_pos hne, eqScan_false] at hscan
          cases hscan

theorem lookList_false : ∀ (es : Entries) (n c : String),
    lookList es (false, n, c) = (false, n, c) := by
  intro es
  induction es using entries_ind with
  | hnil => intro n c; rfl
  | hcons k v rest ih =>
      intro n c
      rw [show lookList (Entries.cons k v rest) (false, n, c) =
        lookList rest
          (if eqScan v.children none false then
            (match lookAheadIsSame v (keyStr k) with
             | (same2, ahead) =>
                ((if n ≠ "" && pyTail ahead ≠ n then false else same2),
                  pyTail ahead, ahead))
           else (eqScan v.children none false, n, c)) from rfl]
      rw [eqScan_false]
      simp only [Bool.false_eq_true, if_false]
      exact ih n c

/-- The flag part of lookAheadIsSame does not depend on the prefix
argument. -/
theorem look_fst (v : Trie) (p : String) :
    (lookAheadIsSame v p).1 = (lookList v.children (true, "", "")).1 := by
  cases v with
  | mk m sm ch =>
      cases hll : lookList ch (true, "", "") with
      | mk same rest =>
          cases rest with
          | mk nah cah =>
              have h3 : lookAheadIsSame (Trie.mk m sm ch) p = (same, p ++ cah) := by
                unfold lookAheadIsSame
                rw [hll]
              rw [h3, children_mk, hll]

theorem lookahead_linear : ∀ (w : List Char) (s : Trie) (p : String),
    Linear s w →
    lookAheadIsSame s p = (true, p ++ (String.mk w ++ "_")) := by
  intro w
  induction w with
  | nil =>
      intro s p hlin
      cases s with
      | mk m sm ch =>
          have hch : ch = Entries.cons KeyOpt.term emptyTrie Entries.nil := hlin
          subst hch
          rfl
  | cons c w2 ih =>
      intro s p hlin
      obtain ⟨u, hch0, hlin2⟩ := hlin
      cases s with
      | mk m sm ch =>
          have hch : ch = Entries.cons (KeyOpt.ch c) u Entries.nil := hch0
          subst hch
          have hrec := ih u (String.singleton c) hlin2
          have hus : ∃ k2 v2, u.children = Entries.cons k2 v2 Entries.nil := by
            cases w2 with
            | nil => exact ⟨_, _, hlin2⟩
            | cons d w3 =>
                obtain ⟨u2, hh, _⟩ := hlin2
                exact ⟨_, _, hh⟩
          obtain ⟨k2, v2, husv⟩ := hus
          have hscan : eqScan u.children none true = true := by
            rw [husv]; rfl
          have hcond : (decide (("" : String) ≠ "") &&
              decide (pyTail (String.singleton c ++ (String.mk w2 ++ "_")) ≠
                "")) = false := by
            simp
          have hll : lookList (Entries.cons (KeyOpt.ch c) u Entries.nil)
              (true, "", "") =
              (true, pyTail (String.singleton c ++ (String.mk w2 ++ "_")),
                String.singleton c ++ (String.mk w2 ++ "_")) := by
            rw [show lookList (Entries.cons (KeyOpt.ch c) u Entries.nil)
              (true, "", "") =
              lookList Entries.nil
                (if eqScan u.children none true then
                  (match lookAheadIsSame u (keyStr (KeyOpt.ch c)) with
                   | (same2, ahead) =>
                      ((if ("" : String) ≠ "" && pyTail ahead ≠ "" then false
                        else same2), pyTail ahead, ahead))
                 else (eqScan u.children none true, "", "")) from rfl]
            rw [hscan]
            simp only [if_true, keyStr]
            simp only [hrec]
            simp [hcond]
            try rfl
          show lookAheadIsSame (Trie.mk m sm
            (Entries.cons (KeyOpt.ch c) u Entries.nil)) p = _
          unfold lookAheadIsSame
          rw [hll]
          rfl

theorem lookList_nil (st : Bool × String × String) :
    lookList Entries.nil st = st := rfl

theorem lookList_one (k : KeyOpt) (v : Trie) (rest : Entries) (n c0 : String) :
    lookList (Entries.cons k v rest) (true, n, c0) =
      lookList rest
        (if eqScan v.children none true then
          (match lookAheadIsSame v (keyStr k) with
           | (same2, ahead) =>
              ((if n ≠ "" && pyTail ahead ≠ n then false else same2),
                pyTail ahead, ahead))
         else (eqScan v.children none true, n, c0)) := rfl

theorem RCL_of_no_real : ∀ (es : Entries) (w : List Char),
    realKeys es = [] → RCL es w := by
  intro es
  induction es using entries_ind with
  | hnil => intro w _; trivial
  | hcons k v rest ih =>
      intro w hrk
      cases k with
      | term => exact ih w hrk
      | ch c => exact absurd hrk (by simp [realKeys])

theorem lin_extract : ∀ (n : Nat) (t : Trie), sizeOf t ≤ n → WfT t →
    (∃ k v, t.children = Entries.cons k v Entries.nil) →
    (lookList t.children (true, "", "")).1 = true → ∃ w, Linear t w := by
  intro n
  induction n with
  | zero =>
      intro t hsz
      exfalso
      cases t with
      | mk m sm ch =>
          simp only [Trie.mk.sizeOf_spec] at hsz
          omega
  | succ N ihN =>
      intro t hsz hwf hone hlook
      obtain ⟨k, v, hch⟩ := hone
      cases k with
      | term =>
          have hwfe : WfE t.children := ((WfT_def t).mp hwf).2.2.2
          rw [hch] at hwfe
          refine ⟨[], ?_⟩
          show t.children = Entries.cons KeyOpt.term emptyTrie Entries.nil
          rw [hch, hwfe.1]
      | ch c =>
          have hwfe : WfE t.children := ((WfT_def t).mp hwf).2.2.2
          rw [hch] at hwfe
          obtain ⟨hcc, hwfv, hvne, -⟩ := hwfe
          rw [hch, lookList_one] at hlook
          cases hscan : eqScan v.children none true with
          | false =>
              rw [hscan] at hlook
              simp only [Bool.false_eq_true, if_false] at hlook
              rw [lookList_false] at hlook
              cases hlook
          | true =>
              rw [hscan] at hlook
              simp only [if_true, keyStr, lookList_nil] at hlook
              cases hla : lookAheadIsSame v (String.singleton c) with
              | mk same2 ahead =>
                  simp only [hla] at hlook
                  cases same2 with
                  | false => simp at hlook
                  | true =>
                      have hnodup : v.children.keys.Nodup :=
                        ((WfT_def v).mp hwfv).2.2.1
                      rcases eqScan_single v.children hscan hnodup with
                        hnil | hsingle
                      · exact absurd hnil hvne
                      · have hszv : sizeOf v ≤ N := by
                          cases t with
                          | mk m sm ch0 =>
                              have hc0 : ch0 =
                                  Entries.cons (KeyOpt.ch c) v Entries.nil :=
                                hch
                              subst hc0
                              simp only [Trie.mk.sizeOf_spec,
                                Entries.cons.sizeOf_spec] at hsz
                              omega
                        have hv1 : (lookList v.children (true, "", "")).1 =
                            true := by
                          rw [← look_fst v (String.singleton c), hla]
                        rcases ihN v hszv hwfv hsingle hv1 with ⟨w2, hlin2⟩
                        exact ⟨c :: w2, v, hch, hlin2⟩

theorem lookList_extract : ∀ (es : Entries) (n0 c0 : String), WfE es →
    (lookList es (true, n0, c0)).1 = true →
    ∃ w, RCL es w ∧
      (realKeys es ≠ [] → n0 = "" ∨ n0 = String.mk w ++ "_") := by
  intro es
  induction es using entries_ind with
  | hnil =>
      intro n0 c0 _ _
      exact ⟨[], trivial, fun h => absurd rfl h⟩
  | hcons k v rest ih =>
      intro n0 c0 hwfe hlook
      cases k with
      | term =>
          obtain ⟨hve, hwfr⟩ := hwfe
          rw [lookList_one, hve] at hlook
          rw [show eqScan emptyTrie.children none true = true from rfl] at hlook
          rw [show lookAheadIsSame emptyTrie (keyStr KeyOpt.term) =
            (true, "_") from rfl] at hlook
          simp only [if_true] at hlook
          by_cases hn0 : n0 = ""
          · subst hn0
            simp only [show pyTail "_" = "" from rfl] at hlook
            simp at hlook
            rcases ih "" "_" hwfr hlook with ⟨w, hrcl, -⟩
            exact ⟨w, hrcl, fun _ => Or.inl rfl⟩
          · exfalso
            have hcond : (decide (n0 ≠ "") &&
                decide (pyTail "_" ≠ n0)) = true := by
              simp [show pyTail "_" = "" from rfl]
              exact ⟨hn0, fun hh => hn0 hh.symm⟩
            rw [hcond] at hlook
            simp only [if_true] at hlook
            rw [lookList_false] at hlook
            cases hlook
      | ch c =>
          obtain ⟨hcc, hwfv, hvne, hwfr⟩ := hwfe
          rw [lookList_one] at hlook
          cases hscan : eqScan v.children none true with
          | false =>
              rw [hscan] at hlook
              simp only [Bool.false_eq_true, if_false] at hlook
              rw [lookList_false] at hlook
              cases hlook
          | true =>
              rw [hscan] at hlook
              simp only [if_true, keyStr] at hlook
              have hnodup : v.children.keys.Nodup :=
                ((WfT_def v).mp hwfv).2.2.1
              cases hla : lookAheadIsSame v (String.singleton c) with
              | mk same2 ahead =>
                  simp only [hla] at hlook
                  cases same2 with
                  | false =>
                      exfalso
                      have : (lookList rest
                          ((if n0 ≠ "" && pyTail ahead ≠ n0 then false
                            else false), pyTail ahead, ahead)).1 = true :=
                        hlook
                      rw [show (if n0 ≠ "" && pyTail ahead ≠ n0 then false
                        else false) = false from by
                          by_cases hcc2 : (n0 ≠ "" && pyTail ahead ≠ n0) =
                            true <;> simp [hcc2]] at this
                      rw [lookList_false] at this
                      cases this
                  | true =>
                      rcases eqScan_single v.children hscan hnodup with
                        hnil | hsingle
                      · exact absurd hnil hvne
                      have hv1 : (lookList v.children (true, "", "")).1 =
                          true := by
                        rw [← look_fst v (String.singleton c), hla]
                      rcases lin_extract (sizeOf v) v le_rfl hwfv hsingle hv1
                        with ⟨wc, hlinv⟩
                      have hla2 := lookahead_linear wc v (String.singleton c)
                        hlinv
                      rw [hla2] at hla
                      injection hla with hla3 hla4
                      subst hla4
                      have hpt : pyTail (String.singleton c ++
                          (String.mk wc ++ "_")) = String.mk wc ++ "_" := rfl
                      rw [hpt] at hlook
                      -- the flag survives only if the incoming nahead agrees
                      have hn0c : n0 = "" ∨ n0 = String.mk wc ++ "_" := by
                        by_cases hn0 : n0 = ""
                        · exact Or.inl hn0
                        · by_cases heqn : String.mk wc ++ "_" = n0
                          · exact Or.inr heqn.symm
                          · exfalso
                            have hcond : (decide (n0 ≠ "") &&
                                decide (String.mk wc ++ "_" ≠ n0)) = true := by
                              simp
                              exact ⟨hn0, heqn⟩
                            rw [hcond] at hlook
                            simp only [if_true] at hlook
                            rw [lookList_false] at hlook
                            cases hlook
                      have hcond2 : (if n0 ≠ "" && String.mk wc ++ "_" ≠ n0
                          then false else true) = true := by
                        rcases hn0c with h | h <;> subst h <;> simp
                      rw [hcond2] at hlook
                      rcases ih (String.mk wc ++ "_")
                        (String.singleton c ++ (String.mk wc ++ "_")) hwfr
                        hlook with ⟨w', hrcl', hcons'⟩
                      refine ⟨wc, ⟨hlinv, ?_⟩, fun _ => hn0c⟩
                      by_cases hrk : realKeys rest = []
                      · exact RCL_of_no_real rest wc hrk
                      · rcases hcons' hrk with h | h
                        · exfalso
                          have := congrArg String.data h
                          simp [data_append] at this
                        · have hd := congrArg String.data h
                          simp only [data_append] at hd
                          have hwc : wc = w' := by
                            have hd2 : wc ++ "_".data = w' ++ "_".data := hd
                            exact List.append_cancel_right hd2
                          rw [hwc]
                          exact hrcl'

theorem look_rcl (v : Trie) (hwf : WfT v)
    (hlook : (lookList v.children (true, "", "")).1 = true) :
    ∃ w, RCL v.children w := by
  rcases lookList_extract v.children "" ""
    (((WfT_def v).mp hwf).2.2.2) hlook with ⟨w, hrcl, -⟩
  exact ⟨w, hrcl⟩

/-! Structural lemmas about linear paths, simple children and the
languages contributed by a dict's entries. -/

theorem inTrie_linear : ∀ (w : List Char) (u : Trie), Linear u w →
    ∀ s, inTrie u s ↔ s = w := by
  intro w
  induction w with
  | nil =>
      intro u hlin s
      have hch : u.children = Entries.cons KeyOpt.term emptyTrie Entries.nil :=
        hlin
      cases s with
      | nil =>
          rw [inTrie_nilw, hch]
          simp [Entries.hasKey, Entries.lookup]
      | cons c s2 =>
          rw [inTrie_consw, hch]
          simp [Entries.lookup]
  | cons c w2 ih =>
      intro u hlin s
      obtain ⟨u2, hch, hlin2⟩ := hlin
      cases s with
      | nil =>
          rw [inTrie_nilw, hch]
          simp [Entries.hasKey, Entries.lookup]
      | cons d s2 =>
          rw [inTrie_consw, hch]
          constructor
          · rintro ⟨u3, hlk, hin⟩
            by_cases hdc : c = d
            · subst hdc
              simp [Entries.lookup] at hlk
              subst hlk
              rw [(ih u2 hlin2 s2).mp hin]
            · simp [Entries.lookup, hdc] at hlk
          · intro heq
            injection heq with h1 h2
            subst h1
            subst h2
            exact ⟨u2, by simp [Entries.lookup], (ih u2 hlin2 _).mpr rfl⟩

theorem simpleChild_iff (v : Trie) (hwf : WfT v) :
    simpleChild v = true ↔
      v.children = Entries.cons KeyOpt.term emptyTrie Entries.nil := by
  obtain ⟨hm, hsm, hnd, hwfe⟩ := (WfT_def v).mp hwf
  constructor
  · intro hsc
    unfold simpleChild at hsc
    simp [hm, hsm, Trie.pylen] at hsc
    obtain ⟨hsz, hht⟩ := hsc
    cases hch : v.children with
    | nil =>
        rw [hch] at hsz
        simp [Entries.size] at hsz
    | cons k u rest =>
        rw [hch] at hsz hht hwfe
        cases rest with
        | cons k2 u2 r2 =>
            simp [Entries.size] at hsz
        | nil =>
            cases k with
            | term => rw [hwfe.1]
            | ch c => simp [Entries.hasKey, Entries.lookup] at hht
  · intro hch
    unfold simpleChild
    simp [hm, hsm, Trie.pylen, hch, Entries.size, Entries.hasKey, Entries.lookup]

theorem simpleChild_false_of_linear (v : Trie) (c : Char) (w : List Char)
    (hlin : Linear v (c :: w)) : simpleChild v = false := by
  obtain ⟨u, hch, -⟩ := hlin
  unfold simpleChild
  simp [hch, Entries.hasKey, Entries.lookup]

theorem realKeys_ne_of_nonsimple (v : Trie) (hwf : WfT v)
    (hne : v.children ≠ Entries.nil) (hsc : simpleChild v = false) :
    realKeys v.children ≠ [] := by
  intro hrk
  obtain ⟨hm, hsm, hnd, hwfe⟩ := (WfT_def v).mp hwf
  cases hch : v.children with
  | nil => exact hne hch
  | cons k u rest =>
      rw [hch] at hrk hwfe hnd
      cases k with
      | ch c => simp [realKeys] at hrk
      | term =>
          have hrest : rest = Entries.nil := by
            cases rest with
            | nil => rfl
            | cons k2 u2 r2 =>
                cases k2 with
                | ch c2 => simp [realKeys] at hrk
                | term => simp [Entries.keys] at hnd
          subst hrest
          have hone : simpleChild v = true := by
            unfold simpleChild
            simp [hm, hsm, Trie.pylen, hch, Entries.size, Entries.hasKey, Entries.lookup]
          rw [hone] at hsc
          cases hsc

theorem realKeys_ne_root (es : Entries) (hne : es ≠ Entries.nil)
    (hht : es.hasKey KeyOpt.term = false) : realKeys es ≠ [] := by
  cases es with
  | nil => exact absurd rfl hne
  | cons k u rest =>
      cases k with
      | term => simp [Entries.hasKey, Entries.lookup] at hht
      | ch c => simp [realKeys]

theorem lookup_some_mem : ∀ (es : Entries) (k : KeyOpt) (u : Trie),
    es.lookup k = some u → k ∈ es.keys := by
  intro es
  induction es using entries_ind with
  | hnil => intro k u hlk; simp [Entries.lookup] at hlk
  | hcons k2 v rest ih =>
      intro k u hlk
      by_cases h : k2 = k
      · simp [Entries.keys, h]
      · rw [show Entries.lookup (Entries.cons k2 v rest) k =
          (if k2 = k then some v else rest.lookup k) from rfl,
          if_neg h] at hlk
        simp [Entries.keys]
        exact Or.inr (ih k u hlk)

theorem entLang_nil_iff : ∀ (es : Entries),
    entLang es [] ↔ es.hasKey KeyOpt.term = true := by
  intro es
  induction es using entries_ind with
  | hnil => simp [entLang, Entries.hasKey, Entries.lookup]
  | hcons k v rest ih =>
      cases k with
      | term => simp [entLang, Entries.hasKey, Entries.lookup]
      | ch c =>
          rw [show entLang (Entries.cons (KeyOpt.ch c) v rest) [] =
            ((∃ s2, ([] : List Char) = c :: s2 ∧ inTrie v s2) ∨
              entLang rest []) from rfl]
          simp [Entries.hasKey, Entries.lookup, ih]

theorem entLang_cons_iff : ∀ (es : Entries), es.keys.Nodup →
    ∀ (c : Char) (s2 : List Char), entLang es (c :: s2) ↔
      ∃ u, es.lookup (KeyOpt.ch c) = some u ∧ inTrie u s2 := by
  intro es
  induction es using entries_ind with
  | hnil => intro _ c s2; simp [entLang, Entries.lookup]
  | hcons k v rest ih =>
      intro hnd c s2
      have hndr : rest.keys.Nodup := by
        simp [Entries.keys, List.nodup_cons] at hnd
        exact hnd.2
      cases k with
      | term =>
          rw [show entLang (Entries.cons KeyOpt.term v rest) (c :: s2) =
            ((c :: s2 : List Char) = [] ∨ entLang rest (c :: s2)) from rfl]
          rw [show Entries.lookup (Entries.cons KeyOpt.term v rest)
            (KeyOpt.ch c) = rest.lookup (KeyOpt.ch c) from by
              rw [show Entries.lookup (Entries.cons KeyOpt.term v rest)
                (KeyOpt.ch c) = (if KeyOpt.term = KeyOpt.ch c then some v
                  else rest.lookup (KeyOpt.ch c)) from rfl]
              simp]
          simp [ih hndr c s2]
      | ch d =>
          rw [show entLang (Entries.cons (KeyOpt.ch d) v rest) (c :: s2) =
            ((∃ s3, c :: s2 = d :: s3 ∧ inTrie v s3) ∨
              entLang rest (c :: s2)) from rfl]
          by_cases hdc : d = c
          · subst hdc
            rw [show Entries.lookup (Entries.cons (KeyOpt.ch d) v rest)
              (KeyOpt.ch d) = some v from by simp [Entries.lookup]]
            constructor
            · rintro (⟨s3, heq, hin⟩ | hr)
              · injection heq with h1 h2
                subst h2
                exact ⟨v, rfl, hin⟩
              · exfalso
                rcases (ih hndr d s2).mp hr with ⟨u, hlk, -⟩
                have hmem := lookup_some_mem rest (KeyOpt.ch d) u hlk
                simp [Entries.keys, List.nodup_cons] at hnd
                exact hnd.1 hmem
            · rintro ⟨u, hu, hin⟩
              injection hu with hu2
              subst hu2
              exact Or.inl ⟨s2, rfl, hin⟩
          · rw [show Entries.lookup (Entries.cons (KeyOpt.ch d) v rest)
              (KeyOpt.ch c) = rest.lookup (KeyOpt.ch c) from by
                rw [show Entries.lookup (Entries.cons (KeyOpt.ch d) v rest)
                  (KeyOpt.ch c) = (if KeyOpt.ch d = KeyOpt.ch c then some v
                    else rest.lookup (KeyOpt.ch c)) from rfl]
                simp [hdc]]
            rw [← ih hndr c s2]
            constructor
            · rintro (⟨s3, heq, -⟩ | hr)
              · injection heq with h1 h2
                exact absurd h1.symm hdc
              · exact hr
            · exact Or.inr

theorem entLang_iff (t : Trie) (hwf : WfT t) :
    ∀ s, inTrie t s ↔ entLang t.children s := by
  intro s
  cases s with
  | nil => rw [inTrie_nilw, entLang_nil_iff]
  | cons c s2 =>
      rw [inTrie_consw,
        entLang_cons_iff t.children ((WfT_def t).mp hwf).2.2.1 c s2]

theorem entLang_rcl : ∀ (es : Entries) (w : List Char), WfE es → RCL es w →
    ∀ s, entLang es s ↔
      ((es.hasKey KeyOpt.term = true ∧ s = []) ∨
        ∃ c ∈ realKeys es, s = c :: w) := by
  intro es
  induction es using entries_ind with
  | hnil =>
      intro w _ _ s
      simp [entLang, Entries.hasKey, Entries.lookup, realKeys]
  | hcons k v rest ih =>
      intro w hwfe hrcl s
      cases k with
      | term =>
          obtain ⟨hve, hwfr⟩ := hwfe
          rw [show entLang (Entries.cons KeyOpt.term v rest) s =
            (s = [] ∨ entLang rest s) from rfl]
          rw [ih w hwfr hrcl s]
          simp [Entries.hasKey, Entries.lookup, realKeys]
          tauto
      | ch c =>
          obtain ⟨hcc, hwfv, hvne, hwfr⟩ := hwfe
          obtain ⟨hlin, hrclr⟩ := hrcl
          rw [show entLang (Entries.cons (KeyOpt.ch c) v rest) s =
            ((∃ s2, s = c :: s2 ∧ inTrie v s2) ∨ entLang rest s) from rfl]
          rw [ih w hwfr hrclr s]
          have hv : ∀ s2, inTrie v s2 ↔ s2 = w := inTrie_linear w v hlin
          have hhk : (Entries.cons (KeyOpt.ch c) v rest).hasKey KeyOpt.term =
              rest.hasKey KeyOpt.term := by
            simp [Entries.hasKey, Entries.lookup]
          constructor
          · rintro (⟨s2, hs, hin⟩ | (⟨hk, hs⟩ | ⟨c2, hc2, hs⟩))
            · right
              refine ⟨c, by simp [realKeys], ?_⟩
              rw [hs, (hv s2).mp hin]
            · left
              exact ⟨by rw [hhk]; exact hk, hs⟩
            · right
              exact ⟨c2, by simp [realKeys]; exact Or.inr hc2, hs⟩
          · rintro (⟨hk, hs⟩ | ⟨c2, hc2, hs⟩)
            · right; left
              exact ⟨by rw [hhk] at hk; exact hk, hs⟩
            · rcases List.mem_cons.mp hc2 with h | h
              · subst h
                left
                exact ⟨w, hs, (hv w).mpr rfl⟩
              · right; right
                exact ⟨c2, h, hs⟩

theorem sglLang_keys : ∀ (es : Entries) (s : List Char),
    sglLang es s ↔ ∃ c ∈ simpleKeys es, s = [c] := by
  intro es
  induction es using entries_ind with
  | hnil => intro s; simp [sglLang, simpleKeys]
  | hcons k v rest ih =>
      intro s
      cases k with
      | term => exact ih s
      | ch c =>
          rw [show sglLang (Entries.cons (KeyOpt.ch c) v rest) s =
            ((simpleChild v = true ∧ s = [c]) ∨ sglLang rest s) from rfl]
          rw [show simpleKeys (Entries.cons (KeyOpt.ch c) v rest) =
            (if simpleChild v then [c] else []) ++ simpleKeys rest from rfl]
          by_cases hsc : simpleChild v = true
          · simp [hsc, ih s]
          · simp [hsc, ih s]

theorem simpleKeys_clean : ∀ (es : Entries), WfE es →
    ∀ c ∈ simpleKeys es, CleanChar c := by
  intro es
  induction es using entries_ind with
  | hnil => intro _ c hc; simp [simpleKeys] at hc
  | hcons k v rest ih =>
      intro hwfe c hc
      cases k with
      | term => exact ih hwfe.2 c hc
      | ch d =>
          obtain ⟨hcd, -, -, hwfr⟩ := hwfe
          rw [show simpleKeys (Entries.cons (KeyOpt.ch d) v rest) =
            (if simpleChild v then [d] else []) ++ simpleKeys rest from rfl]
            at hc
          rcases List.mem_append.mp hc with h | h
          · by_cases hsc : simpleChild v = true
            · rw [if_pos hsc] at h
              rcases List.mem_singleton.mp h with rfl
              exact hcd
            · rw [if_neg hsc] at h
              simp at h
          · exact ih hwfr c h

theorem realKeys_clean : ∀ (es : Entries), WfE es →
    ∀ c ∈ realKeys es, CleanChar c := by
  intro es
  induction es using entries_ind with
  | hnil => intro _ c hc; simp [realKeys] at hc
  | hcons k v rest ih =>
      intro hwfe c hc
      cases k with
      | term => exact ih hwfe.2 c hc
      | ch d =>
          obtain ⟨hcd, -, -, hwfr⟩ := hwfe
          rcases List.mem_cons.mp hc with h | h
          · subst h; exact hcd
          · exact ih hwfr c h

theorem chainTrie_linear : ∀ (w : List Char), Linear (chainTrie w) w := by
  intro w
  induction w with
  | nil => show (chainTrie []).children = _; rfl
  | cons c rest ih => exact ⟨chainTrie rest, rfl, ih⟩

theorem chain_children_ne : ∀ (w : List Char),
    (chainTrie w).children ≠ Entries.nil := by
  intro w
  cases w with
  | nil => intro h; cases h
  | cons c rest => intro h; cases h

theorem WfT_chain : ∀ (w : List Char), (∀ c ∈ w, CleanChar c) →
    WfT (chainTrie w) := by
  intro w
  induction w with
  | nil =>
      intro _
      rw [WfT_def]
      exact ⟨rfl, rfl, by simp [chainTrie, Entries.keys], ⟨rfl, trivial⟩⟩
  | cons c rest ih =>
      intro hcl
      rw [WfT_def]
      refine ⟨rfl, rfl, by simp [chainTrie, Entries.keys], ?_⟩
      show CleanChar c ∧ WfT (chainTrie rest) ∧
        (chainTrie rest).children ≠ Entries.nil ∧ True
      exact ⟨hcl c (by simp), ih (fun d hd => hcl d (by simp [hd])),
        chain_children_ne rest, trivial⟩

theorem str_append_empty (s : String) : s ++ "" = s := by
  cases s with
  | mk d =>
      show String.mk (d ++ []) = String.mk d
      rw [List.append_nil]

theorem fragEff_word : ∀ (w : List Char), (∀ c ∈ w, CleanChar c) →
    FragEff (String.mk w) [] (w.map RE.char) := by
  intro w
  induction w with
  | nil => intro _; exact fragEff_empty
  | cons c w2 ih =>
      intro hcl
      have h1 := fragEff_clean_char c (hcl c (by simp))
      have h2 := ih (fun d hd => hcl d (by simp [hd]))
      exact fragEff_append (String.singleton c) (String.mk w2) [] []
        [RE.char c] (w2.map RE.char) h1 h2

theorem altsLang_snoc (a : List (List RE)) (l l2 : List RE) (s : List Char) :
    altsLang (a ++ [l]) l2 s ↔ altsLang a l s ∨ Lang (seqOf l2) s := by
  unfold altsLang
  constructor
  · rintro (⟨as, has, hl⟩ | h)
    · rcases List.mem_append.mp has with h1 | h1
      · exact Or.inl (Or.inl ⟨as, h1, hl⟩)
      · rcases List.mem_singleton.mp h1 with rfl
        exact Or.inl (Or.inr hl)
    · exact Or.inr h
  · rintro ((⟨as, has, hl⟩ | h) | h)
    · exact Or.inl ⟨as, by simp [has], hl⟩
    · exact Or.inl ⟨l, by simp, h⟩
    · exact Or.inr h

theorem lang_cls_one (chars : List Char) (s : List Char) :
    Lang (RE.cls false (chars.map ClsItem.one)) s ↔ ∃ c ∈ chars, s = [c] := by
  rw [show Lang (RE.cls false (chars.map ClsItem.one)) s =
    (∃ c, s = [c] ∧ clsMatch false (chars.map ClsItem.one) c = true) from rfl]
  simp only [clsMatch, ClsItem.memB, List.any_map, List.any_eq_true]
  constructor
  · rintro ⟨c, hs, hm⟩
    simp at hm
    exact ⟨c, hm, hs⟩
  · rintro ⟨c, hc, hs⟩
    refine ⟨c, hs, ?_⟩
    simp
    exact hc

theorem compile_linear : ∀ (w : List Char) (s : Trie), WfT s → Linear s w →
    w ≠ [] → compileRegexRecursive s true false =
      (String.mk w, 1, 1, true) := by
  intro w
  induction w with
  | nil => intro s _ _ hne; exact absurd rfl hne
  | cons c w2 ih =>
      intro s hwf hlin _
      obtain ⟨u, hch, hlin2⟩ := hlin
      obtain ⟨hm, hsm, hnd, hwfe⟩ := (WfT_def s).mp hwf
      rw [hch] at hwfe
      obtain ⟨hcc, hwfu, hune, -⟩ := hwfe
      cases s with
      | mk m0 sm0 ch0 =>
          have hm0 : m0 = none := hm
          have hsm0 : sm0 = none := hsm
          have hch0 : ch0 = Entries.cons (KeyOpt.ch c) u Entries.nil := hch
          subst hm0
          subst hsm0
          subst hch0
          cases w2 with
          | nil =>
              have huch : u.children =
                  Entries.cons KeyOpt.term emptyTrie Entries.nil := hlin2
              cases u with
              | mk mu smu chu =>
                  have h1 : mu = none := ((WfT_def _).mp hwfu).1
                  have h2 : smu = none := ((WfT_def _).mp hwfu).2.1
                  have h3 : chu =
                      Entries.cons KeyOpt.term emptyTrie Entries.nil := huch
                  subst h1
                  subst h2
                  subst h3
                  rfl
          | cons d w3 =>
              have hrec := ih u hwfu hlin2 (by simp)
              have hlook := lookahead_linear (d :: w3) u (String.singleton c)
                hlin2
              have hsc : simpleChild u = false :=
                simpleChild_false_of_linear u d w3 hlin2
              obtain ⟨ud, huch, hulin2⟩ := hlin2
              cases u with
              | mk mu smu chu =>
                  have h1 : mu = none := ((WfT_def _).mp hwfu).1
                  have h2 : smu = none := ((WfT_def _).mp hwfu).2.1
                  have h3 : chu = Entries.cons (KeyOpt.ch d) ud Entries.nil :=
                    huch
                  subst h1
                  subst h2
                  subst h3
                  have hscu : ((Trie.mk none none (Entries.cons (KeyOpt.ch d)
                      ud Entries.nil)).pylen -
                      ((if (Trie.mk none none (Entries.cons (KeyOpt.ch d) ud
                        Entries.nil)).mark.isSome then 1 else 0) +
                       (if (Trie.mk none none (Entries.cons (KeyOpt.ch d) ud
                        Entries.nil)).selfmark.isSome then 1 else 0)) = 1 &&
                      (Trie.mk none none (Entries.cons (KeyOpt.ch d) ud
                        Entries.nil)).children.hasKey KeyOpt.term) = false :=
                    hsc
                  unfold compileRegexRecursive compileList
                  simp only [hscu, Bool.false_eq_true, if_false, hlook, hrec,
                    escape_clean c hcc, mark_mk, selfmark_mk, children_mk]
                  simp [Trie.pylen, Entries.size, Entries.hasKey,
                    Entries.lookup, compileList]
                  try rfl

theorem lang_seqOf_word : ∀ (w s : List Char),
    Lang (seqOf (w.map RE.char)) s ↔ s = w := by
  intro w
  induction w with
  | nil => intro s; simp [lang_seqOf_nil]
  | cons c w2 ih =>
      intro s
      rw [show (c :: w2).map RE.char = RE.char c :: w2.map RE.char from rfl,
        lang_seqOf_char]
      constructor
      · rintro ⟨s2, hs, h2⟩
        rw [hs, (ih s2).mp h2]
      · intro hs
        subst hs
        exact ⟨w2, rfl, (ih w2).mpr rfl⟩

theorem hasKey_false_of_not_mem (es : Entries) (k : KeyOpt)
    (h : k ∉ es.keys) : es.hasKey k = false := by
  cases hk : es.hasKey k with
  | false => rfl
  | true =>
      exfalso
      unfold Entries.hasKey at hk
      cases hlk : es.lookup k with
      | none => rw [hlk] at hk; cases hk
      | some u => exact h (lookup_some_mem es k u hlk)

theorem entries_size_split : ∀ (es : Entries), es.keys.Nodup →
    es.size = (realKeys es).length +
      (if es.hasKey KeyOpt.term then 1 else 0) := by
  intro es
  induction es using entries_ind with
  | hnil => intro _; simp [Entries.size, realKeys, Entries.hasKey, Entries.lookup]
  | hcons k v rest ih =>
      intro hnd
      have hndr : rest.keys.Nodup := by
        simp [Entries.keys, List.nodup_cons] at hnd
        exact hnd.2
      cases k with
      | term =>
          have hmem : KeyOpt.term ∉ rest.keys := by
            simp [Entries.keys, List.nodup_cons] at hnd
            exact hnd.1
          have hrt : rest.hasKey KeyOpt.term = false :=
            hasKey_false_of_not_mem rest KeyOpt.term hmem
          rw [show (Entries.cons KeyOpt.term v rest).size = rest.size + 1
            from rfl, ih hndr, hrt]
          simp [realKeys, Entries.hasKey, Entries.lookup]
      | ch c =>
          rw [show (Entries.cons (KeyOpt.ch c) v rest).size = rest.size + 1
            from rfl, ih hndr]
          have hhk : (Entries.cons (KeyOpt.ch c) v rest).hasKey KeyOpt.term =
              rest.hasKey KeyOpt.term := by
            simp [Entries.hasKey, Entries.lookup]
          rw [hhk]
          simp [realKeys]
          omega

theorem compileList_same_step (c : Char) (v : Trie) (rest : Entries)
    (hcc : CleanChar c) (hwfv : WfT v) (w : List Char) (hw : w ≠ [])
    (hlin : Linear v w) :
    ∀ (sgl : List String) (ps : String) (n mp : Nat),
    compileList (Entries.cons (KeyOpt.ch c) v rest) true false ""
      (CState.mk "" sgl ps n mp) =
    compileList rest true false ""
      (CState.mk "" (sgl ++ [String.singleton c])
        (if ps = "" then String.mk w else ps) n (max mp 1)) := by
  intro sgl ps n mp
  obtain ⟨c0, w0, hw0⟩ : ∃ c0 w0, w = c0 :: w0 := by
    cases w with
    | nil => exact absurd rfl hw
    | cons c0 w0 => exact ⟨c0, w0, rfl⟩
  have hsc : simpleChild v = false := by
    have hlin2 := hlin
    rw [hw0] at hlin2
    exact simpleChild_false_of_linear v c0 w0 hlin2
  have hlook := lookahead_linear w v (String.singleton c) hlin
  have hrec := compile_linear w v hwfv hlin hw
  have hvm : v.mark = none := ((WfT_def v).mp hwfv).1
  have hvsm : v.selfmark = none := ((WfT_def v).mp hwfv).2.1
  have htlen : v.pylen = 1 := by
    rw [hw0] at hlin
    obtain ⟨vd, hvch, -⟩ := hlin
    simp [Trie.pylen, hvch, hvm, hvsm, Entries.size]
  have hscv : (v.pylen - ((if v.mark.isSome then 1 else 0) +
      (if v.selfmark.isSome then 1 else 0)) = 1 &&
      v.children.hasKey KeyOpt.term) = false := hsc
  conv_lhs => unfold compileList
  simp only [hscv, Bool.false_eq_true, if_false]
  simp only [hlook, hrec, escape_clean c hcc, htlen, hvm, hvsm]
  simp

theorem compileList_same_nil : ∀ (es : Entries), WfE es → RCL es [] →
    ∀ (sgl : List String) (ps : String) (n mp : Nat),
    compileList es true false "" (CState.mk "" sgl ps n mp) =
      CState.mk "" (sgl ++ (realKeys es).map String.singleton) ps n mp := by
  intro es
  induction es using entries_ind with
  | hnil =>
      intro _ _ sgl ps n mp
      simp [compileList, realKeys]
  | hcons k v rest ih =>
      intro hwfe hrcl sgl ps n mp
      cases k with
      | term =>
          rw [show compileList (Entries.cons KeyOpt.term v rest) true false ""
            (CState.mk "" sgl ps n mp) =
            compileList rest true false "" (CState.mk "" sgl ps n mp)
            from rfl]
          exact ih hwfe.2 hrcl sgl ps n mp
      | ch c =>
          obtain ⟨hcc, hwfv, hvne, hwfr⟩ := hwfe
          obtain ⟨hlin, hrclr⟩ := hrcl
          have hsc : simpleChild v = true := (simpleChild_iff v hwfv).mpr hlin
          have hscv : (v.pylen - ((if v.mark.isSome then 1 else 0) +
              (if v.selfmark.isSome then 1 else 0)) = 1 &&
              v.children.hasKey KeyOpt.term) = true := hsc
          unfold compileList
          simp only [hscv, if_true]
          rw [ih hwfr hrclr (sgl ++ [String.singleton c]) ps n mp]
          simp [realKeys]

theorem compileList_same_cons : ∀ (es : Entries) (w : List Char), w ≠ [] →
    WfE es → RCL es w →
    ∀ (sgl : List String),
    (compileList es true false "" (CState.mk "" sgl "" 0 0) =
      CState.mk "" (sgl ++ (realKeys es).map String.singleton)
        (if realKeys es = [] then "" else String.mk w) 0
        (if realKeys es = [] then 0 else 1)) ∧
    (compileList es true false "" (CState.mk "" sgl (String.mk w) 0 1) =
      CState.mk "" (sgl ++ (realKeys es).map String.singleton)
        (String.mk w) 0 1) := by
  intro es
  induction es using entries_ind with
  | hnil =>
      intro w _ _ _ sgl
      constructor <;> simp [compileList, realKeys]
  | hcons k v rest ih =>
      intro w hw hwfe hrcl sgl
      cases k with
      | term =>
          have hstep : ∀ st, compileList (Entries.cons KeyOpt.term v rest)
              true false "" st = compileList rest true false "" st :=
            fun _ => rfl
          rw [hstep, hstep]
          exact ih w hw hwfe.2 hrcl sgl
      | ch c =>
          obtain ⟨hcc, hwfv, hvne, hwfr⟩ := hwfe
          obtain ⟨hlin, hrclr⟩ := hrcl
          have hmkne : String.mk w ≠ "" := by
            intro hh
            exact hw ((str_eq_empty_iff (String.mk w)).mp hh)
          have hstep := compileList_same_step c v rest hcc hwfv w hw hlin
          constructor
          · rw [hstep sgl "" 0 0]
            rw [if_pos rfl]
            rcases ih w hw hwfr hrclr (sgl ++ [String.singleton c]) with
              ⟨-, h2⟩
            rw [show max 0 1 = 1 from rfl, h2]
            simp [realKeys]
          · rw [hstep sgl (String.mk w) 0 1]
            rw [if_neg hmkne]
            rcases ih w hw hwfr hrclr (sgl ++ [String.singleton c]) with
              ⟨-, h2⟩
            rw [show max 1 1 = 1 from rfl, h2]
            simp [realKeys]

theorem linear_clean : ∀ (w : List Char) (v : Trie), WfT v → Linear v w →
    ∀ c ∈ w, CleanChar c := by
  intro w
  induction w with
  | nil => intro v _ _ c hc; simp at hc
  | cons d w2 ih =>
      intro v hwf hlin c hc
      obtain ⟨u, hch, hlin2⟩ := hlin
      have hwfe : WfE v.children := ((WfT_def v).mp hwf).2.2.2
      rw [hch] at hwfe
      obtain ⟨hcd, hwfu, -, -⟩ := hwfe
      rcases List.mem_cons.mp hc with h | h
      · subst h; exact hcd
      · exact ih u hwfu hlin2 c h

theorem rcl_chars_clean : ∀ (es : Entries) (w : List Char), WfE es →
    RCL es w → realKeys es ≠ [] → ∀ c ∈ w, CleanChar c := by
  intro es
  induction es using entries_ind with
  | hnil => intro w _ _ hrk; exact absurd rfl hrk
  | hcons k v rest ih =>
      intro w hwfe hrcl hrk c hc
      cases k with
      | term => exact ih w hwfe.2 hrcl (by simpa [realKeys] using hrk) c hc
      | ch d =>
          obtain ⟨-, hwfv, -, -⟩ := hwfe
          exact linear_clean w v hwfv hrcl.1 c hc

theorem compile_same (v : Trie) (hwf : WfT v) (w : List Char)
    (hrcl : RCL v.children w) (hrk : realKeys v.children ≠ []) :
    CompiledOK v true false := by
  cases v with
  | mk m0 sm0 ch =>
  have hm0 : m0 = none := ((WfT_def _).mp hwf).1
  have hsm0 : sm0 = none := ((WfT_def _).mp hwf).2.1
  subst hm0
  subst hsm0
  have hnd : ch.keys.Nodup := by
    simpa using ((WfT_def _).mp hwf).2.2.1
  have hwfe : WfE ch := by
    simpa using ((WfT_def _).mp hwf).2.2.2
  have hrcl2 : RCL ch w := hrcl
  have hrk2 : realKeys ch ≠ [] := hrk
  have hclean_rk := realKeys_clean ch hwfe
  obtain ⟨ps0, mp0, hst, hfps⟩ : ∃ ps0 mp0,
      compileList ch true false "" (CState.mk "" [] "" 0 0) =
        CState.mk "" ((realKeys ch).map String.singleton) ps0 0 mp0 ∧
      FragEff ps0 [] (w.map RE.char) := by
    by_cases hw : w = []
    · subst hw
      refine ⟨"", 0, ?_, fragEff_empty⟩
      simpa using compileList_same_nil ch hwfe hrcl2 [] "" 0 0
    · refine ⟨String.mk w, 1, ?_, ?_⟩
      · have h1 := (compileList_same_cons ch w hw hwfe hrcl2 []).1
        rw [if_neg hrk2, if_neg hrk2] at h1
        simpa using h1
      · exact fragEff_word w (rcl_chars_clean ch w hwfe hrcl2 hrk2)
  have hint : ∀ s, inTrie (Trie.mk none none ch) s ↔
      ((ch.hasKey KeyOpt.term = true ∧ s = []) ∨
        ∃ c ∈ realKeys ch, s = c :: w) := by
    intro s
    rw [entLang_iff _ hwf s]
    exact entLang_rcl ch w hwfe hrcl2 s
  have hsize := entries_size_split ch hnd
  rcases hrkc : realKeys ch with _ | ⟨c1, rk2⟩
  · exact absurd hrkc hrk2
  rw [hrkc] at hst hsize
  have hcl1 : CleanChar c1 := hclean_rk c1 (by rw [hrkc]; simp)
  have hqm : c1 ≠ '?' :=
    (cleanChar_facts c1 hcl1).2.2.2.2.2.2.2.2.2.2.2.1
  rcases rk2 with _ | ⟨c2, rk3⟩
  · -- a single simple alternative character
    have hlenpos : 0 < (String.singleton c1 ++ ps0).length := by
      show 0 < ((String.singleton c1 ++ ps0).data).length
      simp [data_append]
    have hcnd : (ch.hasKey KeyOpt.term &&
        decide (0 < (String.singleton c1 ++ ps0).length)) =
        ch.hasKey KeyOpt.term := by
      rw [decide_eq_true hlenpos, Bool.and_true]
    have heval : compileRegexRecursive (Trie.mk none none ch) true false =
        ((if ch.hasKey KeyOpt.term then
            (String.singleton c1 ++ ps0) ++ "|"
          else String.singleton c1 ++ ps0),
         max mp0 (if ch.hasKey KeyOpt.term then 2 else 1),
         (if ch.hasKey KeyOpt.term then 2 else 1),
         decide (1 = Entries.size ch)) := by
      conv_lhs => unfold compileRegexRecursive
      simp only [mark_mk, selfmark_mk, children_mk]
      simp only [hst]
      simp [Trie.pylen, hcnd, hlenpos]
      cases hhT : ch.hasKey KeyOpt.term <;> simp [hlenpos]
    have hcfrag : FragEff (String.singleton c1 ++ ps0) []
        (RE.char c1 :: w.map RE.char) := by
      simpa [shiftA, shiftL] using
        fragEff_append (String.singleton c1) ps0 [] [] [RE.char c1]
          (w.map RE.char) (fragEff_clean_char c1 hcl1) hfps
    have hhead : headOK (String.singleton c1 ++ ps0) := by
      show ((String.singleton c1 ++ ps0).data).head? ≠ some '?'
      simp [data_append]
      intro hh
      exact hqm hh
    have hne2 : String.singleton c1 ++ ps0 ≠ "" := by
      intro hh
      have := congrArg String.data hh
      simp [data_append] at this
    have hseq : ∀ s, Lang (seqOf (RE.char c1 :: w.map RE.char)) s ↔
        ∃ c ∈ realKeys ch, s = c :: w := by
      intro s
      rw [lang_seqOf_char, hrkc]
      constructor
      · rintro ⟨s2, hs, h2⟩
        exact ⟨c1, by simp, by rw [hs, (lang_seqOf_word w s2).mp h2]⟩
      · rintro ⟨c, hc, hs⟩
        rcases List.mem_singleton.mp hc with rfl
        exact ⟨w, hs, (lang_seqOf_word w w).mpr rfl⟩
    cases hhT : ch.hasKey KeyOpt.term with
    | false =>
        rw [hhT] at heval hsize hint
        simp only [if_false, Bool.false_eq_true] at heval
        simp at hsize
        rw [hsize] at heval
        simp at heval
        refine ⟨[], RE.char c1 :: w.map RE.char, ?_, ?_, ?_, ?_, ?_, ?_, ?_,
          ?_⟩
        · simp only [heval]
          exact hcfrag
        · simp only [heval]
          exact hhead
        · simp [heval]
        · intro _; rfl
        · simp only [heval]
          exact hne2
        · simp [heval]
        · intro _; rfl
        · intro s
          rw [hint s]
          simp [altsLang, hseq s]
    | true =>
        rw [hhT] at heval hsize hint
        simp only [if_true] at heval
        simp at hsize
        rw [hsize] at heval
        simp at heval
        have hbfrag : FragEff ((String.singleton c1 ++ ps0) ++ "|")
            [RE.char c1 :: w.map RE.char] [] := by
          simpa [shiftA, shiftL] using
            fragEff_append (String.singleton c1 ++ ps0) "|" []
              [[]] (RE.char c1 :: w.map RE.char) [] hcfrag fragEff_bar
        refine ⟨[RE.char c1 :: w.map RE.char], [], ?_, ?_, ?_, ?_, ?_, ?_,
          ?_, ?_⟩
        · simp only [heval]
          exact hbfrag
        · simp only [heval]
          show (((String.singleton c1 ++ ps0) ++ "|").data).head? ≠ some '?'
          simp [data_append]
          intro hh
          exact hqm hh
        · simp [heval]
        · simp [heval]
        · simp only [heval]
          intro hh
          have := congrArg String.data hh
          simp [data_append] at this
        · simp [heval]
        · intro h
          simp only [children_mk] at h
          rw [hsize] at h
          exfalso
          omega
        · intro s
          rw [hint s]
          simp only [altsLang]
          constructor
          · rintro (⟨as, has, hl⟩ | h)
            · rcases List.mem_singleton.mp has with rfl
              exact Or.inr ((hseq s).mp hl)
            · exact Or.inl ⟨by trivial, (lang_seqOf_nil s).mp h⟩
          · rintro (⟨-, hs⟩ | h)
            · exact Or.inr ((lang_seqOf_nil s).mpr hs)
            · exact Or.inl ⟨_, by simp, (hseq s).mpr h⟩
  · -- several simple alternative characters form a character class
    have hRstr : String.join (String.singleton c1 :: String.singleton c2 ::
        rk3.map String.singleton) = String.mk (c1 :: c2 :: rk3) := by
      simpa using join_map_singleton (c1 :: c2 :: rk3)
    have hcls : ∀ c ∈ (c1 :: c2 :: rk3), CleanChar c := by
      intro c hc
      exact hclean_rk c (by rw [hrkc]; exact hc)
    have hlenpos : 0 <
        ("[" ++ String.mk (c1 :: c2 :: rk3) ++ "]" ++ ps0).length := by
      show 0 < (("[" ++ String.mk (c1 :: c2 :: rk3) ++ "]" ++
        ps0).data).length
      simp [data_append]
    have hcnd : (ch.hasKey KeyOpt.term &&
        decide (0 < ("[" ++ String.mk (c1 :: c2 :: rk3) ++ "]" ++
          ps0).length)) = ch.hasKey KeyOpt.term := by
      rw [decide_eq_true hlenpos, Bool.and_true]
    have heval : compileRegexRecursive (Trie.mk none none ch) true false =
        ((if ch.hasKey KeyOpt.term then
            ("[" ++ String.mk (c1 :: c2 :: rk3) ++ "]" ++ ps0) ++ "|"
          else "[" ++ String.mk (c1 :: c2 :: rk3) ++ "]" ++ ps0),
         max mp0 (if ch.hasKey KeyOpt.term then 2 else 1),
         (if ch.hasKey KeyOpt.term then 2 else 1),
         decide (rk3.length + 2 = Entries.size ch)) := by
      conv_lhs => unfold compileRegexRecursive
      simp only [mark_mk, selfmark_mk, children_mk]
      simp only [hst]
      simp [Trie.pylen, hcnd, hRstr, hlenpos]
      cases hhT : ch.hasKey KeyOpt.term <;>
        simp [hRstr, show (0 : Nat) < "[".length from by decide]
    have hSfrag : FragEff ("[" ++ String.mk (c1 :: c2 :: rk3) ++ "]") []
        [RE.cls false ((c1 :: c2 :: rk3).map ClsItem.one)] :=
      fragEff_class (c1 :: c2 :: rk3) (by simp) hcls
    have hcfrag : FragEff ("[" ++ String.mk (c1 :: c2 :: rk3) ++ "]" ++ ps0)
        [] (RE.cls false ((c1 :: c2 :: rk3).map ClsItem.one) ::
          w.map RE.char) := by
      simpa [shiftA, shiftL] using
        fragEff_append ("[" ++ String.mk (c1 :: c2 :: rk3) ++ "]") ps0 [] []
          [RE.cls false ((c1 :: c2 :: rk3).map ClsItem.one)]
          (w.map RE.char) hSfrag hfps
    have hhead : headOK ("[" ++ String.mk (c1 :: c2 :: rk3) ++ "]" ++ ps0) := by
      show (("[" ++ String.mk (c1 :: c2 :: rk3) ++ "]" ++
        ps0).data).head? ≠ some '?'
      simp [data_append]
    have hne2 : "[" ++ String.mk (c1 :: c2 :: rk3) ++ "]" ++ ps0 ≠ "" := by
      intro hh
      have := congrArg String.data hh
      simp [data_append] at this
    have hseq : ∀ s, Lang (seqOf (RE.cls false
        ((c1 :: c2 :: rk3).map ClsItem.one) :: w.map RE.char)) s ↔
        ∃ c ∈ realKeys ch, s = c :: w := by
      intro s
      rw [lang_seqOf_cons, hrkc]
      constructor
      · rintro ⟨u, v2, hs, hu, hv⟩
        rcases (lang_cls_one (c1 :: c2 :: rk3) u).mp hu with ⟨c, hc, hu2⟩
        refine ⟨c, hc, ?_⟩
        rw [hs, hu2, (lang_seqOf_word w v2).mp hv]
        rfl
      · rintro ⟨c, hc, hs⟩
        exact ⟨[c], w, by rw [hs]; rfl,
          (lang_cls_one (c1 :: c2 :: rk3) [c]).mpr ⟨c, hc, rfl⟩,
          (lang_seqOf_word w w).mpr rfl⟩
    cases hhT : ch.hasKey KeyOpt.term with
    | false =>
        rw [hhT] at heval hsize hint
        simp only [if_false, Bool.false_eq_true] at heval
        simp at hsize
        rw [hsize] at heval
        simp at heval
        refine ⟨[], RE.cls false ((c1 :: c2 :: rk3).map ClsItem.one) ::
          w.map RE.char, ?_, ?_, ?_, ?_, ?_, ?_, ?_, ?_⟩
        · simp only [heval]
          exact hcfrag
        · simp only [heval]
          exact hhead
        · simp [heval]
        · intro _; rfl
        · simp only [heval]
          exact hne2
        · simp [heval]
        · intro _; rfl
        · intro s
          rw [hint s]
          simp only [altsLang]
          simp
          simpa using hseq s
    | true =>
        rw [hhT] at heval hsize hint
        simp only [if_true] at heval
        simp at hsize
        rw [hsize] at heval
        simp at heval
        have hbfrag : FragEff (("[" ++ String.mk (c1 :: c2 :: rk3) ++ "]" ++
            ps0) ++ "|")
            [RE.cls false ((c1 :: c2 :: rk3).map ClsItem.one) ::
              w.map RE.char] [] := by
          simpa [shiftA, shiftL] using
            fragEff_append ("[" ++ String.mk (c1 :: c2 :: rk3) ++ "]" ++ ps0)
              "|" [] [[]]
              (RE.cls false ((c1 :: c2 :: rk3).map ClsItem.one) ::
                w.map RE.char) [] hcfrag fragEff_bar
        refine ⟨[RE.cls false ((c1 :: c2 :: rk3).map ClsItem.one) ::
          w.map RE.char], [], ?_, ?_, ?_, ?_, ?_, ?_, ?_, ?_⟩
        · simp only [heval]
          exact hbfrag
        · simp only [heval]
          show ((("[" ++ String.mk (c1 :: c2 :: rk3) ++ "]" ++ ps0) ++
            "|").data).head? ≠ some '?'
          simp [data_append]
        · simp [heval]
        · simp [heval]
        · simp only [heval]
          intro hh
          have := congrArg String.data hh
          simp [data_append] at this
        · simp [heval]
        · intro h
          simp only [children_mk] at h
          rw [hsize] at h
          exfalso
          omega
        · intro s
          rw [hint s]
          simp only [altsLang]
          constructor
          · rintro (⟨as, has, hl⟩ | h)
            · rcases List.mem_singleton.mp has with rfl
              exact Or.inr ((hseq s).mp hl)
            · exact Or.inl ⟨by trivial, (lang_seqOf_nil s).mp h⟩
          · rintro (⟨-, hs⟩ | h)
            · exact Or.inr ((lang_seqOf_nil s).mpr hs)
            · exact Or.inl ⟨_, by simp, (hseq s).mpr h⟩

theorem fragEff_congr (r r2 : String) (a : List (List RE)) (l : List RE)
    (h : r2.data = r.data) (hf : FragEff r a l) : FragEff r2 a l := by
  intro A q stk
  rw [show runP r2.data (some (PState.mk PMode.norm (PFrame.mk A q) stk)) =
    runP r.data (some (PState.mk PMode.norm (PFrame.mk A q) stk)) from by
      rw [h]]
  exact hf A q stk

theorem str_len_pos (r : String) (h : r ≠ "") : 0 < r.length := by
  show 0 < r.data.length
  cases hd : r.data with
  | nil => exact absurd ((str_eq_empty_iff r).mpr hd) h
  | cons c cs => simp

theorem ne_grp (r : String) (c : Char) (hc : c ∈ r.data) (h1 : c ≠ '(')
    (h2 : c ≠ '?') (h3 : c ≠ ':') (h4 : c ≠ ')') : r ≠ "(?:)" := by
  intro hh
  subst hh
  rcases hc with _ | ⟨_, hc2⟩
  · exact h1 rfl
  rcases hc2 with _ | ⟨_, hc3⟩
  · exact h2 rfl
  rcases hc3 with _ | ⟨_, hc4⟩
  · exact h3 rfl
  rcases hc4 with _ | ⟨_, hc5⟩
  · exact h4 rfl
  cases hc5

theorem loopInv_iff_sem (regex : String) (num : Nat) (a : List (List RE))
    (l : List RE) (sem sem2 : List Char → Prop)
    (h : ∀ s, sem s ↔ sem2 s) (hinv : LoopInv regex num a l sem) :
    LoopInv regex num a l sem2 := by
  rcases hinv with ⟨h1, h2, h3, h4, h5⟩ | ⟨h1, h2, h3, h4, h5⟩
  · exact Or.inl ⟨h1, h2, h3, h4, fun s hs => h5 s ((h s).mpr hs)⟩
  · exact Or.inr ⟨h1, h2, h3, h4, fun s => (h5 s).trans (h s)⟩

theorem headOK_congr (r r2 : String) (h : r2.data = r.data)
    (hh : headOK r) : headOK r2 := by
  show r2.data.head? ≠ some '?'
  rw [h]
  exact hh

theorem loopInv_extend (regex R2 : String) (num : Nat)
    (a : List (List RE)) (l : List RE) (sem : List Char → Prop)
    (core : String) (lcore : List RE) (semC : List Char → Prop)
    (hinv : LoopInv regex num a l sem)
    (hR2 : R2.data =
      ((if regex.length > 0 then regex ++ "|" else regex) ++ core).data)
    (hfc : FragEff core [] lcore)
    (hhc : headOK core) (hnc : core ≠ "")
    (hlc : ∀ s, Lang (seqOf lcore) s ↔ semC s) :
    ∃ a2 l2, (regex = "" → a2 = []) ∧
      LoopInv R2 (num + 1) a2 l2 (fun s => sem s ∨ semC s) := by
  rcases hinv with ⟨h1, h2, h3, h4, h5⟩ | ⟨h1, h2, h3, h4, h5⟩
  · subst h1
    subst h2
    have hR2d : R2.data = core.data := by
      simpa using hR2
    refine ⟨[], lcore, fun _ => rfl, Or.inr ⟨?_, ?_, ?_, rfl, ?_⟩⟩
    · intro hh
      rw [hh] at hR2d
      exact hnc ((str_eq_empty_iff core).mpr hR2d.symm)
    · exact fragEff_congr core R2 [] lcore hR2d hfc
    · exact headOK_congr core R2 hR2d hhc
    · intro s
      rw [show altsLang [] lcore s ↔ Lang (seqOf lcore) s from by
        simp [altsLang]]
      rw [hlc s]
      exact ⟨Or.inr, fun h => h.elim (fun hs => absurd hs (h5 s)) id⟩
  · have hlen : regex.length > 0 := str_len_pos regex h1
    rw [if_pos hlen] at hR2
    have hfa : FragEff ((regex ++ "|") ++ core) (a ++ [l]) lcore := by
      have hbar : FragEff (regex ++ "|") (a ++ [l]) [] := by
        have := fragEff_append regex "|" a [[]] l [] h2 fragEff_bar
        simpa [shiftA, shiftL] using this
      have := fragEff_append (regex ++ "|") core (a ++ [l]) [] [] lcore
        hbar hfc
      simpa [shiftA, shiftL] using this
    refine ⟨a ++ [l], lcore, fun hh => absurd hh h1, Or.inr ⟨?_, ?_, ?_, ?_, ?_⟩⟩
    · intro hh
      rw [hh] at hR2
      have : (regex ++ "|" ++ core).data = [] := hR2.symm
      simp [data_append] at this
    · exact fragEff_congr _ R2 (a ++ [l]) lcore hR2 hfa
    · refine headOK_congr _ R2 hR2 ?_
      show ((regex ++ "|" ++ core).data).head? ≠ some '?'
      cases hd : regex.data with
      | nil => exact absurd ((str_eq_empty_iff regex).mpr hd) h1
      | cons c0 cs =>
          have hh3 : headOK regex := h3
          rw [show headOK regex = (regex.data.head? ≠ some '?') from rfl,
            hd] at hh3
          simp [data_append, hd]
          intro hh
          rw [hh] at hh3
          simp at hh3
    · simp [h4]
    · intro s
      rw [altsLang_snoc, h5 s, hlc s]

theorem loopInv_bar (regex : String) (num : Nat) (a : List (List RE))
    (l : List RE) (sem : List Char → Prop)
    (hinv : LoopInv regex num a l sem) (hne : regex ≠ "") :
    ∃ a2 l2, LoopInv (regex ++ "|") (num + 1) a2 l2
      (fun s => sem s ∨ s = []) := by
  rcases hinv with ⟨h1, -⟩ | ⟨h1, h2, h3, h4, h5⟩
  · exact absurd h1 hne
  refine ⟨a ++ [l], [], Or.inr ⟨?_, ?_, ?_, ?_, ?_⟩⟩
  · intro hh
    have := congrArg String.data hh
    simp [data_append] at this
  · have := fragEff_append regex "|" a [[]] l [] h2 fragEff_bar
    simpa [shiftA, shiftL] using this
  · show ((regex ++ "|").data).head? ≠ some '?'
    cases hd : regex.data with
    | nil => exact absurd ((str_eq_empty_iff regex).mpr hd) hne
    | cons c0 cs =>
        have hh3 : headOK regex := h3
        rw [show headOK regex = (regex.data.head? ≠ some '?') from rfl,
          hd] at hh3
        simp [data_append, hd]
        intro hh
        rw [hh] at hh3
        simp at hh3
  · simp [h4]
  · intro s
    rw [altsLang_snoc, h5 s]
    simp [lang_seqOf_nil]

theorem keys_partition : ∀ (es : Entries),
    (realKeys es).length = (simpleKeys es).length + (cpxKeys es).length := by
  intro es
  induction es using entries_ind with
  | hnil => rfl
  | hcons k v rest ih =>
      cases k with
      | term => exact ih
      | ch c =>
          by_cases hsc : simpleChild v = true <;>
            simp [realKeys, simpleKeys, cpxKeys, hsc, ih] <;> omega

theorem size_pos (es : Entries) (h : es ≠ Entries.nil) : 0 < es.size := by
  cases es with
  | nil => exact absurd rfl h
  | cons k v rest => simp [Entries.size]

theorem child_core (c : Char) (v : Trie) (retval : String)
    (ac : List (List RE)) (lc : List RE) (ow iw : Bool)
    (hcc : CleanChar c)
    (hfragc : FragEff retval ac lc) (hheadc : headOK retval)
    (hnec : retval ≠ "")
    (hiw : iw = false → ac = [])
    (hlangc : ∀ s, altsLang ac lc s ↔ inTrie v s) :
    ∃ core lcore,
      core.data = (if ow then "(?:".data else []) ++
        ((String.singleton c).data ++
          (((if iw then "(?:".data else []) ++
            (retval.data ++ (if iw then ")".data else []))) ++
            (if ow then ")".data else []))) ∧
      FragEff core [] lcore ∧ headOK core ∧ core ≠ "" ∧
      (∀ s, Lang (seqOf lcore) s ↔ ∃ s2, s = c :: s2 ∧ inTrie v s2) := by
  obtain ⟨hlow, hws, hhash, hesc, hbs2, hpo, hpc, hbar, hlb, hrb, hdot, hqm,
    hstar, hplus, hcar, hdol, hdash, hcol, hus⟩ := cleanChar_facts c hcc
  -- inner part
  obtain ⟨I2, lI, hId, hIf, hIl⟩ : ∃ I2 lI,
      I2.data = (if iw then "(?:".data else []) ++
        (retval.data ++ (if iw then ")".data else [])) ∧
      FragEff I2 [] lI ∧
      (∀ s, Lang (seqOf lI) s ↔ altsLang ac lc s) := by
    cases iw with
    | true =>
        refine ⟨"(?:" ++ retval ++ ")", [groupRE ac lc], ?_,
          fragEff_group retval ac lc hfragc, ?_⟩
        · simp [data_append]
        · intro s
          rw [lang_seqOf_single, lang_groupRE]
    | false =>
        have hac : ac = [] := hiw rfl
        subst hac
        refine ⟨retval, lc, by simp, hfragc, ?_⟩
        intro s
        simp [altsLang]
  -- with the key character in front
  have hmidf : FragEff (String.singleton c ++ I2) [] (RE.char c :: lI) := by
    simpa [shiftA, shiftL] using
      fragEff_append (String.singleton c) I2 [] [] [RE.char c] lI
        (fragEff_clean_char c hcc) hIf
  have hmidl : ∀ s, Lang (seqOf (RE.char c :: lI)) s ↔
      ∃ s2, s = c :: s2 ∧ inTrie v s2 := by
    intro s
    rw [lang_seqOf_char]
    constructor
    · rintro ⟨s2, hs, h2⟩
      exact ⟨s2, hs, (hlangc s2).mp ((hIl s2).mp h2)⟩
    · rintro ⟨s2, hs, h2⟩
      exact ⟨s2, hs, (hIl s2).mpr ((hlangc s2).mpr h2)⟩
  cases ow with
  | true =>
      refine ⟨"(?:" ++ (String.singleton c ++ I2) ++ ")",
        [groupRE [] (RE.char c :: lI)], ?_, ?_, ?_, ?_, ?_⟩
      · simp [data_append, hId]
      · exact fragEff_group (String.singleton c ++ I2) [] (RE.char c :: lI)
          hmidf
      · show (("(?:" ++ (String.singleton c ++ I2) ++ ")").data).head? ≠
          some '?'
        simp [data_append]
      · intro hh
        have := congrArg String.data hh
        simp [data_append] at this
      · intro s
        rw [lang_seqOf_single, lang_groupRE]
        rw [show altsLang [] (RE.char c :: lI) s ↔
          Lang (seqOf (RE.char c :: lI)) s from by simp [altsLang]]
        exact hmidl s
  | false =>
      refine ⟨String.singleton c ++ I2, RE.char c :: lI, ?_, hmidf, ?_, ?_,
        hmidl⟩
      · simp [data_append, hId]
      · show ((String.singleton c ++ I2).data).head? ≠ some '?'
        simp [data_append]
        intro hh
        exact hqm hh
      · intro hh
        have := congrArg String.data hh
        simp [data_append] at this

theorem compileList_main : ∀ (es : Entries), WfE es →
    (∀ vv, entMem vv es → simpleChild vv = false →
      vv.children ≠ Entries.nil → CompiledOK vv false false) →
    ∀ (root : Bool) (regex : String) (num : Nat) (a : List (List RE))
      (l : List RE) (sem : List Char → Prop) (sgl : List String)
      (ps : String) (mp : Nat),
    LoopInv regex num a l sem →
    ∃ regex2 num2 mp2 a2 l2,
      compileList es false root "" (CState.mk regex sgl ps num mp) =
        CState.mk regex2 (sgl ++ (simpleKeys es).map String.singleton) ps
          num2 mp2 ∧
      num2 = num + (cpxKeys es).length ∧
      LoopInv regex2 num2 a2 l2 (fun s => sem s ∨ cpxLang es s) := by
  intro es
  induction es using entries_ind with
  | hnil =>
      intro _ _ root regex num a l sem sgl ps mp hinv
      refine ⟨regex, num, mp, a, l, ?_, by simp [cpxKeys], ?_⟩
      · simp [compileList, simpleKeys]
      · refine loopInv_iff_sem _ _ _ _ _ _ (fun s => ?_) hinv
        rw [show cpxLang Entries.nil s = False from rfl]
        simp
  | hcons k v rest ih =>
      intro hwfe hrec root regex num a l sem sgl ps mp hinv
      cases k with
      | term =>
          have hstep : compileList (Entries.cons KeyOpt.term v rest) false
              root "" (CState.mk regex sgl ps num mp) =
              compileList rest false root "" (CState.mk regex sgl ps num mp)
            := rfl
          rw [hstep]
          exact ih hwfe.2 (fun vv hm h2 h3 => hrec vv (Or.inr hm) h2 h3) root
            regex num a l sem sgl ps mp hinv
      | ch c =>
          obtain ⟨hcc, hwfv, hvne, hwfr⟩ := hwfe
          cases hsc : simpleChild v with
          | true =>
              have hscv : (decide (v.pylen - ((if v.mark.isSome then 1
                  else 0) + (if v.selfmark.isSome then 1 else 0)) = 1) &&
                  v.children.hasKey KeyOpt.term) = true := hsc
              have hstep : compileList (Entries.cons (KeyOpt.ch c) v rest)
                  false root "" (CState.mk regex sgl ps num mp) =
                  compileList rest false root ""
                    (CState.mk regex (sgl ++ [String.singleton c]) ps num
                      mp) := by
                conv_lhs => unfold compileList
                simp only [hscv, if_true]
              rw [hstep]
              rcases ih hwfr (fun vv hm h2 h3 => hrec vv (Or.inr hm) h2 h3) root
                regex num a l sem (sgl ++ [String.singleton c]) ps mp hinv
                with ⟨r2, n2, m2, a2, l2, heq, hn2, hinv2⟩
              refine ⟨r2, n2, m2, a2, l2, ?_, ?_, ?_⟩
              · rw [heq]
                simp [simpleKeys, hsc]
              · rw [hn2]
                simp [cpxKeys, hsc]
              · refine loopInv_iff_sem _ _ _ _ _ _ (fun s => ?_) hinv2
                rw [show cpxLang (Entries.cons (KeyOpt.ch c) v rest) s =
                  ((simpleChild v = false ∧ ∃ s2, s = c :: s2 ∧
                    inTrie v s2) ∨ cpxLang rest s) from rfl]
                simp [hsc]
          | false =>
              have hscv : (decide (v.pylen - ((if v.mark.isSome then 1
                  else 0) + (if v.selfmark.isSome then 1 else 0)) = 1) &&
                  v.children.hasKey KeyOpt.term) = false := hsc
              have hvsm : v.selfmark = none := ((WfT_def v).mp hwfv).2.1
              have hnis := look_fst v (String.singleton c)
              have hco : CompiledOK v
                  ((lookAheadIsSame v (String.singleton c)).1) false := by
                rw [hnis]
                cases hlk : (lookList v.children (true, "", "")).1 with
                | true =>
                    rcases look_rcl v hwfv hlk with ⟨w', hrcl'⟩
                    exact compile_same v hwfv w' hrcl'
                      (realKeys_ne_of_nonsimple v hwfv hvne hsc)
                | false => exact hrec v (Or.inl rfl) hsc hvne
              obtain ⟨ac, lc, hfragc, hheadc, hnumc, honlyc, hnec, hlec,
                hszc, hlangc⟩ := hco
              obtain ⟨hlow, hws, hhash, hesc2, hbs2, hpo, hpc, hbar2, hlb,
                hrb, hdot, hqm, hstar, hplus, hcar, hdol, hdash, hcol, hus⟩
                := cleanChar_facts c hcc
              have hiwf : (decide (1 < v.pylen - ((if v.mark.isSome then 1
                  else 0) + (if v.selfmark.isSome then 1 else 0))) &&
                  !(compileRegexRecursive v ((lookAheadIsSame v
                    (String.singleton c)).1) false).2.2.2) = false →
                  ac = [] := by
                intro hfa
                rcases Bool.and_eq_false_iff.mp hfa with h | h
                · have h2 : ¬ (1 < v.pylen - ((if v.mark.isSome then 1
                      else 0) + (if v.selfmark.isSome then 1 else 0))) :=
                    of_decide_eq_false h
                  have hvm : v.mark = none := ((WfT_def v).mp hwfv).1
                  have hple : v.pylen - ((if v.mark.isSome then 1 else 0) +
                      (if v.selfmark.isSome then 1 else 0)) =
                      Entries.size v.children := by
                    simp [Trie.pylen, hvm, hvsm]
                  rw [hple] at h2
                  have h3 := size_pos v.children hvne
                  exact hszc (by omega)
                · have h2 : (compileRegexRecursive v ((lookAheadIsSame v
                      (String.singleton c)).1) false).2.2.2 = true := by
                    cases hoo : (compileRegexRecursive v ((lookAheadIsSame
                      v (String.singleton c)).1) false).2.2.2 with
                    | true => rfl
                    | false => rw [hoo] at h; cases h
                  exact honlyc h2
              cases hiwc : (decide (1 < v.pylen - ((if v.mark.isSome then 1
                  else 0) + (if v.selfmark.isSome then 1 else 0))) &&
                  !(compileRegexRecursive v ((lookAheadIsSame v
                    (String.singleton c)).1) false).2.2.2) with
              | false =>
                cases howc : (decide (1 <
                    (compileRegexRecursive v ((lookAheadIsSame v
                      (String.singleton c)).1) false).2.1) || root) with
                | false =>
                    have hgne : (((if 0 < regex.length then regex ++ "|" else regex) ++
                          String.singleton c) ++ (compileRegexRecursive v
                          ((lookAheadIsSame v (String.singleton c)).1)
                          false).1) ≠ "(?:)" := by
                      refine ne_grp _ c ?_ hpo hqm hcol hpc
                      simp [data_append]
                    have hstep : compileList (Entries.cons (KeyOpt.ch c) v
                        rest) false root "" (CState.mk regex sgl ps num mp)
                        = compileList rest false root ""
                        (CState.mk ((((if 0 < regex.length then regex ++ "|" else regex) ++
                          String.singleton c) ++ (compileRegexRecursive v
                          ((lookAheadIsSame v (String.singleton c)).1)
                          false).1)) sgl ps
                          (num + 1) (max mp (compileRegexRecursive v
                            ((lookAheadIsSame v (String.singleton c)).1)
                            false).2.1)) := by
                      conv_lhs => unfold compileList
                      simp only [hscv, Bool.false_eq_true, if_false]
                      simp only [hiwc, howc]
                      simp only [hvsm, escape_clean c hcc]
                      simp
                      rw [if_neg hgne]
                    rw [hstep]
                    rcases child_core c v (compileRegexRecursive v
                        ((lookAheadIsSame v (String.singleton c)).1)
                        false).1 ac lc false false hcc hfragc hheadc hnec
                        (fun _ => hiwf hiwc) hlangc with
                      ⟨core, lcore, hcd, hcf, hch2, hcne, hcl⟩
                    rcases loopInv_extend regex
                        ((((if 0 < regex.length then regex ++ "|" else regex) ++
                          String.singleton c) ++ (compileRegexRecursive v
                          ((lookAheadIsSame v (String.singleton c)).1)
                          false).1))
                        num a l sem core lcore
                        (fun s => ∃ s2, s = c :: s2 ∧ inTrie v s2) hinv
                        (by simp [data_append, hcd]) hcf hch2 hcne hcl with
                      ⟨a3, l3, -, hinv3⟩
                    rcases ih hwfr (fun vv hm h2 h3 => hrec vv (Or.inr hm) h2 h3)
                        root _ (num + 1) a3 l3 _ sgl ps
                        (max mp (compileRegexRecursive v ((lookAheadIsSame
                          v (String.singleton c)).1) false).2.1) hinv3 with
                      ⟨r2, n2, m2, a2, l2, heq, hn2, hinv2⟩
                    refine ⟨r2, n2, m2, a2, l2, ?_, ?_, ?_⟩
                    · rw [heq]
                      simp [simpleKeys, hsc]
                    · rw [hn2]
                      simp [cpxKeys, hsc]
                      omega
                    · refine loopInv_iff_sem _ _ _ _ _ _ (fun s => ?_)
                        hinv2
                      rw [show cpxLang (Entries.cons (KeyOpt.ch c) v rest)
                        s = ((simpleChild v = false ∧ ∃ s2, s = c :: s2 ∧
                          inTrie v s2) ∨ cpxLang rest s) from rfl]
                      constructor
                      · rintro ((hs | hs) | hs)
                        · exact Or.inl hs
                        · exact Or.inr (Or.inl ⟨hsc, hs⟩)
                        · exact Or.inr (Or.inr hs)
                      · rintro (hs | (⟨-, hs⟩ | hs))
                        · exact Or.inl (Or.inl hs)
                        · exact Or.inl (Or.inr hs)
                        · exact Or.inr hs
                | true =>
                    have hgne : ((((if 0 < regex.length then regex ++ "|" else regex) ++
                          "(?:") ++ String.singleton c) ++
                          (compileRegexRecursive v ((lookAheadIsSame v
                          (String.singleton c)).1) false).1) ++ ")" ≠ "(?:)" := by
                      refine ne_grp _ c ?_ hpo hqm hcol hpc
                      simp [data_append]
                    have hstep : compileList (Entries.cons (KeyOpt.ch c) v
                        rest) false root "" (CState.mk regex sgl ps num mp)
                        = compileList rest false root ""
                        (CState.mk (((((if 0 < regex.length then regex ++ "|" else regex) ++
                          "(?:") ++ String.singleton c) ++
                          (compileRegexRecursive v ((lookAheadIsSame v
                          (String.singleton c)).1) false).1) ++ ")") sgl ps
                          (num + 1) (max mp (compileRegexRecursive v
                            ((lookAheadIsSame v (String.singleton c)).1)
                            false).2.1)) := by
                      conv_lhs => unfold compileList
                      simp only [hscv, Bool.false_eq_true, if_false]
                      simp only [hiwc, howc]
                      simp only [hvsm, escape_clean c hcc]
                      simp
                      rw [if_neg hgne]
                    rw [hstep]
                    rcases child_core c v (compileRegexRecursive v
                        ((lookAheadIsSame v (String.singleton c)).1)
                        false).1 ac lc true false hcc hfragc hheadc hnec
                        (fun _ => hiwf hiwc) hlangc with
                      ⟨core, lcore, hcd, hcf, hch2, hcne, hcl⟩
                    rcases loopInv_extend regex
                        (((((if 0 < regex.length then regex ++ "|" else regex) ++
                          "(?:") ++ String.singleton c) ++
                          (compileRegexRecursive v ((lookAheadIsSame v
                          (String.singleton c)).1) false).1) ++ ")")
                        num a l sem core lcore
                        (fun s => ∃ s2, s = c :: s2 ∧ inTrie v s2) hinv
                        (by simp [data_append, hcd]) hcf hch2 hcne hcl with
                      ⟨a3, l3, -, hinv3⟩
                    rcases ih hwfr (fun vv hm h2 h3 => hrec vv (Or.inr hm) h2 h3)
                        root _ (num + 1) a3 l3 _ sgl ps
                        (max mp (compileRegexRecursive v ((lookAheadIsSame
                          v (String.singleton c)).1) false).2.1) hinv3 with
                      ⟨r2, n2, m2, a2, l2, heq, hn2, hinv2⟩
                    refine ⟨r2, n2, m2, a2, l2, ?_, ?_, ?_⟩
                    · rw [heq]
                      simp [simpleKeys, hsc]
                    · rw [hn2]
                      simp [cpxKeys, hsc]
                      omega
                    · refine loopInv_iff_sem _ _ _ _ _ _ (fun s => ?_)
                        hinv2
                      rw [show cpxLang (Entries.cons (KeyOpt.ch c) v rest)
                        s = ((simpleChild v = false ∧ ∃ s2, s = c :: s2 ∧
                          inTrie v s2) ∨ cpxLang rest s) from rfl]
                      constructor
                      · rintro ((hs | hs) | hs)
                        · exact Or.inl hs
                        · exact Or.inr (Or.inl ⟨hsc, hs⟩)
                        · exact Or.inr (Or.inr hs)
                      · rintro (hs | (⟨-, hs⟩ | hs))
                        · exact Or.inl (Or.inl hs)
                        · exact Or.inl (Or.inr hs)
                        · exact Or.inr hs
              | true =>
                cases howc : (decide (1 <
                    (compileRegexRecursive v ((lookAheadIsSame v
                      (String.singleton c)).1) false).2.1) || root) with
                | false =>
                    have hgne : ((((if 0 < regex.length then regex ++ "|" else regex) ++
                          String.singleton c) ++ "(?:") ++
                          (compileRegexRecursive v ((lookAheadIsSame v
                          (String.singleton c)).1) false).1) ++ ")" ≠ "(?:)" := by
                      refine ne_grp _ c ?_ hpo hqm hcol hpc
                      simp [data_append]
                    have hstep : compileList (Entries.cons (KeyOpt.ch c) v
                        rest) false root "" (CState.mk regex sgl ps num mp)
                        = compileList rest false root ""
                        (CState.mk (((((if 0 < regex.length then regex ++ "|" else regex) ++
                          String.singleton c) ++ "(?:") ++
                          (compileRegexRecursive v ((lookAheadIsSame v
                          (String.singleton c)).1) false).1) ++ ")") sgl ps
                          (num + 1) (max mp (compileRegexRecursive v
                            ((lookAheadIsSame v (String.singleton c)).1)
                            false).2.1)) := by
                      conv_lhs => unfold compileList
                      simp only [hscv, Bool.false_eq_true, if_false]
                      simp only [hiwc, howc]
                      simp only [hvsm, escape_clean c hcc]
                      simp
                      rw [if_neg hgne]
                    rw [hstep]
                    rcases child_core c v (compileRegexRecursive v
                        ((lookAheadIsSame v (String.singleton c)).1)
                        false).1 ac lc false true hcc hfragc hheadc hnec
                        (fun hh => Bool.noConfusion hh) hlangc with
                      ⟨core, lcore, hcd, hcf, hch2, hcne, hcl⟩
                    rcases loopInv_extend regex
                        (((((if 0 < regex.length then regex ++ "|" else regex) ++
                          String.singleton c) ++ "(?:") ++
                          (compileRegexRecursive v ((lookAheadIsSame v
                          (String.singleton c)).1) false).1) ++ ")")
                        num a l sem core lcore
                        (fun s => ∃ s2, s = c :: s2 ∧ inTrie v s2) hinv
                        (by simp [data_append, hcd]) hcf hch2 hcne hcl with
                      ⟨a3, l3, -, hinv3⟩
                    rcases ih hwfr (fun vv hm h2 h3 => hrec vv (Or.inr hm) h2 h3)
                        root _ (num + 1) a3 l3 _ sgl ps
                        (max mp (compileRegexRecursive v ((lookAheadIsSame
                          v (String.singleton c)).1) false).2.1) hinv3 with
                      ⟨r2, n2, m2, a2, l2, heq, hn2, hinv2⟩
                    refine ⟨r2, n2, m2, a2, l2, ?_, ?_, ?_⟩
                    · rw [heq]
                      simp [simpleKeys, hsc]
                    · rw [hn2]
                      simp [cpxKeys, hsc]
                      omega
                    · refine loopInv_iff_sem _ _ _ _ _ _ (fun s => ?_)
                        hinv2
                      rw [show cpxLang (Entries.cons (KeyOpt.ch c) v rest)
                        s = ((simpleChild v = false ∧ ∃ s2, s = c :: s2 ∧
                          inTrie v s2) ∨ cpxLang rest s) from rfl]
                      constructor
                      · rintro ((hs | hs) | hs)
                        · exact Or.inl hs
                        · exact Or.inr (Or.inl ⟨hsc, hs⟩)
                        · exact Or.inr (Or.inr hs)
                      · rintro (hs | (⟨-, hs⟩ | hs))
                        · exact Or.inl (Or.inl hs)
                        · exact Or.inl (Or.inr hs)
                        · exact Or.inr hs
                | true =>
                    have hgne : (((((if 0 < regex.length then regex ++ "|" else regex) ++
                          "(?:") ++ String.singleton c) ++ "(?:") ++
                          (compileRegexRecursive v ((lookAheadIsSame v
                          (String.singleton c)).1) false).1) ++ ")" ++ ")" ≠ "(?:)" := by
                      refine ne_grp _ c ?_ hpo hqm hcol hpc
                      simp [data_append]
                    have hstep : compileList (Entries.cons (KeyOpt.ch c) v
                        rest) false root "" (CState.mk regex sgl ps num mp)
                        = compileList rest false root ""
                        (CState.mk ((((((if 0 < regex.length then regex ++ "|" else regex) ++
                          "(?:") ++ String.singleton c) ++ "(?:") ++
                          (compileRegexRecursive v ((lookAheadIsSame v
                          (String.singleton c)).1) false).1) ++ ")" ++ ")") sgl ps
                          (num + 1) (max mp (compileRegexRecursive v
                            ((lookAheadIsSame v (String.singleton c)).1)
                            false).2.1)) := by
                      conv_lhs => unfold compileList
                      simp only [hscv, Bool.false_eq_true, if_false]
                      simp only [hiwc, howc]
                      simp only [hvsm, escape_clean c hcc]
                      simp
                      rw [if_neg hgne]
                    rw [hstep]
                    rcases child_core c v (compileRegexRecursive v
                        ((lookAheadIsSame v (String.singleton c)).1)
                        false).1 ac lc true true hcc hfragc hheadc hnec
                        (fun hh => Bool.noConfusion hh) hlangc with
                      ⟨core, lcore, hcd, hcf, hch2, hcne, hcl⟩
                    rcases loopInv_extend regex
                        ((((((if 0 < regex.length then regex ++ "|" else regex) ++
                          "(?:") ++ String.singleton c) ++ "(?:") ++
                          (compileRegexRecursive v ((lookAheadIsSame v
                          (String.singleton c)).1) false).1) ++ ")" ++ ")")
                        num a l sem core lcore
                        (fun s => ∃ s2, s = c :: s2 ∧ inTrie v s2) hinv
                        (by simp [data_append, hcd]) hcf hch2 hcne hcl with
                      ⟨a3, l3, -, hinv3⟩
                    rcases ih hwfr (fun vv hm h2 h3 => hrec vv (Or.inr hm) h2 h3)
                        root _ (num + 1) a3 l3 _ sgl ps
                        (max mp (compileRegexRecursive v ((lookAheadIsSame
                          v (String.singleton c)).1) false).2.1) hinv3 with
                      ⟨r2, n2, m2, a2, l2, heq, hn2, hinv2⟩
                    refine ⟨r2, n2, m2, a2, l2, ?_, ?_, ?_⟩
                    · rw [heq]
                      simp [simpleKeys, hsc]
                    · rw [hn2]
                      simp [cpxKeys, hsc]
                      omega
                    · refine loopInv_iff_sem _ _ _ _ _ _ (fun s => ?_)
                        hinv2
                      rw [show cpxLang (Entries.cons (KeyOpt.ch c) v rest)
                        s = ((simpleChild v = false ∧ ∃ s2, s = c :: s2 ∧
                          inTrie v s2) ∨ cpxLang rest s) from rfl]
                      constructor
                      · rintro ((hs | hs) | hs)
                        · exact Or.inl hs
                        · exact Or.inr (Or.inl ⟨hsc, hs⟩)
                        · exact Or.inr (Or.inr hs)
                      · rintro (hs | (⟨-, hs⟩ | hs))
                        · exact Or.inl (Or.inl hs)
                        · exact Or.inl (Or.inr hs)
                        · exact Or.inr hs

theorem inTrie_simple (v : Trie)
    (h : v.children = Entries.cons KeyOpt.term emptyTrie Entries.nil) :
    ∀ s, inTrie v s ↔ s = [] := by
  intro s
  cases s with
  | nil =>
      rw [inTrie_nilw, h]
      simp [Entries.hasKey, Entries.lookup]
  | cons c w =>
      rw [inTrie_consw, h]
      simp [Entries.lookup]

theorem entLang_split : ∀ (es : Entries), WfE es → ∀ s,
    entLang es s ↔
      (cpxLang es s ∨ sglLang es s ∨
        (es.hasKey KeyOpt.term = true ∧ s = [])) := by
  intro es
  induction es using entries_ind with
  | hnil =>
      intro _ s
      simp [entLang, cpxLang, sglLang, Entries.hasKey, Entries.lookup]
  | hcons k v rest ih =>
      intro hwfe s
      cases k with
      | term =>
          rw [show entLang (Entries.cons KeyOpt.term v rest) s =
            (s = [] ∨ entLang rest s) from rfl]
          rw [show cpxLang (Entries.cons KeyOpt.term v rest) s =
            cpxLang rest s from rfl]
          rw [show sglLang (Entries.cons KeyOpt.term v rest) s =
            sglLang rest s from rfl]
          have hhk : (Entries.cons KeyOpt.term v rest).hasKey KeyOpt.term =
              true := by
            simp [Entries.hasKey, Entries.lookup]
          rw [hhk, ih hwfe.2 s]
          constructor
          · rintro (hs | (h1 | h2 | ⟨-, h3⟩))
            · exact Or.inr (Or.inr ⟨rfl, hs⟩)
            · exact Or.inl h1
            · exact Or.inr (Or.inl h2)
            · exact Or.inr (Or.inr ⟨rfl, h3⟩)
          · rintro (h1 | h2 | ⟨-, h3⟩)
            · exact Or.inr (Or.inl h1)
            · exact Or.inr (Or.inr (Or.inl h2))
            · exact Or.inl h3
      | ch c =>
          obtain ⟨hcc, hwfv, hvne, hwfr⟩ := hwfe
          rw [show entLang (Entries.cons (KeyOpt.ch c) v rest) s =
            ((∃ s2, s = c :: s2 ∧ inTrie v s2) ∨ entLang rest s) from rfl]
          rw [show cpxLang (Entries.cons (KeyOpt.ch c) v rest) s =
            ((simpleChild v = false ∧ ∃ s2, s = c :: s2 ∧ inTrie v s2) ∨
              cpxLang rest s) from rfl]
          rw [show sglLang (Entries.cons (KeyOpt.ch c) v rest) s =
            ((simpleChild v = true ∧ s = [c]) ∨ sglLang rest s) from rfl]
          have hhk : (Entries.cons (KeyOpt.ch c) v rest).hasKey
              KeyOpt.term = rest.hasKey KeyOpt.term := by
            simp [Entries.hasKey, Entries.lookup]
          rw [hhk, ih hwfr s]
          cases hsc : simpleChild v with
          | false =>
              constructor
              · rintro (hs | hr)
                · exact Or.inl (Or.inl ⟨rfl, hs⟩)
                · rcases hr with h1 | h2 | h3
                  · exact Or.inl (Or.inr h1)
                  · exact Or.inr (Or.inl (Or.inr h2))
                  · exact Or.inr (Or.inr h3)
              · rintro ((⟨-, hs⟩ | h1) | (⟨hT, -⟩ | h2) | h3)
                · exact Or.inl hs
                · exact Or.inr (Or.inl h1)
                · cases hT
                · exact Or.inr (Or.inr (Or.inl h2))
                · exact Or.inr (Or.inr (Or.inr h3))
          | true =>
              have hit := inTrie_simple v ((simpleChild_iff v hwfv).mp hsc)
              constructor
              · rintro (⟨s2, hs, hin⟩ | hr)
                · refine Or.inr (Or.inl (Or.inl ⟨rfl, ?_⟩))
                  rw [hs, (hit s2).mp hin]
                · rcases hr with h1 | h2 | h3
                  · exact Or.inl (Or.inr h1)
                  · exact Or.inr (Or.inl (Or.inr h2))
                  · exact Or.inr (Or.inr h3)
              · rintro ((⟨hF, -⟩ | h1) | (⟨-, hs⟩ | h2) | h3)
                · cases hF
                · exact Or.inr (Or.inl h1)
                · exact Or.inl ⟨[], hs, (hit []).mpr rfl⟩
                · exact Or.inr (Or.inr (Or.inl h2))
                · exact Or.inr (Or.inr (Or.inr h3))

theorem entMem_sizeOf : ∀ (es : Entries) (v : Trie), entMem v es →
    sizeOf v < sizeOf es := by
  intro es
  induction es using entries_ind with
  | hnil => intro v h; exact h.elim
  | hcons k v2 rest ih =>
      intro v h
      rcases h with h | h
      · rw [h, Entries.cons.sizeOf_spec]
        omega
      · have := ih v h
        rw [Entries.cons.sizeOf_spec]
        omega

theorem entMem_wf : ∀ (es : Entries), WfE es → ∀ v, entMem v es →
    v.children ≠ Entries.nil → WfT v := by
  intro es
  induction es using entries_ind with
  | hnil => intro _ v h _; exact h.elim
  | hcons k v2 rest ih =>
      intro hwfe v h hvne
      cases k with
      | term =>
          rcases h with h | h
          · exfalso
            apply hvne
            rw [h, hwfe.1]
            rfl
          · exact ih hwfe.2 v h hvne
      | ch c =>
          obtain ⟨-, hwfv2, -, hwfr⟩ := hwfe
          rcases h with h | h
          · rw [h]
            exact hwfv2
          · exact ih hwfr v h hvne

theorem loopInv_pos (regex : String) (num : Nat) (a : List (List RE))
    (l : List RE) (sem : List Char → Prop)
    (hinv : LoopInv regex num a l sem) (h : 0 < num) :
    regex ≠ "" ∧ FragEff regex a l ∧ headOK regex ∧ num = a.length + 1 ∧
      (∀ s, altsLang a l s ↔ sem s) := by
  rcases hinv with ⟨-, h2, -, -, -⟩ | hh
  · omega
  · exact hh

theorem loopInv_zero (regex : String) (num : Nat) (a : List (List RE))
    (l : List RE) (sem : List Char → Prop)
    (hinv : LoopInv regex num a l sem) (h : num = 0) :
    regex = "" ∧ a = [] := by
  rcases hinv with ⟨h1, -, h3, -, -⟩ | ⟨-, -, -, h4, -⟩
  · exact ⟨h1, h3⟩
  · exfalso
    omega

theorem loopInv_small (regex : String) (num : Nat) (a : List (List RE))
    (l : List RE) (sem : List Char → Prop)
    (hinv : LoopInv regex num a l sem) (h : num ≤ 1) : a = [] := by
  rcases hinv with ⟨-, -, h3, -, -⟩ | ⟨-, -, -, h4, -⟩
  · exact h3
  · have h5 : a.length = 0 := by omega
    exact List.eq_nil_of_length_eq_zero h5

theorem compile_ok : ∀ (N : Nat) (t : Trie) (root : Bool), sizeOf t ≤ N →
    WfT t → realKeys t.children ≠ [] → CompiledOK t false root := by
  intro N
  induction N using Nat.strong_induction_on with
  | _ N ih =>
  intro t root hszN hwf hrk
  cases t with
  | mk m0 sm0 ch =>
  have hm0 : m0 = none := ((WfT_def _).mp hwf).1
  have hsm0 : sm0 = none := ((WfT_def _).mp hwf).2.1
  subst hm0
  subst hsm0
  have hnd : ch.keys.Nodup := by simpa using ((WfT_def _).mp hwf).2.2.1
  have hwfe : WfE ch := by simpa using ((WfT_def _).mp hwf).2.2.2
  have hrk2 : realKeys ch ≠ [] := hrk
  have hrec : ∀ vv, entMem vv ch → simpleChild vv = false →
      vv.children ≠ Entries.nil → CompiledOK vv false false := by
    intro vv hm hsc hvne
    have hwfv := entMem_wf ch hwfe vv hm hvne
    have hrkv : realKeys vv.children ≠ [] :=
      realKeys_ne_of_nonsimple vv hwfv hvne hsc
    have hszv : sizeOf vv < sizeOf (Trie.mk none none ch) := by
      have h1 := entMem_sizeOf ch vv hm
      rw [Trie.mk.sizeOf_spec]
      omega
    exact ih (sizeOf vv) (by omega) vv false (Nat.le_refl _) hwfv hrkv
  rcases compileList_main ch hwfe hrec root "" 0 [] [] (fun _ => False) []
      "" 0 (Or.inl ⟨rfl, rfl, rfl, rfl, fun s h => h⟩) with
    ⟨regex2, num2, mp2, a2, l2, hst, hnum2, hinv2⟩
  simp only [List.nil_append] at hst
  have hnum2' : num2 = (cpxKeys ch).length := by omega
  have hinv2' : LoopInv regex2 num2 a2 l2 (fun s => cpxLang ch s) :=
    loopInv_iff_sem _ _ _ _ _ _ (fun s => by simp) hinv2
  have hpart := keys_partition ch
  have hsize := entries_size_split ch hnd
  have hrkl : 0 < (realKeys ch).length := List.length_pos.mpr hrk2
  have hfin : ∃ R3 num3 a3 l3,
      compileRegexRecursive (Trie.mk none none ch) false root =
        ((if ch.hasKey KeyOpt.term then R3 ++ "|" else R3),
         max mp2 (if ch.hasKey KeyOpt.term then num3 + 1 else num3),
         (if ch.hasKey KeyOpt.term then num3 + 1 else num3),
         decide ((simpleKeys ch).length = Entries.size ch)) ∧
      num3 = num2 + (if (simpleKeys ch).length = 0 then 0 else 1) ∧
      LoopInv R3 num3 a3 l3 (fun s => cpxLang ch s ∨ sglLang ch s) ∧
      (num2 = 0 → a3 = []) := by
    rcases hsk : simpleKeys ch with _ | ⟨c1, sk2⟩
    · -- no simple children at all
      rw [hsk] at hst
      simp only [List.map_nil] at hst
      have hcpos : 0 < (cpxKeys ch).length := by
        rw [hsk] at hpart
        simp at hpart
        omega
      have hn2pos : 0 < num2 := by omega
      obtain ⟨hne2, hfrag2, hhead2, hlen2, hsem2⟩ :=
        loopInv_pos regex2 num2 a2 l2 _ hinv2' hn2pos
      have hlenpos : 0 < regex2.length := str_len_pos regex2 hne2
      have hcnd : (ch.hasKey KeyOpt.term && decide (0 < regex2.length)) =
          ch.hasKey KeyOpt.term := by
        rw [decide_eq_true hlenpos, Bool.and_true]
      refine ⟨regex2, num2, a2, l2, ?_, ?_, ?_, ?_⟩
      · conv_lhs => unfold compileRegexRecursive
        simp only [mark_mk, selfmark_mk, children_mk]
        simp only [hst]
        simp [Trie.pylen, hcnd, hlenpos]
        cases hhT2 : ch.hasKey KeyOpt.term <;> simp [hlenpos]
      · simp
      · refine loopInv_iff_sem _ _ _ _ _ _ (fun s => ?_) hinv2'
        rw [sglLang_keys]
        simp [hsk]
      · intro h0
        exact (loopInv_zero regex2 num2 a2 l2 _ hinv2' h0).2
    · rcases sk2 with _ | ⟨c2, sk3⟩
      · -- exactly one simple child: emitted bare
        rw [hsk] at hst
        simp only [List.map_cons, List.map_nil] at hst
        have hcl1 : CleanChar c1 :=
          simpleKeys_clean ch hwfe c1 (by rw [hsk]; simp)
        have hqm1 : c1 ≠ '?' :=
          (cleanChar_facts c1 hcl1).2.2.2.2.2.2.2.2.2.2.2.1
        rcases loopInv_extend regex2
            ((if 0 < regex2.length then regex2 ++ "|" else regex2) ++
              String.singleton c1)
            num2 a2 l2 (fun s => cpxLang ch s) (String.singleton c1)
            [RE.char c1] (fun s => s = [c1]) hinv2'
            (by simp [data_append])
            (fragEff_clean_char c1 hcl1)
            (by
              show ((String.singleton c1).data).head? ≠ some '?'
              simp [data_singleton]
              intro hh
              exact hqm1 hh)
            (by
              intro hh
              have := congrArg String.data hh
              simp [data_singleton] at this)
            (by
              intro s
              rw [lang_seqOf_char]
              constructor
              · rintro ⟨s2, hs, h2⟩
                rw [hs, (lang_seqOf_nil s2).mp h2]
              · intro hs
                exact ⟨[], hs, (lang_seqOf_nil []).mpr rfl⟩) with
          ⟨a3, l3, hz3, hinv3⟩
        have hlenpos : 0 <
            ((if 0 < regex2.length then regex2 ++ "|" else regex2) ++
              String.singleton c1).length := by
          show 0 < (((if 0 < regex2.length then regex2 ++ "|" else regex2) ++
            String.singleton c1).data).length
          simp [data_append]
        have hcnd : (ch.hasKey KeyOpt.term &&
            decide (0 <
              ((if 0 < regex2.length then regex2 ++ "|" else regex2) ++
                String.singleton c1).length)) = ch.hasKey KeyOpt.term := by
          rw [decide_eq_true hlenpos, Bool.and_true]
        refine ⟨(if 0 < regex2.length then regex2 ++ "|" else regex2) ++
          String.singleton c1, num2 + 1, a3, l3, ?_, ?_, ?_, ?_⟩
        · conv_lhs => unfold compileRegexRecursive
          simp only [mark_mk, selfmark_mk, children_mk]
          simp only [hst]
          simp [Trie.pylen, hcnd, hlenpos]
          cases hhT2 : ch.hasKey KeyOpt.term <;> simp [hlenpos]
        · simp
        · refine loopInv_iff_sem _ _ _ _ _ _ (fun s => ?_) hinv3
          rw [sglLang_keys]
          simp [hsk]
        · intro h0
          exact hz3 (loopInv_zero regex2 num2 a2 l2 _ hinv2' h0).1
      · -- at least two simple children: character class
        rw [hsk] at hst
        have hcls : ∀ c ∈ (c1 :: c2 :: sk3), CleanChar c := by
          intro c hc
          exact simpleKeys_clean ch hwfe c (by rw [hsk]; exact hc)
        have hRstr : String.join (String.singleton c1 :: String.singleton c2 ::
            sk3.map String.singleton) = String.mk (c1 :: c2 :: sk3) := by
          simpa using join_map_singleton (c1 :: c2 :: sk3)
        rcases loopInv_extend regex2
            ((if 0 < regex2.length then regex2 ++ "|" else regex2) ++
              "[" ++ String.mk (c1 :: c2 :: sk3) ++ "]")
            num2 a2 l2 (fun s => cpxLang ch s)
            ("[" ++ String.mk (c1 :: c2 :: sk3) ++ "]")
            [RE.cls false ((c1 :: c2 :: sk3).map ClsItem.one)]
            (fun s => ∃ c ∈ (c1 :: c2 :: sk3), s = [c]) hinv2'
            (by simp [data_append])
            (fragEff_class (c1 :: c2 :: sk3) (by simp) hcls)
            (by
              show (("[" ++ String.mk (c1 :: c2 :: sk3) ++
                "]").data).head? ≠ some '?'
              simp [data_append])
            (by
              intro hh
              have := congrArg String.data hh
              simp [data_append] at this)
            (by
              intro s
              rw [lang_seqOf_single]
              exact lang_cls_one (c1 :: c2 :: sk3) s) with
          ⟨a3, l3, hz3, hinv3⟩
        have hlenpos : 0 <
            ((if 0 < regex2.length then regex2 ++ "|" else regex2) ++
              "[" ++ String.mk (c1 :: c2 :: sk3) ++ "]").length := by
          show 0 < (((if 0 < regex2.length then regex2 ++ "|" else regex2) ++
            "[" ++ String.mk (c1 :: c2 :: sk3) ++ "]").data).length
          simp [data_append]
        have hcnd : (ch.hasKey KeyOpt.term &&
            decide (0 <
              ((if 0 < regex2.length then regex2 ++ "|" else regex2) ++
                "[" ++ String.mk (c1 :: c2 :: sk3) ++ "]").length)) =
            ch.hasKey KeyOpt.term := by
          rw [decide_eq_true hlenpos, Bool.and_true]
        refine ⟨(if 0 < regex2.length then regex2 ++ "|" else regex2) ++
          "[" ++ String.mk (c1 :: c2 :: sk3) ++ "]", num2 + 1, a3, l3,
          ?_, ?_, ?_, ?_⟩
        · conv_lhs => unfold compileRegexRecursive
          simp only [mark_mk, selfmark_mk, children_mk]
          simp only [hst]
          simp [Trie.pylen, hcnd, hRstr, hlenpos]
          cases hhT2 : ch.hasKey KeyOpt.term <;> simp [hRstr, hlenpos,
            show (0 : Nat) < "[".length from by decide]
        · simp
        · refine loopInv_iff_sem _ _ _ _ _ _ (fun s => ?_) hinv3
          rw [sglLang_keys]
          simp [hsk]
        · intro h0
          exact hz3 (loopInv_zero regex2 num2 a2 l2 _ hinv2' h0).1
  rcases hfin with ⟨R3, num3, a3, l3, heval, hnum3, hinv3, hz3⟩
  have hpos3 : 0 < num3 := by
    by_cases h0 : (simpleKeys ch).length = 0
    · rw [hnum3, if_pos h0]
      omega
    · rw [hnum3, if_neg h0]
      omega
  obtain ⟨hne3, hfrag3, hhead3, hlen3, hsem3⟩ :=
    loopInv_pos R3 num3 a3 l3 _ hinv3 hpos3
  have hint : ∀ s, inTrie (Trie.mk none none ch) s ↔
      (cpxLang ch s ∨ sglLang ch s ∨
        (ch.hasKey KeyOpt.term = true ∧ s = [])) := fun s =>
    (entLang_iff _ hwf s).trans (entLang_split ch hwfe s)
  cases hhT : ch.hasKey KeyOpt.term with
  | false =>
      rw [hhT] at heval hint hsize
      simp only [if_false, Bool.false_eq_true] at heval
      simp at hsize
      refine ⟨a3, l3, ?_, ?_, ?_, ?_, ?_, ?_, ?_, ?_⟩
      · simp only [heval]
        exact hfrag3
      · simp only [heval]
        exact hhead3
      · simp only [heval]
        exact hlen3
      · simp only [heval]
        intro h
        have h2 : (simpleKeys ch).length = Entries.size ch :=
          of_decide_eq_true h
        exact hz3 (by omega)
      · simp only [heval]
        exact hne3
      · simp only [heval]
        exact Nat.le_max_right _ _
      · intro h
        simp only [children_mk] at h
        have h1 : num3 ≤ 1 := by
          by_cases h0 : (simpleKeys ch).length = 0
          · rw [hnum3, if_pos h0]
            omega
          · rw [hnum3, if_neg h0]
            omega
        exact loopInv_small R3 num3 a3 l3 _ hinv3 h1
      · intro s
        rw [hsem3 s, hint s]
        simp
  | true =>
      rcases loopInv_bar R3 num3 a3 l3 _ hinv3 hne3 with ⟨aB, lB, hinvB⟩
      obtain ⟨hneB, hfragB, hheadB, hlenB, hsemB⟩ :=
        loopInv_pos (R3 ++ "|") (num3 + 1) aB lB _ hinvB (Nat.succ_pos _)
      rw [hhT] at heval hint hsize
      simp only [if_true] at heval
      simp at hsize
      refine ⟨aB, lB, ?_, ?_, ?_, ?_, ?_, ?_, ?_, ?_⟩
      · simp only [heval]
        exact hfragB
      · simp only [heval]
        exact hheadB
      · simp only [heval]
        exact hlenB
      · simp only [heval]
        intro h
        have h2 : (simpleKeys ch).length = Entries.size ch :=
          of_decide_eq_true h
        exfalso
        omega
      · simp only [heval]
        exact hneB
      · simp only [heval]
        exact Nat.le_max_right _ _
      · intro h
        simp only [children_mk] at h
        exfalso
        omega
      · intro s
        rw [hsemB s, hint s]
        constructor
        · rintro ((h | h) | h)
          · exact Or.inl h
          · exact Or.inr (Or.inl h)
          · exact Or.inr (Or.inr ⟨rfl, h⟩)
        · rintro (h | h | ⟨-, h⟩)
          · exact Or.inl (Or.inl h)
          · exact Or.inl (Or.inr h)
          · exact Or.inr h

theorem pipeline_exact (lines : List String)
    (hcl : ∀ l ∈ lines, CleanLine l) (hne : lines ≠ []) :
    ∃ pat, pipelineRegex lines = Except.ok pat ∧
      ∀ s, fullMatch pat s = true ↔ ∃ l ∈ lines, s.data = l.data := by
  rcases ingest_ok lines hcl with ⟨es, hing, hrwf, hne2, hlang⟩
  have hesne : es ≠ Entries.nil := hne2 hne
  have hwf : WfT (Trie.mk none none es) := hrwf.1
  have hrk : realKeys (Trie.mk none none es).children ≠ [] := by
    simp only [children_mk]
    exact realKeys_ne_root es hesne hrwf.2.1
  rcases compile_ok (sizeOf (Trie.mk none none es)) (Trie.mk none none es)
      true (Nat.le_refl _) hwf hrk with
    ⟨a, l, hfrag, hhead, hnum, honly, hne3, hle, hsz, hlang2⟩
  have hpipe : pipelineRegex lines = Except.ok
      ("(" ++ (compileRegexRecursive (Trie.mk none none es) false true).1 ++
        ")") := by
    simp [pipelineRegex, mainRegex, hing, assembleRegex]
    try rfl
  refine ⟨_, hpipe, ?_⟩
  intro s
  rw [parse_top _ a l hfrag hhead hne3 s]
  rw [hlang2 s.data]
  rw [hlang s.data]

/-- Claim C1, counterexample: the ingestion accepts the line "a|b", whose
bar is not in the escapes list; the assembled pattern is "((?:a|b))",
which does not fully match the ingested suffix "a|b", refuting soundness
as stated. -/
theorem c1_counterexample :
    pipelineRegex ["a|b"] = Except.ok "((?:a|b))" ∧
      fullMatch "((?:a|b))" "a|b" = false := by
  decide

/-- Claim C2, counterexample: for the ingested set containing only the
suffix "x.", the dot is emitted unescaped (the simple-singles path does
not escape), so the assembled pattern "((?:x.))" fully matches the
string "xa", which is not in the set, refuting exactness as stated. -/
theorem c2_counterexample :
    pipelineRegex ["x."] = Except.ok "((?:x.))" ∧
      ("xa" : String) ≠ "x." ∧ fullMatch "((?:x.))" "xa" = true := by
  decide

/-- Claim C3, counterexample: the same suffix set in two insertion
orders compiles to different pattern bytes, because iteration follows
dict insertion order, not code point order. -/
theorem c3_counterexample :
    pipelineRegex ["ab", "cb"] = Except.ok "((?:ab)|(?:cb))" ∧
      pipelineRegex ["cb", "ab"] = Except.ok "((?:cb)|(?:ab))" ∧
      ("((?:ab)|(?:cb))" : String) ≠ "((?:cb)|(?:ab))" := by
  decide

/-- Claim C4, counterexample: inserting "ab" keys the root on the first
character a (not the last character b as reversed insertion would), and
the suffixes "ab" and "cb", which share the ending "b", share no path:
the root has two separate children. -/
theorem c4_counterexample :
    (ingestIana ["ab"]).toOption.map (fun t => t.children.keys) =
        some [KeyOpt.ch 'a'] ∧
      KeyOpt.ch 'a' ≠ KeyOpt.ch 'b' ∧
      (ingestIana ["ab", "cb"]).toOption.map (fun t => t.children.size) =
        some 2 := by
  decide

/-- Claim C4, amended: trie construction inserts each suffix by
iterating its characters from the first to the last (forward), so that
suffixes sharing a beginning share a path; ingesting one clean suffix
builds the forward chain keyed at the root on the first character, and
the node reached after consuming all characters carries the sentinel
terminal key. -/
theorem c4_amended (c e : Char) (rest : List Char)
    (hc : ∀ d ∈ (c :: e :: rest), CleanChar d) :
    ingestIana [String.mk (c :: e :: rest)] =
      Except.ok (Trie.mk none none
        (Entries.cons (KeyOpt.ch c) (chainTrie (e :: rest)) Entries.nil)) := by
  have h1 : pyStrip (String.mk (c :: e :: rest)) = String.mk (c :: e :: rest) :=
    pyStrip_clean _ hc
  have h2 : startsHash (String.mk (c :: e :: rest)) = false :=
    startsHash_clean _ hc
  have h3 : pyLower (String.mk (c :: e :: rest)) = String.mk (c :: e :: rest) :=
    pyLower_clean _ hc
  have h4 := addChain (e :: rest) (by simp)
  have hstep : ianaStep Entries.nil (String.mk (c :: e :: rest)) =
      Except.ok (Entries.cons (KeyOpt.ch c) (chainTrie (e :: rest))
        Entries.nil) := by
    simp [ianaStep, h1, h2, h3, Entries.lookup, h4, Entries.setK]
    try rfl
  simp [ingestIana, hstep]
  try rfl

theorem c4_amended_witness :
    (∀ d ∈ ('a' :: 'b' :: ([] : List Char)), CleanChar d) ∧
      ingestIana [String.mk ('a' :: 'b' :: [])] =
        Except.ok (Trie.mk none none
          (Entries.cons (KeyOpt.ch 'a') (chainTrie ('b' :: []))
            Entries.nil)) :=
  ⟨by decide, c4_amended 'a' 'b' [] (by decide)⟩

/-- Claim C5, counterexample: the entry "XN--P1AI" is ingested literally
(lowercased) with no internationalization decoding, so the assembled
pattern does not accept both the encoded form and the decoded Unicode
form "рф": the decoded form is rejected. -/
theorem c5_counterexample :
    pipelineRegex ["XN--P1AI"] = Except.ok "((?:xn--p1ai))" ∧
      ¬(fullMatch "((?:xn--p1ai))" "xn--p1ai" = true ∧
        fullMatch "((?:xn--p1ai))" "рф" = true) := by
  decide

/-- Claim C5, amended: an ASCII-compatible-encoded entry is ingested as
a literal string, with no decoding anywhere in the program; the
assembled pattern fully matches the literal encoded string and does not
match the decoded Unicode form (unless it is separately present in the
input). -/
theorem c5_amended :
    pipelineRegex ["XN--P1AI"] = Except.ok "((?:xn--p1ai))" ∧
      fullMatch "((?:xn--p1ai))" "xn--p1ai" = true ∧
      fullMatch "((?:xn--p1ai))" "рф" = false := by
  decide

/-- Claim C6, counterexample: for the suffix set of "aa", "ba", "ca" the
assembled pattern contains no character class at all (each suffix
becomes its own alternative, because the slot below the root is compiled
with the issame flag unset), and for three simple siblings the class
concatenates them in insertion order with no code point sorting and no
dash range: inserting "ad", "ac", "ab" yields the class [dcb]. -/
theorem c6_counterexample :
    pipelineRegex ["aa", "ba", "ca"] = Except.ok "((?:aa)|(?:ba)|(?:ca))" ∧
      ("((?:aa)|(?:ba)|(?:ca))".data.contains '[') = false ∧
      pipelineRegex ["ad", "ac", "ab"] = Except.ok "((?:a[dcb]))" := by
  decide

/-- Claim C6, amended: sibling single-character terminal children are
emitted concatenated in insertion order inside one character class when
there are at least two of them, with no run detection and no dash
ranges; the set of "aa", "ba", "ca" compiles to an alternation of three
groups (no class), which still matches all three suffixes and rejects
"da". -/
theorem c6_amended :
    pipelineRegex ["aa", "ba", "ca"] = Except.ok "((?:aa)|(?:ba)|(?:ca))" ∧
      fullMatch "((?:aa)|(?:ba)|(?:ca))" "aa" = true ∧
      fullMatch "((?:aa)|(?:ba)|(?:ca))" "ba" = true ∧
      fullMatch "((?:aa)|(?:ba)|(?:ca))" "ca" = true ∧
      fullMatch "((?:aa)|(?:ba)|(?:ca))" "da" = false ∧
      pipelineRegex ["ab", "ac", "ad"] = Except.ok "((?:a[bcd]))" ∧
      ("((?:a[bcd]))".data.contains '-') = false ∧
      fullMatch "((?:a[bcd]))" "ac" = true ∧
      fullMatch "((?:a[bcd]))" "aa" = false := by
  decide

/-- Claim C7, counterexample: for the suffixes "co" and "com" the node
after "o" is terminal with the child "m", and the assembled pattern is
"((?:c(?:o(?:m|))))": the continuation is rendered with a trailing bar
and an empty alternative, and the optional-quantifier form never occurs
(the pattern has no ")?" anywhere). -/
theorem c7_counterexample :
    pipelineRegex ["co", "com"] = Except.ok "((?:c(?:o(?:m|))))" ∧
      hasSubB "((?:c(?:o(?:m|))))".data [')', '?'] = false := by
  decide

/-- Claim C7, amended: a trie node that is both terminal and has
children is compiled by appending a bar with an empty alternative after
the children's fragment (never a question-mark quantifier); for "co" and
"com" the pattern matches exactly those two strings among the probes. -/
theorem c7_amended :
    pipelineRegex ["co", "com"] = Except.ok "((?:c(?:o(?:m|))))" ∧
      fullMatch "((?:c(?:o(?:m|))))" "co" = true ∧
      fullMatch "((?:c(?:o(?:m|))))" "com" = true ∧
      fullMatch "((?:c(?:o(?:m|))))" "comm" = false ∧
      fullMatch "((?:c(?:o(?:m|))))" "c" = false ∧
      fullMatch "((?:c(?:o(?:m|))))" "co m" = false := by
  decide

/-- Claim C8, counterexample: when the anti-workaround files exist but
contribute nothing, the decoded-side fragment is empty yet the
separating bar is still emitted, yielding "((?:ab)|)", which matches the
empty string; and with both fragments empty the output is "()", which
does match the empty string. -/
theorem c8_counterexample :
    mainRegex false ["ab"] (some ([], [])) = Except.ok "((?:ab)|)" ∧
      fullMatch "((?:ab)|)" "" = true ∧
      mainRegex false [] none = Except.ok "()" ∧
      fullMatch "()" "" = true := by
  decide

/-- Claim C8, amended: when the anti-workaround files exist but yield an
empty fragment, the separating bar is still emitted after a nonempty
literal fragment, and the resulting pattern matches the empty string in
addition to the real suffixes; with no suffixes at all the assembly is
the pattern of an empty group, which matches exactly the empty string,
not nothing. -/
theorem c8_amended (s : String) :
    (fullMatch "()" s = true ↔ s = "") ∧
      (fullMatch "((?:ab)|)" s = true ↔ (s = "ab" ∨ s = "")) := by
  constructor
  · rw [show fullMatch "()" s =
        rmatch (RE.alt (RE.seq (RE.alt RE.eps (RE.cls false [])) RE.eps)
          (RE.cls false [])) s.data from rfl]
    rw [rmatch_iff]
    simp [Lang, clsMatch, str_eq_empty_iff]
  · rw [show fullMatch "((?:ab)|)" s =
        rmatch (RE.alt
          (RE.seq
            (RE.alt
              (RE.seq
                (RE.alt
                  (RE.seq (RE.char 'a') (RE.seq (RE.char 'b') RE.eps))
                  (RE.cls false []))
                RE.eps)
              (RE.alt RE.eps (RE.cls false [])))
            RE.eps)
          (RE.cls false [])) s.data from rfl]
    rw [rmatch_iff]
    have hab : s = "ab" ↔ s.data = ['a', 'b'] := str_eq_iff_data s ['a', 'b']
    simp [Lang, clsMatch, str_eq_empty_iff, hab]

/-- Claim C9, counterexample: the dot of the ingested suffix "x." is
emitted into the pattern verbatim by the simple-singles path (it would
be "\\." under the program's own escaper), and the resulting pattern
"((?:x.))" matches "xa", so the metacharacter corrupted the pattern
rather than being escaped. -/
theorem c9_counterexample :
    pipelineRegex ["x."] = Except.ok "((?:x.))" ∧
      ("((?:x.))" : String) ≠ "((?:x\\.))" ∧
      fullMatch "((?:x.))" "xa" = true := by
  decide

/-- Claim C9, amended: the simple-singles compile path emits the child
key verbatim, for every character: a node whose only real child keys a
single-character terminal leaf compiles to the raw character, not to its
escaped form, so metacharacters on this path corrupt the pattern; only
the non-simple path (and the issame singles path) applies the escaper,
whose escape set never changes with position and gives ], ^ and - no
special handling. -/
theorem c9_amended (c : Char) :
    compileRegexRecursive (Trie.mk none none
        (Entries.cons (KeyOpt.ch c) (chainTrie []) Entries.nil)) false false =
      (String.singleton c, 1, 1, true) ∧
      escape '.' = "\\." ∧ String.singleton '.' ≠ ("\\." : String) ∧
      escape ']' = "\\]" ∧ escape '^' = "^" ∧ escape '-' = "-" := by
  exact ⟨rfl, by decide, by decide, by decide, by decide, by decide⟩

/-- Claim C10, confirmed: whenever the input lines include a line that
strips to the empty string, the ingestion indexes the first character of
an empty string; the IndexError propagates and the whole run aborts with
it instead of skipping the line. -/
theorem c10_blank_line_aborts (lines : List String)
    (hb : ∃ l ∈ lines, (pyStrip l).data = []) :
    pipelineRegex lines = Except.error PyErr.indexError := by
  have h1 := ingest_blank lines hb
  simp [pipelineRegex, mainRegex, h1]

theorem c10_blank_line_aborts_witness :
    (∃ l ∈ ["com", ""], (pyStrip l).data = []) ∧
      pipelineRegex ["com", ""] = Except.error PyErr.indexError :=
  ⟨⟨"", by decide, by decide⟩,
    c10_blank_line_aborts ["com", ""] ⟨"", by decide, by decide⟩⟩

end TldRegex
